import Mathlib

/-!
# Verification of the FFCS timetable generator

Shallow embedding of `src/utils/timetable_generator.py` (class `TimetableGenerator`)
and `src/models/slot.py` (the timing index), together with proofs about the
embedded operations.

Modelling conventions:
* Python floats are idealized as exact rationals, represented by the `Score`
  structure (an integer numerator over a positive natural denominator, never
  normalized); `Score.toRat` maps into `ℚ` for specification statements.
* `Slot.get_individual_slots` parses `slot_code` like `"A11+A12"` into
  `["A11", "A12"]`; the embedding stores the already-split list of atomic codes
  in the `codes` field of `MSlot` (string splitting itself is not modelled).
* `random.shuffle` / `random.sample` draw from the process-global generator;
  this is modelled by an explicit stream state `RState` threaded through the
  embedded functions.  A shuffle repeatedly extracts the element at a
  stream-chosen index, a faithful model of a Fisher–Yates pass.
-/

namespace FFCS

/-- Timing of one atomic slot code (`SLOT_TIMINGS` entry): day, period and the
start / end wall-clock times.  `stop` renders the Python key `end`. -/
structure Timing where
  day : String
  period : Nat
  start : String
  stop : String
deriving DecidableEq, Repr

/-- The static timing index `SLOT_TIMINGS` from `src/models/slot.py`:
48 atomic codes over 6 days × 8 periods. -/
def SLOT_TIMINGS : List (String × Timing) := [
  ("A11", ⟨"MON", 1, "08:30", "10:00"⟩),
  ("B11", ⟨"TUE", 1, "08:30", "10:00"⟩),
  ("C11", ⟨"WED", 1, "08:30", "10:00"⟩),
  ("D11", ⟨"THU", 1, "08:30", "10:00"⟩),
  ("E11", ⟨"FRI", 1, "08:30", "10:00"⟩),
  ("F11", ⟨"SAT", 1, "08:30", "10:00"⟩),
  ("A12", ⟨"MON", 2, "10:05", "11:35"⟩),
  ("B12", ⟨"TUE", 2, "10:05", "11:35"⟩),
  ("C12", ⟨"WED", 2, "10:05", "11:35"⟩),
  ("D12", ⟨"THU", 2, "10:05", "11:35"⟩),
  ("E12", ⟨"FRI", 2, "10:05", "11:35"⟩),
  ("F12", ⟨"SAT", 2, "10:05", "11:35"⟩),
  ("A13", ⟨"MON", 3, "11:40", "13:10"⟩),
  ("B13", ⟨"TUE", 3, "11:40", "13:10"⟩),
  ("C13", ⟨"WED", 3, "11:40", "13:10"⟩),
  ("D13", ⟨"THU", 3, "11:40", "13:10"⟩),
  ("E13", ⟨"FRI", 3, "11:40", "13:10"⟩),
  ("F13", ⟨"SAT", 3, "11:40", "13:10"⟩),
  ("A14", ⟨"MON", 4, "13:15", "14:45"⟩),
  ("B14", ⟨"TUE", 4, "13:15", "14:45"⟩),
  ("C14", ⟨"WED", 4, "13:15", "14:45"⟩),
  ("D14", ⟨"THU", 4, "13:15", "14:45"⟩),
  ("E14", ⟨"FRI", 4, "13:15", "14:45"⟩),
  ("F14", ⟨"SAT", 4, "13:15", "14:45"⟩),
  ("A21", ⟨"MON", 5, "14:50", "16:20"⟩),
  ("B21", ⟨"TUE", 5, "14:50", "16:20"⟩),
  ("C21", ⟨"WED", 5, "14:50", "16:20"⟩),
  ("D21", ⟨"THU", 5, "14:50", "16:20"⟩),
  ("E21", ⟨"FRI", 5, "14:50", "16:20"⟩),
  ("F21", ⟨"SAT", 5, "14:50", "16:20"⟩),
  ("A22", ⟨"MON", 6, "16:25", "17:55"⟩),
  ("B22", ⟨"TUE", 6, "16:25", "17:55"⟩),
  ("C22", ⟨"WED", 6, "16:25", "17:55"⟩),
  ("D22", ⟨"THU", 6, "16:25", "17:55"⟩),
  ("E22", ⟨"FRI", 6, "16:25", "17:55"⟩),
  ("F22", ⟨"SAT", 6, "16:25", "17:55"⟩),
  ("A23", ⟨"MON", 7, "18:00", "19:30"⟩),
  ("B23", ⟨"TUE", 7, "18:00", "19:30"⟩),
  ("C23", ⟨"WED", 7, "18:00", "19:30"⟩),
  ("D23", ⟨"THU", 7, "18:00", "19:30"⟩),
  ("E23", ⟨"FRI", 7, "18:00", "19:30"⟩),
  ("F23", ⟨"SAT", 7, "18:00", "19:30"⟩),
  ("A24", ⟨"MON", 8, "19:30", "21:00"⟩),
  ("B24", ⟨"TUE", 8, "19:30", "21:00"⟩),
  ("C24", ⟨"WED", 8, "19:30", "21:00"⟩),
  ("D24", ⟨"THU", 8, "19:30", "21:00"⟩),
  ("E24", ⟨"FRI", 8, "19:30", "21:00"⟩),
  ("F24", ⟨"SAT", 8, "19:30", "21:00"⟩)]

/-- `get_slot_timing(slot_code)`: dictionary lookup in the timing index,
`None` for an unknown code. -/
def getSlotTiming (code : String) : Option Timing :=
  SLOT_TIMINGS.lookup code

/-- `MUTUAL_EXCLUSION_GROUPS`: pairs of atomic-code sets that clash even
without a literal time overlap. -/
def MUTUAL_EXCLUSION_GROUPS : List (List String × List String) :=
  [(["C11", "C12", "C13"], ["A21", "A22", "A23"])]

/-- A slot record (`models.slot.Slot`) as the generator sees it: identity,
owning course, atomic codes (the parsed `slot_code`), the faculty name reached
through the `faculty` relationship (`none` models a missing faculty row), the
venue, and the owning course's credit value `course.c`. -/
structure MSlot where
  id : Nat
  courseId : Nat
  codes : List String
  faculty : Option String
  venue : String
  credits : Nat
deriving DecidableEq, Repr

/-- `Slot.get_individual_slots`: the list of atomic codes of a slot
(the embedding stores the parsed list directly). -/
def MSlot.getIndividualSlots (s : MSlot) : List String := s.codes

/-- A course record (`models.course.Course`): identity, credit value `c`, and
the slots reachable through `course.slots.all()`. -/
structure MCourse where
  id : Nat
  c : Nat
  slots : List MSlot
deriving DecidableEq, Repr

/-- `GenerationPreferences` (the fields the generator reads). -/
structure MPreferences where
  avoidEarlyMorning : Bool
  avoidLateEvening : Bool
  timeMode : String
  preferMorning : Bool
  preferAfternoon : Bool
  courseFacultyPreferences : List (String × List String)
  avoidedFaculties : List String
  excludeSlots : List String
deriving DecidableEq, Repr

/-- Default `GenerationPreferences()`. -/
def defaultPreferences : MPreferences :=
  ⟨false, false, "none", false, false, [], [], []⟩

/-- `prefs.course_faculty_preferences.get(cid_str, [])`. -/
def MPreferences.prefsFor (p : MPreferences) (cidStr : String) : List String :=
  (p.courseFacultyPreferences.lookup cidStr).getD []

/-- Exact rationals standing in for Python floats: an integer numerator over a
positive natural denominator.  Values are never normalized; `toRat` is the
semantic map into `ℚ`. -/
structure Score where
  num : Int
  den : Nat
  den_pos : 0 < den

/-- Semantic value of a `Score` in `ℚ`. -/
def Score.toRat (a : Score) : ℚ := (a.num : ℚ) / (a.den : ℚ)

/-- Embed an integer as a `Score`. -/
def Score.ofInt (n : Int) : Score := ⟨n, 1, Nat.one_pos⟩

instance : OfNat Score n := ⟨Score.ofInt n⟩

/-- Addition of scores (cross multiplication, no normalization). -/
def Score.add (a b : Score) : Score :=
  ⟨a.num * b.den + b.num * a.den, a.den * b.den, Nat.mul_pos a.den_pos b.den_pos⟩

/-- Multiply a score by an integer. -/
def Score.scale (k : Int) (a : Score) : Score := ⟨k * a.num, a.den, a.den_pos⟩

/-- Divide a score by a natural number; division by zero never occurs in the
embedded code (it is guarded), so that case returns `0`. -/
def Score.divNat (a : Score) (k : Nat) : Score :=
  if h : 0 < k then ⟨a.num, a.den * k, Nat.mul_pos a.den_pos h⟩ else Score.ofInt 0

/-- Boolean `≤` on scores (cross multiplication; dens are positive). -/
def Score.ble (a b : Score) : Bool := a.num * (b.den : Int) ≤ b.num * (a.den : Int)

theorem Score.toRat_ofInt (n : Int) : (Score.ofInt n).toRat = (n : ℚ) := by
  simp [Score.ofInt, Score.toRat]

theorem Score.toRat_add (a b : Score) : (a.add b).toRat = a.toRat + b.toRat := by
  have ha : ((a.den : ℚ)) ≠ 0 := by
    exact_mod_cast Nat.pos_iff_ne_zero.mp a.den_pos
  have hb : ((b.den : ℚ)) ≠ 0 := by
    exact_mod_cast Nat.pos_iff_ne_zero.mp b.den_pos
  simp only [Score.add, Score.toRat]
  push_cast
  field_simp

theorem Score.toRat_scale (k : Int) (a : Score) :
    (Score.scale k a).toRat = (k : ℚ) * a.toRat := by
  simp only [Score.scale, Score.toRat]
  push_cast
  ring

theorem Score.toRat_divNat (a : Score) (k : Nat) (h : 0 < k) :
    (a.divNat k).toRat = a.toRat / (k : ℚ) := by
  have ha : ((a.den : ℚ)) ≠ 0 := by
    exact_mod_cast Nat.pos_iff_ne_zero.mp a.den_pos
  have hk : ((k : ℚ)) ≠ 0 := by
    exact_mod_cast Nat.pos_iff_ne_zero.mp h
  simp only [Score.divNat, dif_pos h, Score.toRat]
  push_cast
  field_simp

theorem Score.ble_iff (a b : Score) : a.ble b = true ↔ a.toRat ≤ b.toRat := by
  have ha : (0 : ℚ) < (a.den : ℚ) := by exact_mod_cast a.den_pos
  have hb : (0 : ℚ) < (b.den : ℚ) := by exact_mod_cast b.den_pos
  simp only [Score.ble, Score.toRat, decide_eq_true_eq]
  rw [div_le_div_iff₀ ha hb]
  constructor
  · intro h; exact_mod_cast h
  · intro h; exact_mod_cast h

/-- Timing cells (day, period) of a slot: the entry `_build_timing_cache`
stores in `_slot_timings_cache` (resolvable codes only). -/
def slotTimings (s : MSlot) : List (String × Nat) :=
  s.getIndividualSlots.filterMap
    (fun c => (getSlotTiming c).map (fun t => (t.day, t.period)))

/-- The mutual-exclusion-group pairing test shared by `_check_clash` and
`_build_conflict_matrix`: one slot's codes meet group A while the other's meet
group B, or vice versa. -/
def mutexPairClash (codes1 codes2 : List String) : Bool :=
  MUTUAL_EXCLUSION_GROUPS.any (fun g =>
    let h1a := codes1.any (fun c => g.1.contains c)
    let h1b := codes1.any (fun c => g.2.contains c)
    let h2a := codes2.any (fun c => g.1.contains c)
    let h2b := codes2.any (fun c => g.2.contains c)
    (h1a && h2b) || (h1b && h2a))

/-- `_check_clash`: mutual-exclusion pairing, or two resolvable codes landing
on the same (day, period). -/
def checkClash (s1 s2 : MSlot) : Bool :=
  mutexPairClash s1.getIndividualSlots s2.getIndividualSlots ||
  s1.getIndividualSlots.any (fun c1 => s2.getIndividualSlots.any (fun c2 =>
    match getSlotTiming c1, getSlotTiming c2 with
    | some t1, some t2 => t1.day == t2.day && t1.period == t2.period
    | _, _ => false))

/-- `_check_clash_fast` through `_build_conflict_matrix`: the matrix relates
two slots of different courses when their cached timing sets intersect or
their codes match a mutual-exclusion pairing; same-course pairs are skipped
when the matrix is built.  The matrix is modelled by this characteristic
predicate of its entries (the source looks the pair up by slot id in O(1)). -/
def checkClashFast (s1 s2 : MSlot) : Bool :=
  s1.courseId != s2.courseId &&
  ((slotTimings s1).any (fun t => (slotTimings s2).contains t) ||
    mutexPairClash s1.getIndividualSlots s2.getIndividualSlots)

/-- `_should_exclude_slot`: avoided faculty name, or some atomic code in the
excluded-slot list. -/
def shouldExcludeSlot (p : MPreferences) (s : MSlot) : Bool :=
  (match s.faculty with
   | some f => p.avoidedFaculties.contains f
   | none => false) ||
  s.getIndividualSlots.any (fun c => p.excludeSlots.contains c)

/-- `_is_slot_faulty` (boolean part; the warning string is a side effect the
claims do not touch): some atomic code fails to resolve in the timing index. -/
def isSlotFaulty (s : MSlot) : Bool :=
  s.getIndividualSlots.any (fun c => (getSlotTiming c).isNone)

/-- The faculty component of `_score_slot`: 1000 / 800 / 600 for preference
rank 0 / 1 / 2 of the slot's faculty for its course, 0 otherwise (guarded by
the truthiness tests on the preference dict and `slot.course_id`). -/
def facultyScore (p : MPreferences) (s : MSlot) : Score :=
  if !p.courseFacultyPreferences.isEmpty && s.courseId != 0 then
    let coursePrefs := p.prefsFor (toString s.courseId)
    match s.faculty with
    | some f =>
      if coursePrefs.contains f then
        let rank := coursePrefs.indexOf f
        if rank = 0 then Score.ofInt 1000
        else if rank = 1 then Score.ofInt 800
        else if rank = 2 then Score.ofInt 600
        else Score.ofInt 0
      else Score.ofInt 0
    | none => Score.ofInt 0
  else Score.ofInt 0

/-- The backwards-compatibility remap at the top of the time-score section of
`_score_slot`: `prefer_morning` / `prefer_afternoon` take effect only when
`time_mode` is exactly `'none'`. -/
def effectiveMode (p : MPreferences) : String :=
  if p.timeMode = "none" then
    if p.preferMorning then "morning"
    else if p.preferAfternoon then "afternoon"
    else "none"
  else p.timeMode

/-- Per-cell time score of `_score_slot` (the body of the loop over
`individual_slots`). -/
def cellTimeScore (p : MPreferences) (s : MSlot) (code : String) : Score :=
  if p.excludeSlots.contains code then Score.ofInt (-1000)
  else if (match s.faculty with
           | some f => p.avoidedFaculties.contains f
           | none => false) then Score.ofInt (-1000)
  else
    match getSlotTiming code with
    | some t =>
      let period := t.period
      if p.avoidEarlyMorning && period == 1 then Score.ofInt 0
      else if p.avoidLateEvening && period == 7 then Score.ofInt 0
      else
        let mode := effectiveMode p
        if mode = "morning" then
          Score.ofInt (max 0 (115 - 15 * (period : Int)))
        else if mode = "evening" || mode = "afternoon" then
          Score.ofInt (max 0 (10 + 15 * ((period : Int) - 1)))
        else if mode = "middle" then
          Score.ofInt (max 0 (100 - 30 * |(period : Int) - 4|))
        else Score.ofInt 50
    | none => Score.ofInt 0

/-- `_estimate_gap_penalty`: −8·|period − 4| summed over resolvable cells,
divided by the number of codes. -/
def estimateGapPenalty (s : MSlot) : Score :=
  let individual := s.getIndividualSlots
  if individual.isEmpty then Score.ofInt 0
  else
    let penalty : Int := (individual.filterMap getSlotTiming).foldl
      (fun acc t => acc + |(t.period : Int) - 4| * 8) 0
    Score.divNat (Score.ofInt (-penalty)) individual.length

/-- `_score_slot`: credit-weighted (average over codes of cell time score plus
faculty score, plus the gap-heuristic penalty). -/
def scoreSlot (p : MPreferences) (s : MSlot) : Score :=
  let individual := s.getIndividualSlots
  if individual.isEmpty then Score.ofInt 0
  else
    let fs := facultyScore p s
    let total := individual.foldl
      (fun acc c => acc.add ((cellTimeScore p s c).add fs)) (Score.ofInt 0)
    let avg := total.divNat individual.length
    let avgWithGap := avg.add (estimateGapPenalty s)
    let credits : Int := if s.credits != 0 then (s.credits : Int) else 1
    Score.scale credits avgWithGap

/-- Model of the process-global PRNG (`import random`): a stream of naturals
(the stream is what the seed determines) with the current read position. -/
structure RState where
  stream : Nat → Nat
  pos : Nat

/-- Draw a number below `n` and advance the stream position. -/
def randBelow (n : Nat) (st : RState) : Nat × RState :=
  (st.stream st.pos % n, ⟨st.stream, st.pos + 1⟩)

/-- Fuel-indexed worker for `shuffleList`.  The fuel always equals the list
length on every call, so the zero-fuel arm is never reached with a non-empty
list; the fuel only makes the recursion structural. -/
def shuffleGo : Nat → List α → RState → List α × RState
  | 0, _, st => ([], st)
  | _ + 1, [], st => ([], st)
  | fuel + 1, a :: as, st =>
    let j := (randBelow (a :: as).length st).1
    let st' := (randBelow (a :: as).length st).2
    let x := (a :: as).getD j a
    let rest := (a :: as).eraseIdx j
    let (rest', st'') := shuffleGo fuel rest st'
    (x :: rest', st'')

/-- Model of `random.shuffle`: repeatedly extract the element at a
stream-chosen index (a Fisher–Yates pass driven by the stream). -/
def shuffleList (l : List α) (st : RState) : List α × RState :=
  shuffleGo l.length l st

/-- Model of `random.sample(l, k)`: `k` extractions without replacement. -/
def sampleList : List α → Nat → RState → List α × RState
  | _, 0, st => ([], st)
  | [], _ + 1, st => ([], st)
  | a :: as, k + 1, st =>
    let (j, st') := randBelow (a :: as).length st
    let x := (a :: as).getD j a
    let rest := (a :: as).eraseIdx j
    let (rest', st'') := sampleList rest k st'
    (x :: rest', st'')

/-- Descending order on slots by precomputed score, the sort key of
`_build_slot_map`'s greedy mode (`key=_score_slot, reverse=True`). -/
def scoreDescRel (p : MPreferences) (a b : MSlot) : Prop :=
  Score.ble (scoreSlot p b) (scoreSlot p a) = true

instance (p : MPreferences) : DecidableRel (scoreDescRel p) :=
  fun _ _ => inferInstanceAs (Decidable (_ = true))

/-- Per-course candidate filter inside `_build_slot_map`: drop faulty slots,
and unless preferences are ignored also the hard-excluded ones. -/
def filteredSlots (p : MPreferences) (ignorePreferences : Bool)
    (course : MCourse) : List MSlot :=
  course.slots.filter (fun s => !isSlotFaulty s &&
    (ignorePreferences || !shouldExcludeSlot p s))

/-- `_build_slot_map`: per course, filter, shuffle, and unless `randomizeOnly`
sort by descending precomputed score; the slot map is the resulting
association list in course order (Python's dict keyed by course id). -/
def buildSlotMap (p : MPreferences) (courses : List MCourse)
    (randomizeOnly ignorePreferences : Bool) (st : RState) :
    List (Nat × List MSlot) × RState :=
  match courses with
  | [] => ([], st)
  | course :: rest =>
    let slots := filteredSlots p ignorePreferences course
    let (shuffled, st') := shuffleList slots st
    let finalSlots := if randomizeOnly then shuffled
      else shuffled.insertionSort (scoreDescRel p)
    let (restMap, st'') := buildSlotMap p rest randomizeOnly ignorePreferences st'
    ((course.id, finalSlots) :: restMap, st'')

/-- `self.slot_map.get(cid, [])`. -/
def mapGet (m : List (Nat × List MSlot)) (cid : Nat) : List MSlot :=
  (m.lookup cid).getD []

/-- The shared occupied-cell walk of the builders (`for code in
slot.get_individual_slots(): ...`): resolve each code, fail when a resolved
cell is already occupied, otherwise collect the new cells. -/
def collectTimesGo (occupied : List (String × Nat)) :
    List String → List (String × Nat) → Option (List (String × Nat))
  | [], acc => some acc
  | c :: cs, acc =>
    match getSlotTiming c with
    | some t =>
      if occupied.contains (t.day, t.period) then none
      else collectTimesGo occupied cs (acc ++ [(t.day, t.period)])
    | none => collectTimesGo occupied cs acc

/-- `collectTimesGo` started on a slot's codes with an empty accumulator. -/
def collectTimes (slot : MSlot) (occupied : List (String × Nat)) :
    Option (List (String × Nat)) :=
  collectTimesGo occupied slot.getIndividualSlots []

/-- The candidate loop shared by the random builders: first slot that neither
clashes (`_check_clash`) with a selected slot nor hits an occupied cell. -/
def firstFit (candidates selected : List MSlot)
    (occupied : List (String × Nat)) : Option (MSlot × List (String × Nat)) :=
  match candidates with
  | [] => none
  | slot :: rest =>
    if selected.any (fun e => checkClash slot e) then firstFit rest selected occupied
    else
      match collectTimes slot occupied with
      | some newTimes => some (slot, newTimes)
      | none => firstFit rest selected occupied

/-- Course loop of `_try_random_timetable`. -/
def tryRandomGo (m : List (Nat × List MSlot)) :
    List MCourse → List MSlot → List (String × Nat) → RState →
    Option (List MSlot) × RState
  | [], selected, _, st => (some selected, st)
  | course :: rest, selected, occupied, st =>
    let slots := mapGet m course.id
    if slots.isEmpty then (none, st)
    else
      let (shuffled, st') := shuffleList slots st
      match firstFit (shuffled.take 10) selected occupied with
      | some (slot, newTimes) =>
        tryRandomGo m rest (selected ++ [slot]) (occupied ++ newTimes) st'
      | none => (none, st')

/-- `_try_random_timetable`: shuffle the course order, then for each course
take the first fitting slot among the first 10 of a shuffle of its pool.
(The source shuffles the stored pool in place; a shuffle of a permuted list
is again a stream-determined permutation of the same list, so the embedding
shuffles the stored list and leaves the map unchanged.) -/
def tryRandomTimetable (courses : List MCourse) (m : List (Nat × List MSlot))
    (st : RState) : Option (List MSlot) × RState :=
  let (shuffledCourses, st') := shuffleList courses st
  match tryRandomGo m shuffledCourses [] [] st' with
  | (some sel, st'') =>
    (if sel.length = courses.length then some sel else none, st'')
  | (none, st'') => (none, st'')

/-- Signature of a solution: the set of chosen slot ids
(`frozenset(s.id for s in selected)`). -/
def solutionSig (sel : List MSlot) : Finset Nat := (sel.map (·.id)).toFinset

/-- The recursive `backtrack` of `generate_exhaustive`: depth-first over the
courses in list order; a complete branch is recorded unless its signature was
seen; everything is capped at `maxSolutions`. -/
def exhaustiveBT (m : List (Nat × List MSlot)) (maxSolutions : Nat) :
    List MCourse → List MSlot → List (String × Nat) →
    List (List MSlot) × List (Finset Nat) → List (List MSlot) × List (Finset Nat)
  | [], selected, _, acc =>
    if acc.1.length ≥ maxSolutions then acc
    else
      let sig := solutionSig selected
      if sig ∈ acc.2 then acc else (acc.1 ++ [selected], acc.2 ++ [sig])
  | course :: rest, selected, occupied, acc =>
    (mapGet m course.id).foldl (fun acc' slot =>
      if acc'.1.length ≥ maxSolutions then acc'
      else if selected.any (fun e => checkClashFast slot e) then acc'
      else if (slotTimings slot).any (fun t => occupied.contains t) then acc'
      else exhaustiveBT m maxSolutions rest (selected ++ [slot])
        (occupied ++ slotTimings slot) acc') acc

/-- A produced `TimetableSolution` (slots, quality score, total credits; the
diagnostics dict is informational and recomputable, so it is not carried). -/
structure MSolution where
  slots : List MSlot
  score : Score
  totalCredits : Nat

/-- `sum(s.course.c if s.course else 0 for s in slots)`. -/
def sumCredits (slots : List MSlot) : Nat :=
  (slots.map (·.credits)).sum

/-- `_calculate_solution_total_score`: average of the slot scores. -/
def calculateSolutionTotalScore (p : MPreferences) (slots : List MSlot) : Score :=
  if slots.isEmpty then Score.ofInt 0
  else (slots.foldl (fun acc s => acc.add (scoreSlot p s))
    (Score.ofInt 0)).divNat slots.length

/-- Descending order on solutions by score
(`scored_solutions.sort(key=lambda x: x.score, reverse=True)`). -/
def solScoreDescRel (a b : MSolution) : Prop := Score.ble b.score a.score = true

instance : DecidableRel solScoreDescRel :=
  fun _ _ => inferInstanceAs (Decidable (_ = true))

/-- `generate_exhaustive`: run the backtracking, score every solution, rank by
descending score and return the top `targetSize`. -/
def generateExhaustive (p : MPreferences) (courses : List MCourse)
    (m : List (Nat × List MSlot)) (maxSolutions targetSize : Nat) :
    List MSolution :=
  if courses.isEmpty then []
  else
    let allSolutions := (exhaustiveBT m maxSolutions courses [] [] ([], [])).1
    let scored := allSolutions.map (fun slots =>
      ⟨slots, calculateSolutionTotalScore p slots, sumCredits slots⟩)
    (scored.insertionSort solScoreDescRel).take targetSize

/-- The `backtrack` of `count_solutions`: count complete conflict-free
assignments depth-first, stopping at `maxCount`. -/
def countBT (m : List (Nat × List MSlot)) (maxCount : Nat) :
    List MCourse → List MSlot → List (String × Nat) → Nat → Nat
  | [], _, _, count => if count ≥ maxCount then count else count + 1
  | course :: rest, selected, occupied, count =>
    (mapGet m course.id).foldl (fun cnt slot =>
      if cnt ≥ maxCount then cnt
      else if selected.any (fun e => checkClash slot e) then cnt
      else
        match collectTimes slot occupied with
        | none => cnt
        | some newTimes =>
          countBT m maxCount rest (selected ++ [slot]) (occupied ++ newTimes) cnt)
      count

/-- `count_solutions(max_count)`. -/
def countSolutions (courses : List MCourse) (m : List (Nat × List MSlot))
    (maxCount : Nat) : Nat :=
  if courses.isEmpty then 0 else countBT m maxCount courses [] [] 0

/-- Replace the first entry for key `cid` (Python dict update
`self.slot_map[c1_id]`). -/
def mapSet : List (Nat × List MSlot) → Nat → List MSlot → List (Nat × List MSlot)
  | [], _, _ => []
  | e :: rest, cid, v => if e.1 = cid then (cid, v) :: rest else e :: mapSet rest cid v

/-- Total number of slots across all domains (termination measure of AC-3). -/
def totalSize (m : List (Nat × List MSlot)) : Nat :=
  (m.map (fun e => e.2.length)).sum

/-- `_revise(c1, c2)`: drop from c1's domain every slot with no support (no
non-conflicting partner, by `_check_clash_fast`) in c2's domain; report
whether anything was dropped.  (The source collects `slots_to_remove` and
deletes them with `list.remove`; on a duplicate-free domain that is exactly
the filter below.) -/
def revise (m : List (Nat × List MSlot)) (c1 c2 : Nat) :
    Bool × List (Nat × List MSlot) :=
  let dom1 := mapGet m c1
  let dom2 := mapGet m c2
  let kept := dom1.filter (fun s1 => dom2.any (fun s2 => !checkClashFast s1 s2))
  (kept.length != dom1.length, mapSet m c1 kept)

theorem mapGet_cons (e : Nat × List MSlot) (rest : List (Nat × List MSlot))
    (c : Nat) : mapGet (e :: rest) c = if e.1 = c then e.2 else mapGet rest c := by
  obtain ⟨k, l⟩ := e
  by_cases he : k = c
  · simp [mapGet, List.lookup, he]
  · have hne : (c == k) = false := by simp [Ne.symm he]
    simp [mapGet, List.lookup, hne, he]

theorem totalSize_mapSet_le {m : List (Nat × List MSlot)} {c : Nat}
    {v : List MSlot} (h : v.length ≤ (mapGet m c).length) :
    totalSize (mapSet m c v) ≤ totalSize m := by
  induction m with
  | nil => simp [mapSet]
  | cons e rest ih =>
    obtain ⟨k, l⟩ := e
    rw [mapGet_cons] at h
    by_cases he : k = c
    · subst he
      simp only [if_pos rfl, ite_true, eq_self_iff_true] at h
      simp [mapSet, totalSize]
      omega
    · simp only [he, if_neg he] at h
      have := ih h
      simp only [mapSet, if_neg he, totalSize, List.map_cons, List.sum_cons]
      simp only [totalSize] at this
      omega

theorem totalSize_mapSet_lt {m : List (Nat × List MSlot)} {c : Nat}
    {v : List MSlot} (h : v.length < (mapGet m c).length) :
    totalSize (mapSet m c v) < totalSize m := by
  induction m with
  | nil => simp [mapGet, List.lookup] at h
  | cons e rest ih =>
    obtain ⟨k, l⟩ := e
    rw [mapGet_cons] at h
    by_cases he : k = c
    · subst he
      simp only [if_pos rfl, ite_true, eq_self_iff_true] at h
      simp [mapSet, totalSize]
      omega
    · simp only [he, if_neg he] at h
      have := ih h
      simp only [mapSet, if_neg he, totalSize, List.map_cons, List.sum_cons]
      simp only [totalSize] at this
      omega

theorem revise_true_size_lt {m : List (Nat × List MSlot)} {c1 c2 : Nat}
    (h : (revise m c1 c2).1 = true) :
    totalSize (revise m c1 c2).2 < totalSize m := by
  unfold revise at h ⊢
  simp only [bne_iff_ne, ne_eq] at h
  refine totalSize_mapSet_lt ?_
  have hle := List.length_filter_le
    (fun s1 => (mapGet m c2).any (fun s2 => !checkClashFast s1 s2)) (mapGet m c1)
  omega

theorem revise_size_le (m : List (Nat × List MSlot)) (c1 c2 : Nat) :
    totalSize (revise m c1 c2).2 ≤ totalSize m := by
  unfold revise
  refine totalSize_mapSet_le ?_
  exact List.length_filter_le _ _

/-- The `while queue` loop of `apply_arc_consistency`: pop an arc (FIFO); a
successful revision either aborts with `False` on an emptied domain or
re-enqueues the arcs into the revised course (skipping the support course). -/
def acLoop (courses : List MCourse) :
    List (Nat × List MSlot) → List (Nat × Nat) → Bool × List (Nat × List MSlot)
  | m, [] => (true, m)
  | m, (c1, c2) :: rest =>
    if hr : (revise m c1 c2).1 = true then
      if (mapGet (revise m c1 c2).2 c1).isEmpty then (false, (revise m c1 c2).2)
      else
        acLoop courses (revise m c1 c2).2
          (rest ++ courses.filterMap (fun c3 =>
            if c3.id ≠ c1 ∧ c3.id ≠ c2 then some (c3.id, c1) else none))
    else acLoop courses m rest
termination_by m q => (totalSize m, q.length)
decreasing_by
  · exact Prod.Lex.left _ _ (revise_true_size_lt hr)
  · exact Prod.Lex.right _ (Nat.lt_succ_self _)

/-- `apply_arc_consistency`: AC-3 over all ordered course-id pairs; `false`
means a domain was wiped out (unsatisfiable). -/
def applyArcConsistency (courses : List MCourse)
    (m : List (Nat × List MSlot)) : Bool × List (Nat × List MSlot) :=
  if courses.length < 2 then (true, m)
  else
    acLoop courses m
      (courses.flatMap (fun c1 => courses.filterMap (fun c2 =>
        if c1.id ≠ c2.id then some (c1.id, c2.id) else none)))

/-- The complete assignment space over a course list: one slot from each
course's domain, in course order. -/
def extensions (m : List (Nat × List MSlot)) : List MCourse → List (List MSlot)
  | [] => [[]]
  | course :: rest =>
    (mapGet m course.id).flatMap (fun slot =>
      (extensions m rest).map (fun ext => slot :: ext))

/-- Conflict-freedom of an assignment: no two chosen slots clash under
`_check_clash`. -/
def NoClashPW (sel : List MSlot) : Prop :=
  sel.Pairwise (fun a b => checkClash a b = false)

instance : DecidablePred NoClashPW := fun sel =>
  inferInstanceAs (Decidable (sel.Pairwise _))

/-- The valid complete assignments over the current domains. -/
def validAssignments (m : List (Nat × List MSlot)) (courses : List MCourse) :
    List (List MSlot) :=
  (extensions m courses).filter (fun sel => decide (NoClashPW sel))

theorem checkClash_symm (a b : MSlot) : checkClash a b = checkClash b a := by
  have key : ∀ x y : MSlot, checkClash x y = true → checkClash y x = true := by
    intro x y h
    unfold checkClash at h ⊢
    rcases Bool.or_eq_true_iff.mp h with hmx | htm
    · refine Bool.or_eq_true_iff.mpr (Or.inl ?_)
      unfold mutexPairClash at hmx ⊢
      rcases List.any_eq_true.mp hmx with ⟨g, hg, hcond⟩
      refine List.any_eq_true.mpr ⟨g, hg, ?_⟩
      simp only [Bool.or_eq_true, Bool.and_eq_true] at hcond ⊢
      tauto
    · refine Bool.or_eq_true_iff.mpr (Or.inr ?_)
      rcases List.any_eq_true.mp htm with ⟨c1, hc1, hin⟩
      rcases List.any_eq_true.mp hin with ⟨c2, hc2, heq⟩
      refine List.any_eq_true.mpr ⟨c2, hc2, List.any_eq_true.mpr ⟨c1, hc1, ?_⟩⟩
      cases h2 : getSlotTiming c2 with
      | none => rw [h2] at heq; cases h1 : getSlotTiming c1 <;> rw [h1] at heq <;> simp at heq
      | some t2 =>
        cases h1 : getSlotTiming c1 with
        | none => rw [h1, h2] at heq; simp at heq
        | some t1 =>
          rw [h1, h2] at heq
          show (t2.day == t1.day && t2.period == t1.period) = true
          have heq' : (t1.day == t2.day && t1.period == t2.period) = true := heq
          simp only [Bool.and_eq_true, beq_iff_eq] at heq' ⊢
          exact ⟨heq'.1.symm, heq'.2.symm⟩
  by_cases hab : checkClash a b = true
  · rw [hab, key a b hab]
  · have hba : checkClash b a ≠ true := fun h => hab (key b a h)
    have hab' : checkClash a b = false := by
      revert hab; cases checkClash a b <;> simp
    have hba' : checkClash b a = false := by
      revert hba; cases checkClash b a <;> simp
    rw [hab', hba']

theorem mem_slotTimings {t : String × Nat} {s : MSlot} :
    t ∈ slotTimings s ↔
      ∃ c ∈ s.getIndividualSlots, ∃ tt, getSlotTiming c = some tt ∧
        (tt.day, tt.period) = t := by
  unfold slotTimings
  rw [List.mem_filterMap]
  constructor
  · rintro ⟨c, hc, hmap⟩
    cases h : getSlotTiming c with
    | none => rw [h] at hmap; simp at hmap
    | some tt =>
      rw [h] at hmap
      simp only [Option.map_some', Option.some_inj] at hmap
      exact ⟨c, hc, tt, h, hmap⟩
  · rintro ⟨c, hc, tt, hget, hpair⟩
    exact ⟨c, hc, by rw [hget]; simpa using hpair⟩

/-- A shared resolved (day, period) cell forces a `_check_clash`. -/
theorem checkClash_of_sharedTiming {t : String × Nat} {s1 s2 : MSlot}
    (h1 : t ∈ slotTimings s1) (h2 : t ∈ slotTimings s2) :
    checkClash s1 s2 = true := by
  rcases mem_slotTimings.mp h1 with ⟨c1, hc1, t1, hg1, hp1⟩
  rcases mem_slotTimings.mp h2 with ⟨c2, hc2, t2, hg2, hp2⟩
  unfold checkClash
  refine Bool.or_eq_true_iff.mpr (Or.inr ?_)
  refine List.any_eq_true.mpr ⟨c1, hc1, List.any_eq_true.mpr ⟨c2, hc2, ?_⟩⟩
  rw [hg1, hg2]
  have hpair : (t1.day, t1.period) = (t2.day, t2.period) := hp1.trans hp2.symm
  have hday : t1.day = t2.day := (Prod.mk.injEq _ _ _ _).mp hpair |>.1
  have hper : t1.period = t2.period := (Prod.mk.injEq _ _ _ _).mp hpair |>.2
  show (t1.day == t2.day && t1.period == t2.period) = true
  rw [hday, hper]
  simp

theorem collectTimesGo_all_free {occ : List (String × Nat)} {codes : List String}
    (h : ∀ c ∈ codes, ∀ t, getSlotTiming c = some t →
      ¬ occ.contains (t.day, t.period) = true) (acc : List (String × Nat)) :
    collectTimesGo occ codes acc = some (acc ++ codes.filterMap
      (fun c => (getSlotTiming c).map (fun t => (t.day, t.period)))) := by
  induction codes generalizing acc with
  | nil => simp [collectTimesGo]
  | cons c cs ih =>
    have hc := h c (List.mem_cons_self _ _)
    have hcs : ∀ c' ∈ cs, ∀ t, getSlotTiming c' = some t →
        ¬ occ.contains (t.day, t.period) = true :=
      fun c' hc' => h c' (List.mem_cons_of_mem _ hc')
    cases hg : getSlotTiming c with
    | none => simp [collectTimesGo, hg, ih hcs]
    | some t =>
      have hfree : occ.contains (t.day, t.period) = false :=
        Bool.not_eq_true _ |>.mp (hc t hg)
      have hnm : (t.day, t.period) ∉ occ := by
        intro hm
        have hcontains : occ.contains (t.day, t.period) = true := by
          rw [List.contains_eq_any_beq]
          exact List.any_eq_true.mpr ⟨_, hm, by simp⟩
        rw [hfree] at hcontains
        exact Bool.false_ne_true hcontains
      simp [collectTimesGo, hg, hfree, hnm, ih hcs]

/-- When a slot does not `_check_clash` with any selected slot, the occupied-
cell walk succeeds and yields exactly the slot's resolved cells. -/
theorem collectTimes_of_noClash {slot : MSlot} {selected : List MSlot}
    (h : ∀ e ∈ selected, checkClash slot e = false) :
    collectTimes slot (selected.flatMap slotTimings) = some (slotTimings slot) := by
  unfold collectTimes
  have hfree : ∀ c ∈ slot.getIndividualSlots, ∀ t, getSlotTiming c = some t →
      ¬ (selected.flatMap slotTimings).contains (t.day, t.period) = true := by
    intro c hc t hg hmem
    rw [List.contains_eq_any_beq] at hmem
    rcases List.any_eq_true.mp hmem with ⟨cell, hcell, hbeq⟩
    rcases List.mem_flatMap.mp hcell with ⟨e, he, hcelle⟩
    have hcells : cell = (t.day, t.period) := (eq_of_beq hbeq).symm
    subst hcells
    have hslot : (t.day, t.period) ∈ slotTimings slot :=
      mem_slotTimings.mpr ⟨c, hc, t, hg, rfl⟩
    have := checkClash_of_sharedTiming hslot hcelle
    rw [h e he] at this
    exact Bool.false_ne_true this
  have := collectTimesGo_all_free hfree []
  rw [this]
  rfl

theorem not_noClash_of_clash {selected ext : List MSlot} {slot : MSlot}
    (h : ∃ e ∈ selected, checkClash slot e = true) :
    ¬ NoClashPW (selected ++ slot :: ext) := by
  rcases h with ⟨e, he, hclash⟩
  intro hPW
  rcases List.pairwise_append.mp hPW with ⟨_, _, hcross⟩
  have : checkClash e slot = false := hcross e he slot (List.mem_cons_self _ _)
  rw [checkClash_symm] at hclash
  rw [this] at hclash
  exact Bool.false_ne_true hclash

theorem noClash_append_singleton {selected : List MSlot} {slot : MSlot}
    (hPW : NoClashPW selected)
    (h : ∀ e ∈ selected, checkClash slot e = false) :
    NoClashPW (selected ++ [slot]) := by
  refine List.pairwise_append.mpr ⟨hPW, List.pairwise_singleton _ _, ?_⟩
  intro a ha b hb
  rw [List.mem_singleton] at hb
  subst hb
  rw [checkClash_symm]
  exact h a ha

theorem flatMap_slotTimings_append (selected : List MSlot) (slot : MSlot) :
    (selected ++ [slot]).flatMap slotTimings
      = selected.flatMap slotTimings ++ slotTimings slot := by
  simp

/-- The backtracking counter of `count_solutions` computes the capped number
of conflict-free completions of the current partial assignment. -/
theorem countBT_eq (m : List (Nat × List MSlot)) (maxCount : Nat) :
    ∀ (rest : List MCourse) (selected : List MSlot) (count : Nat),
    NoClashPW selected → count ≤ maxCount →
    countBT m maxCount rest selected (selected.flatMap slotTimings) count
      = min (count + ((extensions m rest).filter
          (fun ext => decide (NoClashPW (selected ++ ext)))).length) maxCount := by
  intro rest
  induction rest with
  | nil =>
    intro selected count hPW hle
    have hp : decide (NoClashPW selected) = true := decide_eq_true hPW
    have hfilter : ((extensions m ([] : List MCourse)).filter
        (fun ext => decide (NoClashPW (selected ++ ext)))).length = 1 := by
      simp [extensions, hp]
    rw [hfilter]
    simp only [countBT]
    by_cases hge : count ≥ maxCount
    · rw [if_pos hge]; omega
    · rw [if_neg hge]; omega
  | cons course rest' ih =>
    intro selected count hPW hle
    simp only [countBT, extensions]
    have inner : ∀ (dom : List MSlot) (cnt : Nat), cnt ≤ maxCount →
        dom.foldl (fun cnt slot =>
          if cnt ≥ maxCount then cnt
          else if selected.any (fun e => checkClash slot e) then cnt
          else
            match collectTimes slot (selected.flatMap slotTimings) with
            | none => cnt
            | some newTimes =>
              countBT m maxCount rest' (selected ++ [slot])
                (selected.flatMap slotTimings ++ newTimes) cnt) cnt
        = min (cnt + ((dom.flatMap (fun slot =>
            (extensions m rest').map (fun ext => slot :: ext))).filter
            (fun ext => decide (NoClashPW (selected ++ ext)))).length) maxCount := by
      intro dom
      induction dom with
      | nil =>
        intro cnt hcnt
        simp only [List.foldl_nil, List.flatMap_nil, List.filter_nil,
          List.length_nil, Nat.add_zero]
        omega
      | cons slot dom' ihdom =>
        intro cnt hcnt
        rw [List.foldl_cons, List.flatMap_cons, List.filter_append,
          List.length_append]
        by_cases hge : cnt ≥ maxCount
        · rw [if_pos hge]
          have := ihdom cnt hcnt
          rw [this]
          omega
        · rw [if_neg hge]
          by_cases hcl : selected.any (fun e => checkClash slot e) = true
          · rw [if_pos hcl]
            have hzero : (((extensions m rest').map (fun ext => slot :: ext)).filter
                (fun ext => decide (NoClashPW (selected ++ ext)))).length = 0 := by
              rw [List.length_eq_zero, List.filter_eq_nil_iff]
              intro x hx
              rcases List.mem_map.mp hx with ⟨ext, _, hxe⟩
              subst hxe
              rcases List.any_eq_true.mp hcl with ⟨e, he, hc⟩
              simp only [decide_eq_true_eq]
              exact not_noClash_of_clash ⟨e, he, hc⟩
            rw [hzero]
            have := ihdom cnt hcnt
            rw [this]
            omega
          · rw [if_neg hcl]
            have hno : ∀ e ∈ selected, checkClash slot e = false := by
              intro e he
              by_contra hne
              exact hcl (List.any_eq_true.mpr ⟨e, he,
                Bool.not_eq_false _ |>.mp hne⟩)
            simp only [collectTimes_of_noClash hno]
            have hPW' : NoClashPW (selected ++ [slot]) :=
              noClash_append_singleton hPW hno
            have hstep := ih (selected ++ [slot]) cnt hPW' (le_of_lt (by omega))
            rw [flatMap_slotTimings_append] at hstep
            rw [hstep]
            have hcontrib : (((extensions m rest').map (fun ext => slot :: ext)).filter
                (fun ext => decide (NoClashPW (selected ++ ext)))).length
                = ((extensions m rest').filter
                  (fun ext => decide (NoClashPW ((selected ++ [slot]) ++ ext)))).length := by
              rw [List.filter_map]
              rw [List.length_map]
              congr 1
              apply List.filter_congr
              intro ext _
              have hlist : selected ++ slot :: ext = (selected ++ [slot]) ++ ext := by
                simp
              simp only [Function.comp_apply, hlist]
            rw [hcontrib]
            have hrec := ihdom (min (cnt + ((extensions m rest').filter
              (fun ext => decide (NoClashPW ((selected ++ [slot]) ++ ext)))).length)
              maxCount) (by omega)
            rw [hrec]
            omega
    exact inner (mapGet m course.id) count hle

/-- `count_solutions` returns the capped count of valid complete assignments
over the current domains. -/
theorem countSolutions_eq_min (courses : List MCourse)
    (m : List (Nat × List MSlot)) (maxCount : Nat) (h : courses ≠ []) :
    countSolutions courses m maxCount
      = min (validAssignments m courses).length maxCount := by
  unfold countSolutions validAssignments
  rw [if_neg (by simpa using h)]
  have := countBT_eq m maxCount courses [] 0 List.Pairwise.nil (Nat.zero_le _)
  simpa using this

/-- Over duplicate-free domains the assignment space is duplicate-free, so
its filtered length counts distinct assignments. -/
theorem extensions_nodup (m : List (Nat × List MSlot)) :
    ∀ (courses : List MCourse), (∀ cid, (mapGet m cid).Nodup) →
      (extensions m courses).Nodup := by
  intro courses hdom
  induction courses with
  | nil => simp [extensions]
  | cons course rest ih =>
    simp only [extensions]
    rw [List.nodup_flatMap]
    constructor
    · intro slot _
      exact (ih).map (fun a b hab => by injection hab)
    · have : ∀ s1 s2 : MSlot, s1 ≠ s2 →
          List.Disjoint ((extensions m rest).map (fun ext => s1 :: ext))
            ((extensions m rest).map (fun ext => s2 :: ext)) := by
        intro s1 s2 hne x hx1 hx2
        rcases List.mem_map.mp hx1 with ⟨e1, _, he1⟩
        rcases List.mem_map.mp hx2 with ⟨e2, _, he2⟩
        rw [← he1] at he2
        injection he2 with hh _
        exact hne hh.symm
      exact List.Pairwise.imp_of_mem (fun {a b} _ _ hne => this a b hne)
        ((hdom course.id).imp (fun hab => hab))
        |>.imp (fun h => h)

theorem validAssignments_nodup (m : List (Nat × List MSlot))
    (courses : List MCourse) (hdom : ∀ cid, (mapGet m cid).Nodup) :
    (validAssignments m courses).Nodup :=
  (extensions_nodup m courses hdom).filter _

theorem mapGet_nodup_of_entries {m : List (Nat × List MSlot)}
    (h : ∀ e ∈ m, e.2.Nodup) (cid : Nat) : (mapGet m cid).Nodup := by
  induction m with
  | nil => simp [mapGet, List.lookup]
  | cons e rest ih =>
    rw [mapGet_cons]
    by_cases he : e.1 = cid
    · rw [if_pos he]; exact h e (List.mem_cons_self _ _)
    · rw [if_neg he]; exact ih (fun e' he' => h e' (List.mem_cons_of_mem _ he'))

/-- Toy instance of §8: three courses with two candidates each, pairwise
non-conflicting across courses, no shared cells, no mutual-exclusion codes. -/
def toy3Courses : List MCourse :=
  [⟨1, 3, [⟨1, 1, ["A11"], some "FacA", "V1", 3⟩, ⟨2, 1, ["A12"], some "FacB", "V1", 3⟩]⟩,
   ⟨2, 3, [⟨3, 2, ["B11"], some "FacC", "V2", 3⟩, ⟨4, 2, ["B12"], some "FacD", "V2", 3⟩]⟩,
   ⟨3, 3, [⟨5, 3, ["D11"], some "FacE", "V3", 3⟩, ⟨6, 3, ["D12"], some "FacF", "V3", 3⟩]⟩]

/-- A concrete PRNG stream (all zeros) used for deterministic toy runs. -/
def toyStream : RState := ⟨fun _ => 0, 0⟩

/-- The slot map the generator's constructor builds for the toy instance. -/
def toy3Map : List (Nat × List MSlot) :=
  (buildSlotMap defaultPreferences toy3Courses false false toyStream).1

/-- C6: `count_solutions(maxCount)` returns `min(trueCount, maxCount)` where
`trueCount` is the number of distinct valid complete assignments (one
candidate per course, conflict-free under `_check_clash`) over the current
filtered candidate pool — the assignment list is duplicate-free whenever the
per-course pools are — and on the toy instance of three courses with two
independent candidates each it returns 8. -/
theorem claim_C6_countSolutions :
    (∀ (courses : List MCourse) (m : List (Nat × List MSlot)) (maxCount : Nat),
      courses ≠ [] →
      countSolutions courses m maxCount
        = min (validAssignments m courses).length maxCount) ∧
    (∀ (courses : List MCourse) (m : List (Nat × List MSlot)),
      (∀ e ∈ m, e.2.Nodup) → (validAssignments m courses).Nodup) ∧
    countSolutions toy3Courses toy3Map 100000 = 8 ∧
    (validAssignments toy3Map toy3Courses).length = 8 := by
  refine ⟨countSolutions_eq_min, ?_, by decide, by decide⟩
  intro courses m hdom
  exact validAssignments_nodup m courses (mapGet_nodup_of_entries hdom)

/-- Witness for C6 at the toy instance: the hypotheses hold and the capped
count equals the capped number of valid assignments. -/
theorem claim_C6_countSolutions_witness :
    toy3Courses ≠ [] ∧ (∀ e ∈ toy3Map, e.2.Nodup) ∧
    countSolutions toy3Courses toy3Map 5
      = min (validAssignments toy3Map toy3Courses).length 5 ∧
    (validAssignments toy3Map toy3Courses).Nodup :=
  ⟨by decide, by decide,
    claim_C6_countSolutions.1 toy3Courses toy3Map 5 (by decide),
    claim_C6_countSolutions.2.1 toy3Courses toy3Map (by decide)⟩

/-- The `while` loop of `_generate_random_solutions`; the fuel is the attempt
budget `max_attempts`, decremented once per iteration exactly as the source's
`attempts` counter increases. -/
def randomSolutionsLoop (courses : List MCourse) (m : List (Nat × List MSlot))
    (targetSize : Nat) :
    Nat → List MSolution → List (Finset Nat) → RState → List MSolution × RState
  | 0, solutions, _, st => (solutions, st)
  | fuel + 1, solutions, seen, st =>
    if solutions.length ≥ targetSize then (solutions, st)
    else
      match tryRandomTimetable courses m st with
      | (some result, st') =>
        let sig := solutionSig result
        if sig ∈ seen then randomSolutionsLoop courses m targetSize fuel solutions seen st'
        else randomSolutionsLoop courses m targetSize fuel
          (solutions ++ [⟨result, Score.ofInt 0, sumCredits result⟩])
          (seen ++ [sig]) st'
      | (none, st') => randomSolutionsLoop courses m targetSize fuel solutions seen st'

/-- `_generate_random_solutions`: rebuild the slot map ignoring preferences,
then sample unscored random timetables. -/
def generateRandomSolutions (p : MPreferences) (courses : List MCourse)
    (targetSize : Nat) (st : RState) : List MSolution × RState :=
  let (m, st') := buildSlotMap p courses true true st
  randomSolutionsLoop courses m targetSize (targetSize * 100) [] [] st'

/-- The `while` loop of `_generate_random_pool` with its early-termination
counter (`no_progress_limit = 1000`); fuel is `max_attempts`. -/
def randomPoolLoop (courses : List MCourse) (m : List (Nat × List MSlot))
    (targetPool : Nat) :
    Nat → List (List MSlot) → List (Finset Nat) → Nat → RState →
    List (List MSlot) × RState
  | 0, pool, _, _, st => (pool, st)
  | fuel + 1, pool, seen, noProgress, st =>
    if pool.length ≥ targetPool then (pool, st)
    else
      match tryRandomTimetable courses m st with
      | (some result, st') =>
        let sig := solutionSig result
        if sig ∈ seen then
          if noProgress + 1 ≥ 1000 then (pool, st')
          else randomPoolLoop courses m targetPool fuel pool seen (noProgress + 1) st'
        else randomPoolLoop courses m targetPool fuel (pool ++ [result])
          (seen ++ [sig]) 0 st'
      | (none, st') =>
        if noProgress + 1 ≥ 1000 then (pool, st')
        else randomPoolLoop courses m targetPool fuel pool seen (noProgress + 1) st'

/-- `_generate_random_pool`: rebuild the slot map ignoring preferences (the
timing cache and conflict matrix rebuilds are the pure functions `slotTimings`
and `checkClashFast` here) and collect up to `targetPool` distinct random
timetables. -/
def generateRandomPool (p : MPreferences) (courses : List MCourse)
    (targetPool : Nat) (st : RState) : List (List MSlot) × RState :=
  let (m, st') := buildSlotMap p courses true true st
  randomPoolLoop courses m targetPool (targetPool * 10) [] [] 0 st'

/-- `_count_preferred_teachers`. -/
def countPreferredTeachers (p : MPreferences) (slots : List MSlot) : Nat :=
  slots.countP (fun slot =>
    match slot.faculty with
    | some f => (p.prefsFor (toString slot.courseId)).contains f
    | none => false)

/-- Per-cell contribution of `_calculate_time_score` (no compat remap there:
the mode is read straight from `time_mode`). -/
def timeCellScore (p : MPreferences) (period : Nat) : Int :=
  if p.avoidEarlyMorning && period == 1 then 0
  else if p.avoidLateEvening && period == 7 then 0
  else if p.timeMode = "morning" then max 0 (115 - 15 * (period : Int))
  else if p.timeMode = "afternoon" || p.timeMode = "evening" then
    max 0 (10 + 15 * ((period : Int) - 1))
  else if p.timeMode = "middle" then max 0 (100 - 30 * |(period : Int) - 4|)
  else 50

/-- `_calculate_time_score`: average of the per-cell time scores over all
resolvable cells. -/
def calculateTimeScore (p : MPreferences) (slots : List MSlot) : Score :=
  let cells := slots.flatMap slotTimings
  if cells.length = 0 then Score.ofInt 0
  else Score.divNat
    (Score.ofInt (cells.foldl (fun acc t => acc + timeCellScore p t.2) 0))
    cells.length

/-- `_calculate_teacher_priority_score`. -/
def calculateTeacherPriorityScore (p : MPreferences) (slots : List MSlot) :
    Score :=
  Score.ofInt (slots.foldl (fun acc slot =>
    match slot.faculty with
    | some f =>
      let prefs := p.prefsFor (toString slot.courseId)
      if prefs.contains f then
        let rank := prefs.indexOf f
        if rank = 0 then acc + 1000
        else if rank = 1 then acc + 800
        else if rank = 2 then acc + 600
        else acc
      else acc
    | none => acc) 0)

/-- One entry of the `scored_pool` dictionaries of `generate_unified`. -/
structure ScoredItem where
  slots : List MSlot
  teacherMatchCount : Nat
  timeScore : Score
  teacherPriorityScore : Score
  totalCredits : Nat

/-- Descending time-score order (`key=lambda x: x['time_score'],
reverse=True`). -/
def itemTimeDescRel (a b : ScoredItem) : Prop :=
  Score.ble b.timeScore a.timeScore = true

instance : DecidableRel itemTimeDescRel :=
  fun _ _ => inferInstanceAs (Decidable (_ = true))

/-- Descending teacher-priority order. -/
def itemPriorityDescRel (a b : ScoredItem) : Prop :=
  Score.ble b.teacherPriorityScore a.teacherPriorityScore = true

instance : DecidableRel itemPriorityDescRel :=
  fun _ _ => inferInstanceAs (Decidable (_ = true))

/-- `_rank_by_time` (scenario 2). -/
def rankByTime (scored : List ScoredItem) (targetSize : Nat) : List MSolution :=
  ((scored.insertionSort itemTimeDescRel).take targetSize).map
    (fun it => ⟨it.slots, it.timeScore, it.totalCredits⟩)

/-- `_rank_tiered_by_time` (scenario 4): tiers from `num_courses` down to 0,
each tier filtered by teacher-match count and sorted by time score; the
source's append-until-`target_size` double loop with breaks is exactly
`take targetSize` of the tier concatenation. -/
def rankTieredByTime (numCourses : Nat) (scored : List ScoredItem)
    (targetSize : Nat) : List MSolution :=
  (((((List.range (numCourses + 1)).reverse).flatMap (fun tier =>
    ((scored.filter (fun x => x.teacherMatchCount = tier)).insertionSort
      itemTimeDescRel)))).take targetSize).map
    (fun it => ⟨it.slots, it.timeScore, it.totalCredits⟩)

/-- `_rank_tiered_by_teacher_priority` (scenario 3). -/
def rankTieredByTeacherPriority (numCourses : Nat) (scored : List ScoredItem)
    (targetSize : Nat) : List MSolution :=
  (((((List.range (numCourses + 1)).reverse).flatMap (fun tier =>
    ((scored.filter (fun x => x.teacherMatchCount = tier)).insertionSort
      itemPriorityDescRel)))).take targetSize).map
    (fun it => ⟨it.slots, it.teacherPriorityScore, it.totalCredits⟩)

/-- The scored-pool construction of `generate_unified`. -/
def scoredPoolOf (p : MPreferences) (pool : List (List MSlot)) :
    List ScoredItem :=
  pool.map (fun slots =>
    ⟨slots, countPreferredTeachers p slots, calculateTimeScore p slots,
     calculateTeacherPriorityScore p slots, sumCredits slots⟩)

/-- `generate_unified`: dispatch between the four scenarios. -/
def generateUnified (p : MPreferences) (courses : List MCourse)
    (targetSize : Nat) (st : RState) : List MSolution × RState :=
  let hasTeacherPrefs := !p.courseFacultyPreferences.isEmpty
  let hasTimePrefs := p.timeMode != "none" || p.avoidEarlyMorning ||
    p.avoidLateEvening
  if !hasTeacherPrefs && !hasTimePrefs then
    generateRandomSolutions p courses targetSize st
  else
    let (pool, st') := generateRandomPool p courses 20000 st
    if pool.isEmpty then ([], st')
    else
      let scoredPool := scoredPoolOf p pool
      if hasTimePrefs && !hasTeacherPrefs then
        (rankByTime scoredPool targetSize, st')
      else if hasTeacherPrefs && !hasTimePrefs then
        (rankTieredByTeacherPriority courses.length scoredPool targetSize, st')
      else
        (rankTieredByTime courses.length scoredPool targetSize, st')

/-- `_get_timetable_signature`: (days used, periods used, morning cell count,
afternoon cell count). -/
def getTimetableSignature (slots : List MSlot) :
    Finset String × Finset Nat × Nat × Nat :=
  let cells := slots.flatMap slotTimings
  ((cells.map (·.1)).toFinset, (cells.map (·.2)).toFinset,
   (cells.filter (fun t => t.2 ≤ 3)).length,
   (cells.filter (fun t => ¬ t.2 ≤ 3)).length)

/-- The similarity of the inner loop of `_calculate_diversity_score`:
shared candidate ids ×10 + shared days ×2 + shared periods. -/
def similarityScore (newSlots existing : List MSlot) : Int :=
  let newSig := getTimetableSignature newSlots
  let exSig := getTimetableSignature existing
  let sharedSlots := (solutionSig newSlots ∩ solutionSig existing).card
  let sharedDays := (newSig.1 ∩ exSig.1).card
  let sharedPeriods := (newSig.2.1 ∩ exSig.2.1).card
  (sharedSlots : Int) * 10 + (sharedDays : Int) * 2 + (sharedPeriods : Int)

/-- `_calculate_diversity_score`: 100 for the first solution, otherwise
`max(0, 100 − 5·minimum similarity over the existing solutions)`. -/
def calculateDiversityScore (newSlots : List MSlot)
    (existingSolutions : List MSolution) : Int :=
  match existingSolutions with
  | [] => 100
  | e :: rest =>
    let minDiff := (rest.map (fun ex => similarityScore newSlots ex.slots)).foldl
      min (similarityScore newSlots e.slots)
    max 0 (100 - minDiff * 5)

/-- Idle periods between consecutive entries of an ascending period list
(the inner gap loop of `_calculate_solution_score`). -/
def gapsOfSorted : List Nat → Nat
  | [] => 0
  | [_] => 0
  | a :: b :: rest => (b - a - 1) + gapsOfSorted (b :: rest)

/-- Total per-day gaps of a solution. -/
def totalGaps (slots : List MSlot) : Nat :=
  let cells := slots.flatMap slotTimings
  let days := (cells.map (·.1)).dedup
  (days.map (fun d =>
    gapsOfSorted (((cells.filter (fun t => t.1 = d)).map (·.2)).insertionSort
      (· ≤ ·)))).sum

/-- Number of Saturday cells of a solution. -/
def saturdayCount (slots : List MSlot) : Nat :=
  ((slots.flatMap slotTimings).filter (fun t => t.1 = "SAT")).length

/-- `_calculate_solution_score` (score component): sum of slot scores minus
2 per gap and 3 per Saturday cell. -/
def calculateSolutionScore (p : MPreferences) (slots : List MSlot) : Score :=
  let base := slots.foldl (fun acc s => acc.add (scoreSlot p s)) (Score.ofInt 0)
  (base.add (Score.ofInt (-(2 * (totalGaps slots : Int))))).add
    (Score.ofInt (-(3 * (saturdayCount slots : Int))))

/-- `should_shuffle_slots` of `generate_diverse`. -/
def shouldShuffleSlots (p : MPreferences) : Bool :=
  p.timeMode = "none" && p.courseFacultyPreferences.isEmpty

/-- Shuffle the stored pools of the given course ids in order
(`random.shuffle(self.slot_map[cid])` for each id). -/
def shuffleMapForIds :
    List (Nat × List MSlot) → List Nat → RState →
    List (Nat × List MSlot) × RState
  | m, [], st => (m, st)
  | m, cid :: rest, st =>
    match m.lookup cid with
    | some l =>
      let (l', st') := shuffleList l st
      shuffleMapForIds (mapSet m cid l') rest st'
    | none => shuffleMapForIds m rest st

/-- The recursive `backtrack` of `generate_diverse`: depth-first search for
one complete assignment, charging one attempt per candidate slot tried and
aborting once `maxAttempts` is reached.  The fold accumulator's first
component is `some r` once the source function has returned `r`. -/
def diverseBT (maxAttempts : Nat) (m : List (Nat × List MSlot)) :
    List Nat → List MSlot → List (String × Nat) → Nat →
    Option (List MSlot) × Nat
  | [], selected, _, attempts =>
    if attempts ≥ maxAttempts then (none, attempts) else (some selected, attempts)
  | cid :: rest, selected, occupied, attempts =>
    if attempts ≥ maxAttempts then (none, attempts)
    else
      let folded := (mapGet m cid).foldl (fun acc slot =>
        match acc.1 with
        | some _ => acc
        | none =>
          let a' := acc.2 + 1
          if a' ≥ maxAttempts then (some none, a')
          else if selected.any (fun e => checkClash slot e) then (none, a')
          else
            match collectTimes slot occupied with
            | none => (none, a')
            | some newTimes =>
              match diverseBT maxAttempts m rest (selected ++ [slot])
                  (occupied ++ newTimes) a' with
              | (some result, a2) => (some (some result), a2)
              | (none, a2) => (none, a2))
        ((none : Option (Option (List MSlot))), attempts)
      match folded.1 with
      | some r => (r, folded.2)
      | none => (none, folded.2)

/-- Ghost record of one acceptance in `generate_diverse`: the accepted slots,
the solutions already accepted, and the diversity threshold in effect at
acceptance time together with the candidate's diversity score. -/
structure DivAccept where
  slots : List MSlot
  prior : List MSolution
  threshold : Int
  diversity : Int

/-- The outer `while` loop of `generate_diverse`.  The fuel only bounds the
iteration count; every non-final iteration strictly increases `attempts`, so
with fuel `maxAttempts + 1` the fuel can never be the binding constraint. -/
def generateDiverseLoop (p : MPreferences) (courses : List MCourse)
    (m : List (Nat × List MSlot)) (limit maxAttempts : Nat) :
    Nat → List MSolution → List (Finset Nat) → Int → Nat → Nat → RState →
    List DivAccept → List MSolution × List DivAccept × RState
  | 0, solutions, _, _, _, _, st, trace => (solutions, trace, st)
  | fuel + 1, solutions, seenIds, curMinDiv, failedStreak, attempts, st, trace =>
    if solutions.length ≥ limit ∨ attempts ≥ maxAttempts then
      (solutions, trace, st)
    else
      let (shuffledCids, st1) := shuffleList (courses.map (·.id)) st
      let (m', st2) :=
        if shouldShuffleSlots p then shuffleMapForIds m shuffledCids st1
        else (m, st1)
      match diverseBT maxAttempts m' shuffledCids [] [] attempts with
      | (none, _) => (solutions, trace, st2)
      | (some res, attempts') =>
        let slotIds := solutionSig res
        if slotIds ∈ seenIds then
          generateDiverseLoop p courses m limit maxAttempts fuel solutions
            seenIds curMinDiv failedStreak (attempts' + 1) st2 trace
        else
          let diversity := calculateDiversityScore res solutions
          let pair :=
            if failedStreak > 20 then (max 5 (curMinDiv - 5), 0)
            else (curMinDiv, failedStreak)
          if diversity ≥ pair.1 ∨ solutions.length = 0 then
            generateDiverseLoop p courses m limit maxAttempts fuel
              (solutions ++ [⟨res, calculateSolutionScore p res, sumCredits res⟩])
              (seenIds ++ [slotIds]) pair.1 0 attempts' st2
              (trace ++ [⟨res, solutions, pair.1, diversity⟩])
          else
            generateDiverseLoop p courses m limit maxAttempts fuel solutions
              seenIds pair.1 (pair.2 + 1) attempts' st2 trace

/-- `generate_diverse(limit, min_diversity)`, instrumented with the ghost
acceptance trace (the source returns only the solution list). -/
def generateDiverse (p : MPreferences) (courses : List MCourse)
    (m : List (Nat × List MSlot)) (limit : Nat) (minDiversity : Int)
    (st : RState) : List MSolution × List DivAccept × RState :=
  if courses.isEmpty then ([], [], st)
  else
    let maxAttempts := limit * 50
    generateDiverseLoop p courses m limit maxAttempts (maxAttempts + 1)
      [] [] minDiversity 0 0 st []

/-- The preferred / non-preferred split at the top of
`generate_tiered_teacher_pool`. -/
def splitPreferred (p : MPreferences) (courses : List MCourse)
    (m : List (Nat × List MSlot)) :
    List (Nat × List MSlot) × List (Nat × List MSlot) :=
  (courses.map (fun c =>
    (c.id,
      let prefs := p.prefsFor (toString c.id)
      let allSlots := mapGet m c.id
      if prefs.isEmpty then allSlots
      else allSlots.filter (fun s =>
        match s.faculty with
        | some f => prefs.contains f
        | none => false))),
   courses.map (fun c =>
    (c.id,
      let prefs := p.prefsFor (toString c.id)
      let allSlots := mapGet m c.id
      if prefs.isEmpty then []
      else allSlots.filter (fun s =>
        match s.faculty with
        | some f => !prefs.contains f
        | none => true))))

/-- The course loop of `_try_build_timetable`: choose the configured pool
(falling back to the other pool when empty), shuffle it, first-fit. -/
def tryBuildGo (courses0 : List MCourse) (usePreferred : List Nat)
    (prefM nonPrefM : List (Nat × List MSlot)) :
    List MCourse → List MSlot → List (String × Nat) → RState →
    Option (List MSlot) × RState
  | [], selected, _, st => (some selected, st)
  | course :: rest, selected, occupied, st =>
    let courseIdx := courses0.indexOf course
    let usePref := usePreferred.contains courseIdx
    let pool0 := if usePref then mapGet prefM course.id
      else mapGet nonPrefM course.id
    let pool := if pool0.isEmpty then
        (if usePref then mapGet nonPrefM course.id else mapGet prefM course.id)
      else pool0
    if pool.isEmpty then (none, st)
    else
      let (shuffledPool, st') := shuffleList pool st
      match firstFit shuffledPool selected occupied with
      | some (slot, newTimes) =>
        tryBuildGo courses0 usePreferred prefM nonPrefM rest
          (selected ++ [slot]) (occupied ++ newTimes) st'
      | none => (none, st')

/-- `_try_build_timetable`. -/
def tryBuildTimetable (courses : List MCourse) (usePreferred : List Nat)
    (prefM nonPrefM : List (Nat × List MSlot)) (st : RState) :
    Option (List MSlot) × RState :=
  let (shuffledCourses, st') := shuffleList courses st
  match tryBuildGo courses usePreferred prefM nonPrefM shuffledCourses [] [] st' with
  | (some sel, st'') =>
    (if sel.length = courses.length then some sel else none, st'')
  | (none, st'') => (none, st'')

/-- The `while` loop of `_generate_tier` (fuel = `max_attempts`). -/
def generateTierLoop (courses : List MCourse) (numPreferred : Nat)
    (prefM nonPrefM : List (Nat × List MSlot)) (maxSolutions : Nat) :
    Nat → List (List MSlot) → List (Finset Nat) → RState →
    List (List MSlot) × List (Finset Nat) × RState
  | 0, solutions, seen, st => (solutions, seen, st)
  | fuel + 1, solutions, seen, st =>
    if solutions.length ≥ maxSolutions then (solutions, seen, st)
    else
      let (shuffledIdx, st1) := shuffleList (List.range courses.length) st
      let usePreferred := shuffledIdx.take numPreferred
      match tryBuildTimetable courses usePreferred prefM nonPrefM st1 with
      | (some result, st2) =>
        let sig := solutionSig result
        if sig ∈ seen then
          generateTierLoop courses numPreferred prefM nonPrefM maxSolutions
            fuel solutions seen st2
        else
          generateTierLoop courses numPreferred prefM nonPrefM maxSolutions
            fuel (solutions ++ [result]) (seen ++ [sig]) st2
      | (none, st2) =>
        generateTierLoop courses numPreferred prefM nonPrefM maxSolutions
          fuel solutions seen st2

/-- `_generate_tier(num_preferred, ...)`. -/
def generateTier (courses : List MCourse) (numPreferred : Nat)
    (prefM nonPrefM : List (Nat × List MSlot)) (maxSolutions : Nat)
    (seen : List (Finset Nat)) (st : RState) :
    List (List MSlot) × List (Finset Nat) × RState :=
  if numPreferred > courses.length then ([], seen, st)
  else generateTierLoop courses numPreferred prefM nonPrefM maxSolutions
    (maxSolutions * 50) [] seen st

/-- The tier loop of `generate_tiered_teacher_pool`
(`for num_preferred in range(num_courses, -1, -1)`). -/
def tieredPoolTiers (courses : List MCourse)
    (prefM nonPrefM : List (Nat × List MSlot)) (targetPool : Nat) :
    List Nat → List (List MSlot) → List (Finset Nat) → RState →
    List (List MSlot) × RState
  | [], allSolutions, _, st => (allSolutions, st)
  | numPreferred :: rest, allSolutions, seen, st =>
    if allSolutions.length ≥ targetPool then (allSolutions, st)
    else
      let (tierSolutions, seen', st') := generateTier courses numPreferred
        prefM nonPrefM (targetPool - allSolutions.length) seen st
      tieredPoolTiers courses prefM nonPrefM targetPool rest
        (allSolutions ++ tierSolutions) seen' st'

/-- `generate_tiered_teacher_pool(target_pool, target_size)`. -/
def generateTieredTeacherPool (p : MPreferences) (courses : List MCourse)
    (m : List (Nat × List MSlot)) (targetPool targetSize : Nat) (st : RState) :
    List MSolution × RState :=
  if courses.isEmpty then ([], st)
  else
    let (prefM, nonPrefM) := splitPreferred p courses m
    let (allSolutions, st') := tieredPoolTiers courses prefM nonPrefM
      targetPool ((List.range (courses.length + 1)).reverse) [] [] st
    let scored := allSolutions.map (fun slots =>
      (⟨slots, calculateSolutionTotalScore p slots, sumCredits slots⟩ : MSolution))
    ((scored.insertionSort solScoreDescRel).take targetSize, st')

/-- The per-course assignment loop of one `generate_ranked_pool` attempt:
draw ≤ 5 sample candidates and first-fit. -/
def rankedGo (m : List (Nat × List MSlot)) :
    List Nat → List MSlot → List (String × Nat) → RState →
    Option (List MSlot) × RState
  | [], selected, _, st => (some selected, st)
  | cid :: rest, selected, occupied, st =>
    let slots := mapGet m cid
    if slots.isEmpty then (none, st)
    else
      let (candidates, st') := sampleList slots (min slots.length 5) st
      match firstFit candidates selected occupied with
      | some (slot, newTimes) =>
        rankedGo m rest (selected ++ [slot]) (occupied ++ newTimes) st'
      | none => (none, st')

/-- One iteration body of the `generate_ranked_pool` sampling loop. -/
def rankedPoolAttempt (courses : List MCourse) (m : List (Nat × List MSlot))
    (st : RState) : Option (List MSlot) × RState :=
  let (shuffledCids, st') := shuffleList (courses.map (·.id)) st
  match rankedGo m shuffledCids [] [] st' with
  | (some sel, st'') =>
    (if sel.length = courses.length then some sel else none, st'')
  | (none, st'') => (none, st'')

/-- The sampling loop of `generate_ranked_pool` (deduplicated by the time
signature, not by slot ids; fuel = `pool_attempts`). -/
def rankedPoolLoop (courses : List MCourse) (m : List (Nat × List MSlot))
    (targetPool : Nat) :
    Nat → List (List MSlot) → List (Finset String × Finset Nat × Nat × Nat) →
    RState → List (List MSlot) × RState
  | 0, pool, _, st => (pool, st)
  | fuel + 1, pool, seen, st =>
    if pool.length ≥ targetPool then (pool, st)
    else
      match rankedPoolAttempt courses m st with
      | (some result, st') =>
        let sig := getTimetableSignature result
        if sig ∈ seen then rankedPoolLoop courses m targetPool fuel pool seen st'
        else rankedPoolLoop courses m targetPool fuel (pool ++ [result])
          (seen ++ [sig]) st'
      | (none, st') => rankedPoolLoop courses m targetPool fuel pool seen st'

/-- `generate_ranked_pool(target_size, pool_attempts)`: rebuild the map
ignoring preferences, sample a pool of up to 20000 timetables, score with
penalties, rank descending, return the top `targetSize`. -/
def generateRankedPool (p : MPreferences) (courses : List MCourse)
    (targetSize poolAttempts : Nat) (st : RState) : List MSolution × RState :=
  let (m, st') := buildSlotMap p courses true true st
  let (pool, st'') := rankedPoolLoop courses m 20000 poolAttempts [] [] st'
  let scored := pool.map (fun slots =>
    (⟨slots, calculateSolutionTotalScore p slots, sumCredits slots⟩ : MSolution))
  ((scored.insertionSort solScoreDescRel).take targetSize, st'')

/-- Ascending domain-size order on courses (`key=lambda c:
len(self.slot_map.get(c.id, []))`). -/
def domSizeRel (m : List (Nat × List MSlot)) (a b : MCourse) : Prop :=
  (mapGet m a.id).length ≤ (mapGet m b.id).length

instance (m : List (Nat × List MSlot)) : DecidableRel (domSizeRel m) :=
  fun _ _ => inferInstanceAs (Decidable (_ ≤ _))

/-- Descending beam order by cumulative score. -/
def beamDescRel (a b : Score × List MSlot × List (String × Nat)) : Prop :=
  Score.ble b.1 a.1 = true

instance : DecidableRel beamDescRel :=
  fun _ _ => inferInstanceAs (Decidable (_ = true))

/-- The final collection loop of `generate_beam_search` (skip incomplete
beams, deduplicate by signature, stop once `targetSize` is reached). -/
def beamCollect (targetSize numCourses : Nat) :
    List (Score × List MSlot × List (String × Nat)) → List MSolution →
    List (Finset Nat) → List MSolution
  | [], sols, _ => sols
  | b :: rest, sols, seen =>
    if b.2.1.length ≠ numCourses then beamCollect targetSize numCourses rest sols seen
    else if solutionSig b.2.1 ∈ seen then
      beamCollect targetSize numCourses rest sols seen
    else
      let sols' := sols ++ [⟨b.2.1, b.1, sumCredits b.2.1⟩]
      if sols'.length ≥ targetSize then sols'
      else beamCollect targetSize numCourses rest sols'
        (seen ++ [solutionSig b.2.1])

/-- One level of the beam expansion of `generate_beam_search`: extend every
beam by every non-conflicting slot of the next course, sort by score, keep
the best `beamWidth`. -/
def beamStep (p : MPreferences) (m' : List (Nat × List MSlot))
    (beamWidth : Nat)
    (beams : List (Score × List MSlot × List (String × Nat)))
    (course : MCourse) : List (Score × List MSlot × List (String × Nat)) :=
  let newBeams := beams.flatMap (fun b =>
    (mapGet m' course.id).filterMap (fun slot =>
      if (slotTimings slot).any (fun t => b.2.2.contains t) then none
      else if b.2.1.any (fun sel => checkClashFast slot sel) then none
      else some (b.1.add (scoreSlot p slot), b.2.1 ++ [slot],
        b.2.2 ++ slotTimings slot)))
  (newBeams.insertionSort beamDescRel).take beamWidth

/-- `generate_beam_search(beam_width, target_size)`: arc consistency first,
courses in ascending domain size, beam expansion checking the occupied cells
and the conflict matrix, top-`beamWidth` beams per level. -/
def generateBeamSearch (p : MPreferences) (courses : List MCourse)
    (m : List (Nat × List MSlot)) (beamWidth targetSize : Nat) :
    List MSolution :=
  if courses.isEmpty then []
  else
    match applyArcConsistency courses m with
    | (false, _) => []
    | (true, m') =>
      match courses.insertionSort (domSizeRel m') with
      | [] => []
      | first :: restCourses =>
        let initBeams := ((mapGet m' first.id).take (beamWidth * 2)).map
          (fun slot => (scoreSlot p slot, [slot], slotTimings slot))
        let beams0 := (initBeams.insertionSort beamDescRel).take beamWidth
        let finalBeams := restCourses.foldl (beamStep p m' beamWidth) beams0
        beamCollect targetSize courses.length finalBeams [] []

/-- Single-index combinations of `range n` in the order `_combinations`
produces them. -/
def combos1 (n : Nat) : List (List Nat) := (List.range n).map (fun i => [i])

/-- Two-index combinations of `range n` in lexicographic order. -/
def combos2 (n : Nat) : List (List Nat) :=
  (List.range n).flatMap (fun i =>
    ((List.range n).filter (fun j => i < j)).map (fun j => [i, j]))

/-- The `continue` guard of `generate_similar`'s slot loop: the scanned slot
is the reference slot of the varied course. -/
def isRefSlot (refId : Option Nat) (slot : MSlot) : Bool :=
  match refId with
  | some rid => slot.id == rid
  | none => false

/-- The innermost slot scan of `generate_similar` for one varied course:
skip the reference slot, check clashes and occupied cells, and accept the
first complete unseen combination. -/
def similarSlotScan (p : MPreferences) (numCourses : Nat) (refId : Option Nat)
    (selected : List MSlot) (occupied : List (String × Nat)) :
    List MSlot → List MSolution × List (Finset Nat) →
    List MSolution × List (Finset Nat)
  | [], acc => acc
  | slot :: more, acc =>
    if isRefSlot refId slot then
      similarSlotScan p numCourses refId selected occupied more acc
    else if selected.any (fun e => checkClash slot e) then
      similarSlotScan p numCourses refId selected occupied more acc
    else
      match collectTimes slot occupied with
      | none => similarSlotScan p numCourses refId selected occupied more acc
      | some _ =>
        let test := selected ++ [slot]
        let ids := solutionSig test
        if ids ∉ acc.2 ∧ test.length = numCourses then
          (acc.1 ++ [⟨test, calculateSolutionScore p test, sumCredits test⟩],
           acc.2 ++ [ids])
        else similarSlotScan p numCourses refId selected occupied more acc

/-- The `reference_slots` dict of `generate_similar`: for each course, the
first of its slots whose id is a reference id. -/
def refSlotMap (courses : List MCourse) (refIds : List Nat) :
    List (Nat × MSlot) :=
  courses.filterMap (fun c =>
    (c.slots.find? (fun s => refIds.contains s.id)).map (fun s => (c.id, s)))

/-- The `selected` list of one `generate_similar` combination: the reference
slots of all non-varied courses, in course order. -/
def similarSelected (refMap : List (Nat × MSlot)) (courseIds : List Nat)
    (varyIndices : List Nat) : List MSlot :=
  courseIds.enum.filterMap (fun e =>
    if varyIndices.contains e.1 then none else (refMap.lookup e.2))

/-- One combination of `generate_similar`: scan the pools of the varied
courses against the fixed reference slots. -/
def similarCombo (p : MPreferences) (m : List (Nat × List MSlot))
    (courseIds : List Nat) (refMap : List (Nat × MSlot)) (n : Nat)
    (acc : List MSolution × List (Finset Nat)) (varyIndices : List Nat) :
    List MSolution × List (Finset Nat) :=
  let selected := similarSelected refMap courseIds varyIndices
  let occupied := selected.flatMap slotTimings
  varyIndices.foldl (fun acc2 idx =>
    let cid := courseIds.getD idx 0
    similarSlotScan p n ((refMap.lookup cid).map (·.id)) selected occupied
      (mapGet m cid) acc2) acc

/-- `generate_similar(reference_slot_ids, limit)`: hold all but 1–2 courses
at their reference slot and enumerate variations.  (The source's
`len(solutions) >= limit` breaks only stop early; the returned list is the
`[:limit]` slice of what the unbroken enumeration accumulates.) -/
def generateSimilar (p : MPreferences) (courses : List MCourse)
    (m : List (Nat × List MSlot)) (refIds : List Nat) (limit : Nat) :
    List MSolution :=
  if courses.isEmpty then []
  else
    let refMap := refSlotMap courses refIds
    let courseIds := courses.map (·.id)
    let n := courseIds.length
    let combos := combos1 n ++ combos2 n
    let res := combos.foldl (similarCombo p m courseIds refMap n)
      (([], [refIds.toFinset]) : List MSolution × List (Finset Nat))
    res.1.take limit

/-- Invariants (b) and (c) for a pair of chosen slots: no shared resolved
(day, period) cell and no mutual-exclusion pairing. -/
def PairOK (a b : MSlot) : Prop :=
  mutexPairClash a.getIndividualSlots b.getIndividualSlots = false ∧
  ∀ t ∈ slotTimings a, t ∉ slotTimings b

/-- Invariants (b) and (c) over a whole solution. -/
def PairwiseValid (sel : List MSlot) : Prop := sel.Pairwise PairOK

/-- Invariant (a): the chosen slots' course ids are a permutation of the
course list's ids, and every chosen slot comes from its course's pool. -/
def OneSlotPerCourse (m : List (Nat × List MSlot)) (courses : List MCourse)
    (sel : List MSlot) : Prop :=
  (sel.map (·.courseId)).Perm (courses.map (·.id)) ∧
  ∀ s ∈ sel, s ∈ mapGet m s.courseId

/-- Well-formedness of a slot map: every pooled slot belongs to the course
that keys its pool. -/
def MapWF (m : List (Nat × List MSlot)) : Prop :=
  ∀ e ∈ m, ∀ s ∈ e.2, s.courseId = e.1

theorem lookup_mem {m : List (Nat × List MSlot)} {c : Nat} {v : List MSlot}
    (h : m.lookup c = some v) : (c, v) ∈ m := by
  induction m with
  | nil => simp [List.lookup] at h
  | cons e rest ih =>
    obtain ⟨k, l⟩ := e
    by_cases hk : k = c
    · subst hk
      simp [List.lookup] at h
      subst h
      exact List.mem_cons_self _ _
    · have : (c == k) = false := by simp [Ne.symm hk]
      simp [List.lookup, this] at h
      exact List.mem_cons_of_mem _ (ih h)

theorem mapGet_courseId {m : List (Nat × List MSlot)} (hWF : MapWF m)
    {cid : Nat} {s : MSlot} (hs : s ∈ mapGet m cid) : s.courseId = cid := by
  unfold mapGet at hs
  cases hl : m.lookup cid with
  | none => rw [hl] at hs; simp at hs
  | some v =>
    rw [hl] at hs
    simp only [Option.getD_some] at hs
    exact hWF (cid, v) (lookup_mem hl) s hs

theorem mutexPairClash_symm (a b : List String) :
    mutexPairClash a b = mutexPairClash b a := by
  have key : ∀ x y : List String, mutexPairClash x y = true →
      mutexPairClash y x = true := by
    intro x y h
    unfold mutexPairClash at h ⊢
    rcases List.any_eq_true.mp h with ⟨g, hg, hcond⟩
    refine List.any_eq_true.mpr ⟨g, hg, ?_⟩
    simp only [Bool.or_eq_true, Bool.and_eq_true] at hcond ⊢
    tauto
  by_cases hab : mutexPairClash a b = true
  · rw [hab, key a b hab]
  · have hba : mutexPairClash b a ≠ true := fun h => hab (key b a h)
    have hab' : mutexPairClash a b = false := by
      revert hab; cases mutexPairClash a b <;> simp
    have hba' : mutexPairClash b a = false := by
      revert hba; cases mutexPairClash b a <;> simp
    rw [hab', hba']

/-- The time-overlap half of `_check_clash` holds exactly when the two slots
share a resolved cell. -/
theorem checkClash_time_iff (a b : MSlot) :
    (a.getIndividualSlots.any (fun c1 => b.getIndividualSlots.any (fun c2 =>
      match getSlotTiming c1, getSlotTiming c2 with
      | some t1, some t2 => t1.day == t2.day && t1.period == t2.period
      | _, _ => false))) = true ↔
    ∃ t, t ∈ slotTimings a ∧ t ∈ slotTimings b := by
  constructor
  · intro h
    rcases List.any_eq_true.mp h with ⟨c1, hc1, hin⟩
    rcases List.any_eq_true.mp hin with ⟨c2, hc2, heq⟩
    cases h1 : getSlotTiming c1 with
    | none => rw [h1] at heq; cases h2 : getSlotTiming c2 <;> rw [h2] at heq <;> simp at heq
    | some t1 =>
      cases h2 : getSlotTiming c2 with
      | none => rw [h1, h2] at heq; simp at heq
      | some t2 =>
        rw [h1, h2] at heq
        have heq' : (t1.day == t2.day && t1.period == t2.period) = true := heq
        simp only [Bool.and_eq_true, beq_iff_eq] at heq'
        refine ⟨(t1.day, t1.period), mem_slotTimings.mpr ⟨c1, hc1, t1, h1, rfl⟩,
          mem_slotTimings.mpr ⟨c2, hc2, t2, h2, ?_⟩⟩
        rw [heq'.1, heq'.2]
  · rintro ⟨t, hta, htb⟩
    rcases mem_slotTimings.mp hta with ⟨c1, hc1, t1, hg1, hp1⟩
    rcases mem_slotTimings.mp htb with ⟨c2, hc2, t2, hg2, hp2⟩
    refine List.any_eq_true.mpr ⟨c1, hc1, List.any_eq_true.mpr ⟨c2, hc2, ?_⟩⟩
    rw [hg1, hg2]
    have hpair : (t1.day, t1.period) = (t2.day, t2.period) := hp1.trans hp2.symm
    have hday : t1.day = t2.day := (Prod.mk.injEq _ _ _ _).mp hpair |>.1
    have hper : t1.period = t2.period := (Prod.mk.injEq _ _ _ _).mp hpair |>.2
    show (t1.day == t2.day && t1.period == t2.period) = true
    rw [hday, hper]
    simp

/-- `_check_clash` is false exactly when the pair satisfies invariants
(b) and (c). -/
theorem checkClash_false_iff (a b : MSlot) :
    checkClash a b = false ↔ PairOK a b := by
  unfold checkClash PairOK
  rw [Bool.or_eq_false_iff]
  constructor
  · rintro ⟨hmx, htime⟩
    refine ⟨hmx, ?_⟩
    intro t hta htb
    have := checkClash_time_iff a b |>.mpr ⟨t, hta, htb⟩
    rw [htime] at this
    exact Bool.false_ne_true this
  · rintro ⟨hmx, hdisj⟩
    refine ⟨hmx, ?_⟩
    by_contra hne
    have htrue : _ = true := Bool.not_eq_false _ |>.mp hne
    rcases checkClash_time_iff a b |>.mp htrue with ⟨t, hta, htb⟩
    exact hdisj t hta htb

/-- The timing-intersection half of the conflict matrix holds exactly when
the slots share a resolved cell. -/
theorem clashFast_time_iff (a b : MSlot) :
    ((slotTimings a).any (fun t => (slotTimings b).contains t)) = true ↔
    ∃ t, t ∈ slotTimings a ∧ t ∈ slotTimings b := by
  constructor
  · intro h
    rcases List.any_eq_true.mp h with ⟨t, ht, hc⟩
    rw [List.contains_eq_any_beq] at hc
    rcases List.any_eq_true.mp hc with ⟨t', ht', hbeq⟩
    have := eq_of_beq hbeq
    exact ⟨t, ht, by rw [this]; exact ht'⟩
  · rintro ⟨t, hta, htb⟩
    refine List.any_eq_true.mpr ⟨t, hta, ?_⟩
    rw [List.contains_eq_any_beq]
    exact List.any_eq_true.mpr ⟨t, htb, by simp⟩

/-- For slots of different courses a false conflict-matrix entry gives
invariants (b) and (c). -/
theorem pairOK_of_clashFast_false {a b : MSlot}
    (hne : a.courseId ≠ b.courseId) (hf : checkClashFast a b = false) :
    PairOK a b := by
  unfold checkClashFast at hf
  rw [Bool.and_eq_false_iff] at hf
  rcases hf with hf | hf
  · exfalso
    rw [bne_eq_false_iff_eq] at hf
    exact hne hf
  · rw [Bool.or_eq_false_iff] at hf
    refine ⟨hf.2, ?_⟩
    intro t hta htb
    have := clashFast_time_iff a b |>.mpr ⟨t, hta, htb⟩
    rw [hf.1] at this
    exact Bool.false_ne_true this

theorem pairOK_symm {a b : MSlot} (h : PairOK a b) : PairOK b a := by
  refine ⟨by rw [mutexPairClash_symm]; exact h.1, ?_⟩
  intro t htb hta
  exact h.2 t hta htb

/-- Appending a slot that does not `_check_clash` with any selected slot
preserves invariants (b) and (c). -/
theorem pairwiseValid_append {sel : List MSlot} {slot : MSlot}
    (hPW : PairwiseValid sel)
    (h : ∀ e ∈ sel, checkClash slot e = false) :
    PairwiseValid (sel ++ [slot]) := by
  refine List.pairwise_append.mpr ⟨hPW, List.pairwise_singleton _ _, ?_⟩
  intro a ha b hb
  rw [List.mem_singleton] at hb
  subst hb
  exact pairOK_symm (checkClash_false_iff _ _ |>.mp (h a ha))

/-- Appending a slot of a fresh course with a clear conflict-matrix row
preserves invariants (b) and (c). -/
theorem pairwiseValid_append_fast {sel : List MSlot} {slot : MSlot}
    (hPW : PairwiseValid sel)
    (h : ∀ e ∈ sel, checkClashFast slot e = false ∧ slot.courseId ≠ e.courseId) :
    PairwiseValid (sel ++ [slot]) := by
  refine List.pairwise_append.mpr ⟨hPW, List.pairwise_singleton _ _, ?_⟩
  intro a ha b hb
  rw [List.mem_singleton] at hb
  subst hb
  exact pairOK_symm (pairOK_of_clashFast_false (h a ha).2 (h a ha).1)

theorem getD_cons_eraseIdx_perm :
    ∀ (l : List α) (j : Nat) (d : α), j < l.length →
      (l.getD j d :: l.eraseIdx j).Perm l := by
  intro l
  induction l with
  | nil => intro j d h; simp at h
  | cons a as ih =>
    intro j d h
    cases j with
    | zero => simp
    | succ j' =>
      have hj' : j' < as.length := by simpa using h
      have hih := ih j' d hj'
      have h1 : (a :: as).getD (j' + 1) d :: (a :: as).eraseIdx (j' + 1)
          = as.getD j' d :: a :: as.eraseIdx j' := rfl
      rw [h1]
      exact (List.Perm.swap a (as.getD j' d) _).trans (List.Perm.cons a hih)

theorem shuffleGo_perm : ∀ (fuel : Nat) (l : List α) (st : RState),
    l.length ≤ fuel → ((shuffleGo fuel l st).1).Perm l := by
  intro fuel
  induction fuel with
  | zero =>
    intro l st h
    have : l = [] := List.length_eq_zero.mp (Nat.le_zero.mp h)
    subst this
    simp [shuffleGo]
  | succ fuel ih =>
    intro l st h
    match l with
    | [] => simp [shuffleGo]
    | a :: as =>
      simp only [shuffleGo]
      have hj : (randBelow (a :: as).length st).1 < (a :: as).length := by
        simp only [randBelow]
        exact Nat.mod_lt _ (by simp)
      have hlen : ((a :: as).eraseIdx (randBelow (a :: as).length st).1).length ≤ fuel := by
        have h2 := List.length_eraseIdx_add_one hj
        have h3 : (a :: as).length ≤ fuel + 1 := h
        omega
      have hrest := ih _ (randBelow (a :: as).length st).2 hlen
      refine List.Perm.trans (List.Perm.cons _ hrest) ?_
      exact getD_cons_eraseIdx_perm _ _ _ hj

theorem shuffleList_perm (l : List α) (st : RState) :
    ((shuffleList l st).1).Perm l :=
  shuffleGo_perm l.length l st (le_refl _)

theorem shuffleList_mem {l : List α} {st : RState} {x : α}
    (h : x ∈ (shuffleList l st).1) : x ∈ l :=
  (shuffleList_perm l st).mem_iff.mp h

theorem getD_mem_of_lt : ∀ (l : List α) (j : Nat) (d : α),
    j < l.length → l.getD j d ∈ l := by
  intro l
  induction l with
  | nil => intro j d h; simp at h
  | cons a as ih =>
    intro j d h
    cases j with
    | zero => exact List.mem_cons_self _ _
    | succ j' =>
      have hj' : j' < as.length := by simpa using h
      exact List.mem_cons_of_mem _ (ih j' d hj')

theorem sampleList_subset : ∀ (l : List α) (k : Nat) (st : RState) (x : α),
    x ∈ (sampleList l k st).1 → x ∈ l := by
  intro l k
  induction k generalizing l with
  | zero => intro st x h; simp [sampleList] at h
  | succ k ih =>
    intro st x h
    match l with
    | [] => simp [sampleList] at h
    | a :: as =>
      simp only [sampleList] at h
      rcases List.mem_cons.mp h with hx | hx
      · subst hx
        exact getD_mem_of_lt _ _ _ (by
          simp only [randBelow]
          exact Nat.mod_lt _ (by simp))
      · have := ih _ _ _ hx
        exact (List.eraseIdx_sublist _ _).mem this

/-- What a successful `firstFit` guarantees: the slot comes from the
candidate list and does not `_check_clash` with any selected slot. -/
theorem firstFit_sound : ∀ (candidates selected : List MSlot)
    (occupied : List (String × Nat)) (slot : MSlot) (nt : List (String × Nat)),
    firstFit candidates selected occupied = some (slot, nt) →
    slot ∈ candidates ∧ ∀ e ∈ selected, checkClash slot e = false := by
  intro candidates
  induction candidates with
  | nil => intro _ _ _ _ h; simp [firstFit] at h
  | cons c rest ih =>
    intro selected occupied slot nt h
    simp only [firstFit] at h
    by_cases hcl : selected.any (fun e => checkClash c e) = true
    · rw [if_pos hcl] at h
      have := ih _ _ _ _ h
      exact ⟨List.mem_cons_of_mem _ this.1, this.2⟩
    · rw [if_neg hcl] at h
      cases hct : collectTimes c occupied with
      | some newTimes =>
        rw [hct] at h
        simp only [Option.some_inj, Prod.mk.injEq] at h
        refine ⟨by rw [← h.1]; exact List.mem_cons_self _ _, ?_⟩
        intro e he
        rw [← h.1]
        by_contra hne
        exact hcl (List.any_eq_true.mpr ⟨e, he, Bool.not_eq_false _ |>.mp hne⟩)
      | none =>
        rw [hct] at h
        have := ih _ _ _ _ h
        exact ⟨List.mem_cons_of_mem _ this.1, this.2⟩

/-- A solution that satisfies all three invariants of §3 for the course list
and slot map at hand. -/
def SolutionOK (m : List (Nat × List MSlot)) (courses : List MCourse)
    (sel : List MSlot) : Prop :=
  OneSlotPerCourse m courses sel ∧ PairwiseValid sel

theorem forall₂_append_singleton {R : α → β → Prop} {l1 : List α}
    {l2 : List β} {a : α} {b : β} (h : List.Forall₂ R l1 l2) (hab : R a b) :
    List.Forall₂ R (l1 ++ [a]) (l2 ++ [b]) := by
  induction h with
  | nil => exact List.Forall₂.cons hab List.Forall₂.nil
  | cons hxy _ ih => exact List.Forall₂.cons hxy ih

theorem forall₂_map_courseId {m : List (Nat × List MSlot)} (hWF : MapWF m) :
    ∀ {cids : List Nat} {sel : List MSlot},
    List.Forall₂ (fun cid s => s ∈ mapGet m cid) cids sel →
    sel.map (·.courseId) = cids := by
  intro cids sel h
  induction h with
  | nil => rfl
  | cons hab _ ih =>
    simp only [List.map_cons, ih]
    rw [mapGet_courseId hWF hab]

theorem forall₂_mem_right {R : α → β → Prop} :
    ∀ {l1 : List α} {l2 : List β} {b : β},
    List.Forall₂ R l1 l2 → b ∈ l2 → ∃ a ∈ l1, R a b := by
  intro l1 l2 b h hb
  induction h with
  | nil => simp at hb
  | cons hab _ ih =>
    rcases List.mem_cons.mp hb with hb | hb
    · subst hb; exact ⟨_, List.mem_cons_self _ _, hab⟩
    · rcases ih hb with ⟨a, ha, hr⟩
      exact ⟨a, List.mem_cons_of_mem _ ha, hr⟩

theorem aligned_oneSlotPerCourse {m : List (Nat × List MSlot)}
    (hWF : MapWF m) {cids : List Nat} {sel : List MSlot}
    (h : List.Forall₂ (fun cid s => s ∈ mapGet m cid) cids sel)
    {courses : List MCourse} (hperm : cids.Perm (courses.map (·.id))) :
    OneSlotPerCourse m courses sel := by
  constructor
  · rw [forall₂_map_courseId hWF h]
    exact hperm
  · intro s hs
    rcases forall₂_mem_right h hs with ⟨cid, _, hmem⟩
    have hc := mapGet_courseId hWF hmem
    rw [hc]
    exact hmem

/-- Course loop of `_try_random_timetable`: a successful run extends the
aligned prefix by one pooled slot per remaining course and preserves
invariants (b), (c). -/
theorem tryRandomGo_sound (m : List (Nat × List MSlot)) :
    ∀ (cs : List MCourse) (pre : List Nat) (selected : List MSlot)
      (occupied : List (String × Nat)) (st : RState) (sel : List MSlot)
      (st' : RState),
    List.Forall₂ (fun cid s => s ∈ mapGet m cid) pre selected →
    PairwiseValid selected →
    tryRandomGo m cs selected occupied st = (some sel, st') →
    List.Forall₂ (fun cid s => s ∈ mapGet m cid) (pre ++ cs.map (·.id)) sel ∧
    PairwiseValid sel := by
  intro cs
  induction cs with
  | nil =>
    intro pre selected occupied st sel st' halign hPW h
    simp only [tryRandomGo, Prod.mk.injEq] at h
    have hsel : selected = sel := Option.some.inj h.1
    subst hsel
    rw [List.map_nil, List.append_nil]
    exact ⟨halign, hPW⟩
  | cons course rest ih =>
    intro pre selected occupied st sel st' halign hPW h
    simp only [tryRandomGo] at h
    by_cases hemp : (mapGet m course.id).isEmpty = true
    · rw [if_pos hemp] at h; simp at h
    · rw [if_neg hemp] at h
      cases hff : firstFit ((shuffleList (mapGet m course.id) st).1.take 10)
          selected occupied with
      | none => rw [hff] at h; simp at h
      | some pair =>
        rw [hff] at h
        obtain ⟨slot, newTimes⟩ := pair
        rcases firstFit_sound _ _ _ _ _ hff with ⟨hmemC, hnoClash⟩
        have hmem : slot ∈ mapGet m course.id :=
          shuffleList_mem (List.mem_of_mem_take hmemC)
        have halign' := forall₂_append_singleton halign hmem
        have hPW' := pairwiseValid_append hPW hnoClash
        have := ih (pre ++ [course.id]) (selected ++ [slot])
          (occupied ++ newTimes) _ sel st' halign' hPW' h
        rw [List.append_assoc] at this
        simpa using this

/-- `_try_random_timetable` only ever returns solutions satisfying the §3
invariants. -/
theorem tryRandomTimetable_sound {m : List (Nat × List MSlot)}
    {courses : List MCourse} {st : RState} {sel : List MSlot}
    (hWF : MapWF m)
    (h : (tryRandomTimetable courses m st).1 = some sel) :
    SolutionOK m courses sel := by
  unfold tryRandomTimetable at h
  cases hS : shuffleList courses st with
  | mk scs st1 =>
    rw [hS] at h
    dsimp only at h
    have hperm : scs.Perm courses := by
      have := shuffleList_perm courses st
      rw [hS] at this
      exact this
    cases hgo : tryRandomGo m scs [] [] st1 with
    | mk res st2 =>
      rw [hgo] at h
      cases res with
      | none => simp at h
      | some sel0 =>
        simp only at h
        by_cases hlen : sel0.length = courses.length
        · rw [if_pos hlen] at h
          have hsel : sel0 = sel := by simpa using h
          subst hsel
          have := tryRandomGo_sound m scs [] [] [] st1 sel0
            st2 List.Forall₂.nil List.Pairwise.nil hgo
          rcases this with ⟨halign, hPW⟩
          rw [List.nil_append] at halign
          refine ⟨aligned_oneSlotPerCourse hWF halign ?_, hPW⟩
          exact hperm.map (·.id)
        · rw [if_neg hlen] at h; simp at h

/-- The exhaustive backtracking preserves the §3 invariants for every
solution it records. -/
theorem exhaustiveBT_sound (m : List (Nat × List MSlot)) (maxS : Nat)
    (hWF : MapWF m) (courses : List MCourse)
    (hnd : (courses.map (·.id)).Nodup) :
    ∀ (rest : List MCourse) (pre : List Nat) (selected : List MSlot)
      (occupied : List (String × Nat))
      (acc : List (List MSlot) × List (Finset Nat)),
      courses.map (·.id) = pre ++ rest.map (·.id) →
      List.Forall₂ (fun cid s => s ∈ mapGet m cid) pre selected →
      PairwiseValid selected →
      (∀ sol ∈ acc.1, SolutionOK m courses sol) →
      ∀ sol ∈ (exhaustiveBT m maxS rest selected occupied acc).1,
        SolutionOK m courses sol := by
  intro rest
  induction rest with
  | nil =>
    intro pre selected occupied acc hsplit halign hPW hacc sol hsol
    simp only [exhaustiveBT] at hsol
    by_cases hge : acc.1.length ≥ maxS
    · rw [if_pos hge] at hsol; exact hacc sol hsol
    · rw [if_neg hge] at hsol
      by_cases hseen : solutionSig selected ∈ acc.2
      · rw [if_pos hseen] at hsol; exact hacc sol hsol
      · rw [if_neg hseen] at hsol
        simp only at hsol
        rcases List.mem_append.mp hsol with hs | hs
        · exact hacc sol hs
        · rw [List.mem_singleton] at hs
          subst hs
          refine ⟨aligned_oneSlotPerCourse hWF halign ?_, hPW⟩
          rw [List.map_nil, List.append_nil] at hsplit
          rw [hsplit]
  | cons course rest' ih =>
    intro pre selected occupied acc hsplit halign hPW hacc sol hsol
    simp only [exhaustiveBT] at hsol
    -- the course id being processed is fresh with respect to the prefix
    have hfresh : course.id ∉ pre := by
      intro hmem
      rw [hsplit] at hnd
      rcases List.nodup_append.mp hnd with ⟨_, _, hdisj⟩
      exact hdisj hmem (by simp)
    -- fold invariant over the domain of the current course
    have inner : ∀ (dom : List MSlot)
        (acc' : List (List MSlot) × List (Finset Nat)),
        (∀ s ∈ dom, s ∈ mapGet m course.id) →
        (∀ sol ∈ acc'.1, SolutionOK m courses sol) →
        ∀ sol ∈ (dom.foldl (fun acc'' slot =>
          if acc''.1.length ≥ maxS then acc''
          else if selected.any (fun e => checkClashFast slot e) then acc''
          else if (slotTimings slot).any (fun t => occupied.contains t) then acc''
          else exhaustiveBT m maxS rest' (selected ++ [slot])
            (occupied ++ slotTimings slot) acc'') acc').1,
          SolutionOK m courses sol := by
      intro dom
      induction dom with
      | nil => intro acc' _ hacc' sol hsol; exact hacc' sol hsol
      | cons slot dom' ihdom =>
        intro acc' hdom hacc' sol hsol
        rw [List.foldl_cons] at hsol
        have hdom' : ∀ s ∈ dom', s ∈ mapGet m course.id :=
          fun s hs => hdom s (List.mem_cons_of_mem _ hs)
        by_cases hge : acc'.1.length ≥ maxS
        · rw [if_pos hge] at hsol; exact ihdom acc' hdom' hacc' sol hsol
        · rw [if_neg hge] at hsol
          by_cases hcl : selected.any (fun e => checkClashFast slot e) = true
          · rw [if_pos hcl] at hsol; exact ihdom acc' hdom' hacc' sol hsol
          · rw [if_neg hcl] at hsol
            by_cases htm : ((slotTimings slot).any
                (fun t => occupied.contains t)) = true
            · rw [if_pos htm] at hsol; exact ihdom acc' hdom' hacc' sol hsol
            · rw [if_neg htm] at hsol
              have hmem : slot ∈ mapGet m course.id :=
                hdom slot (List.mem_cons_self _ _)
              have hcid : slot.courseId = course.id := mapGet_courseId hWF hmem
              have hstep : ∀ e ∈ selected,
                  checkClashFast slot e = false ∧ slot.courseId ≠ e.courseId := by
                intro e he
                constructor
                · by_contra hne
                  exact hcl (List.any_eq_true.mpr
                    ⟨e, he, Bool.not_eq_false _ |>.mp hne⟩)
                · rcases forall₂_mem_right halign he with ⟨cid, hcidmem, hemem⟩
                  have he' := mapGet_courseId hWF hemem
                  rw [hcid, he']
                  intro heq
                  exact hfresh (heq ▸ hcidmem)
              have halign' := forall₂_append_singleton halign hmem
              have hPW' := pairwiseValid_append_fast hPW hstep
              have hsplit' : courses.map (·.id)
                  = (pre ++ [course.id]) ++ rest'.map (·.id) := by
                rw [hsplit]; simp
              have hsound := ih (pre ++ [course.id]) (selected ++ [slot])
                (occupied ++ slotTimings slot) acc' hsplit' halign' hPW' hacc'
              exact ihdom _ hdom' hsound sol hsol
    exact inner (mapGet m course.id) acc (fun s hs => hs) hacc sol hsol

/-- C1 core for `generate_exhaustive`: every ranked solution satisfies the
§3 invariants. -/
theorem generateExhaustive_sound {p : MPreferences}
    {m : List (Nat × List MSlot)} {courses : List MCourse}
    {maxS target : Nat} (hWF : MapWF m)
    (hnd : (courses.map (·.id)).Nodup) :
    ∀ sol ∈ generateExhaustive p courses m maxS target,
      SolutionOK m courses sol.slots := by
  intro sol hsol
  unfold generateExhaustive at hsol
  by_cases hemp : courses.isEmpty = true
  · rw [if_pos hemp] at hsol; simp at hsol
  · rw [if_neg hemp] at hsol
    simp only at hsol
    have hmem := List.mem_of_mem_take hsol
    rw [List.mem_insertionSort] at hmem
    rcases List.mem_map.mp hmem with ⟨slots, hslots, hmk⟩
    have := exhaustiveBT_sound m maxS hWF courses hnd courses [] [] [] ([], [])
      (by simp) List.Forall₂.nil List.Pairwise.nil (by simp) slots hslots
    rw [← hmk]
    exact this

/-- Invariants (a)–(c) of §3 exactly as claimed for a returned solution:
one chosen slot per requested course (by course id), no shared cell, no
mutual-exclusion pairing. -/
def InvariantsOK (courses : List MCourse) (sel : List MSlot) : Prop :=
  (sel.map (·.courseId)).Perm (courses.map (·.id)) ∧ PairwiseValid sel

theorem solutionOK_invariantsOK {m : List (Nat × List MSlot)}
    {courses : List MCourse} {sel : List MSlot} (h : SolutionOK m courses sel) :
    InvariantsOK courses sel :=
  ⟨h.1.1, h.2⟩

/-- Well-formedness of the course records: every slot reachable from a course
carries that course's id (the `course_id` foreign key). -/
def CoursesSlotWF (courses : List MCourse) : Prop :=
  ∀ c ∈ courses, ∀ s ∈ c.slots, s.courseId = c.id

theorem filteredSlots_subset {p : MPreferences} {ign : Bool} {c : MCourse}
    {s : MSlot} (h : s ∈ filteredSlots p ign c) : s ∈ c.slots :=
  List.mem_of_mem_filter h

/-- Every entry of a built slot map comes from a listed course and contains
only its filtered slots. -/
theorem buildSlotMap_entries {p : MPreferences} {r i : Bool} {st : RState} :
    ∀ {courses : List MCourse} {e : Nat × List MSlot},
    e ∈ (buildSlotMap p courses r i st).1 →
    ∃ c ∈ courses, e.1 = c.id ∧ ∀ s ∈ e.2, s ∈ filteredSlots p i c := by
  intro courses
  induction courses generalizing st with
  | nil => intro e he; simp [buildSlotMap] at he
  | cons course rest ih =>
    intro e he
    simp only [buildSlotMap] at he
    rcases List.mem_cons.mp he with he | he
    · refine ⟨course, List.mem_cons_self _ _, by rw [he], ?_⟩
      intro s hs
      rw [he] at hs
      simp only at hs
      by_cases hr : r = true
      · rw [if_pos hr] at hs
        exact shuffleList_mem hs
      · rw [if_neg hr] at hs
        rw [List.mem_insertionSort] at hs
        exact shuffleList_mem hs
    · rcases ih he with ⟨c, hc, hid, hsub⟩
      exact ⟨c, List.mem_cons_of_mem _ hc, hid, hsub⟩

/-- A built slot map is well formed whenever the course records are. -/
theorem buildSlotMap_WF {p : MPreferences} {r i : Bool} {st : RState}
    {courses : List MCourse} (hCW : CoursesSlotWF courses) :
    MapWF ((buildSlotMap p courses r i st).1) := by
  intro e he s hs
  rcases buildSlotMap_entries he with ⟨c, hc, hid, hsub⟩
  rw [hid]
  exact hCW c hc s (filteredSlots_subset (hsub s hs))

/-- `rankedGo` (the per-attempt loop of `generate_ranked_pool`) preserves the
invariants. -/
theorem rankedGo_sound (m : List (Nat × List MSlot)) :
    ∀ (cids : List Nat) (pre : List Nat) (selected : List MSlot)
      (occupied : List (String × Nat)) (st : RState) (sel : List MSlot)
      (st' : RState),
    List.Forall₂ (fun cid s => s ∈ mapGet m cid) pre selected →
    PairwiseValid selected →
    rankedGo m cids selected occupied st = (some sel, st') →
    List.Forall₂ (fun cid s => s ∈ mapGet m cid) (pre ++ cids) sel ∧
    PairwiseValid sel := by
  intro cids
  induction cids with
  | nil =>
    intro pre selected occupied st sel st' halign hPW h
    simp only [rankedGo, Prod.mk.injEq] at h
    have hsel : selected = sel := Option.some.inj h.1
    subst hsel
    rw [List.append_nil]
    exact ⟨halign, hPW⟩
  | cons cid rest ih =>
    intro pre selected occupied st sel st' halign hPW h
    simp only [rankedGo] at h
    by_cases hemp : (mapGet m cid).isEmpty = true
    · rw [if_pos hemp] at h; simp at h
    · rw [if_neg hemp] at h
      cases hff : firstFit
          (sampleList (mapGet m cid) (min (mapGet m cid).length 5) st).1
          selected occupied with
      | none => rw [hff] at h; simp at h
      | some pair =>
        rw [hff] at h
        obtain ⟨slot, newTimes⟩ := pair
        rcases firstFit_sound _ _ _ _ _ hff with ⟨hmemC, hnoClash⟩
        have hmem : slot ∈ mapGet m cid := sampleList_subset _ _ _ _ hmemC
        have halign' := forall₂_append_singleton halign hmem
        have hPW' := pairwiseValid_append hPW hnoClash
        have := ih (pre ++ [cid]) (selected ++ [slot])
          (occupied ++ newTimes) _ sel st' halign' hPW' h
        rw [List.append_assoc] at this
        simpa using this

/-- One `generate_ranked_pool` attempt yields only invariant-satisfying
solutions. -/
theorem rankedPoolAttempt_sound {m : List (Nat × List MSlot)}
    {courses : List MCourse} {st : RState} {sel : List MSlot}
    (hWF : MapWF m)
    (h : (rankedPoolAttempt courses m st).1 = some sel) :
    SolutionOK m courses sel := by
  unfold rankedPoolAttempt at h
  cases hS : shuffleList (courses.map (·.id)) st with
  | mk scids st1 =>
    rw [hS] at h
    dsimp only at h
    have hperm : scids.Perm (courses.map (·.id)) := by
      have := shuffleList_perm (courses.map (·.id)) st
      rw [hS] at this
      exact this
    cases hgo : rankedGo m scids [] [] st1 with
    | mk res st2 =>
      rw [hgo] at h
      cases res with
      | none => simp at h
      | some sel0 =>
        simp only at h
        by_cases hlen : sel0.length = courses.length
        · rw [if_pos hlen] at h
          have hsel : sel0 = sel := by simpa using h
          subst hsel
          rcases rankedGo_sound m scids [] [] [] st1 sel0 st2
            List.Forall₂.nil List.Pairwise.nil hgo with ⟨halign, hPW⟩
          rw [List.nil_append] at halign
          exact ⟨aligned_oneSlotPerCourse hWF halign hperm, hPW⟩
        · rw [if_neg hlen] at h; simp at h

theorem mapGet_map_courses {f : MCourse → List MSlot}
    {courses : List MCourse} {cid : Nat} {s : MSlot}
    (hs : s ∈ mapGet (courses.map (fun c => (c.id, f c))) cid) :
    ∃ c ∈ courses, c.id = cid ∧ s ∈ f c := by
  induction courses with
  | nil => simp [mapGet, List.lookup] at hs
  | cons c rest ih =>
    rw [List.map_cons, mapGet_cons] at hs
    by_cases hc : c.id = cid
    · simp only [hc, if_pos rfl] at hs
      exact ⟨c, List.mem_cons_self _ _, hc, hs⟩
    · simp only [hc, if_neg hc] at hs
      rcases ih hs with ⟨c', hc', hid, hf⟩
      exact ⟨c', List.mem_cons_of_mem _ hc', hid, hf⟩

/-- The preferred and non-preferred pools of `generate_tiered_teacher_pool`
only contain slots of the corresponding course's pool. -/
theorem splitPreferred_sub {p : MPreferences} {courses : List MCourse}
    {m : List (Nat × List MSlot)} :
    (∀ cid s, s ∈ mapGet (splitPreferred p courses m).1 cid →
      s ∈ mapGet m cid) ∧
    (∀ cid s, s ∈ mapGet (splitPreferred p courses m).2 cid →
      s ∈ mapGet m cid) := by
  constructor
  · intro cid s hs
    rcases mapGet_map_courses hs with ⟨c, _, hid, hf⟩
    simp only at hf
    rw [← hid]
    by_cases hp : (p.prefsFor (toString c.id)).isEmpty = true
    · rw [if_pos hp] at hf; exact hf
    · rw [if_neg hp] at hf; exact List.mem_of_mem_filter hf
  · intro cid s hs
    rcases mapGet_map_courses hs with ⟨c, _, hid, hf⟩
    simp only at hf
    rw [← hid]
    by_cases hp : (p.prefsFor (toString c.id)).isEmpty = true
    · rw [if_pos hp] at hf; simp at hf
    · rw [if_neg hp] at hf; exact List.mem_of_mem_filter hf

/-- `_try_build_timetable`'s course loop preserves the invariants, relative
to any pair of pools that refine the main slot map. -/
theorem tryBuildGo_sound (m prefM nonPrefM : List (Nat × List MSlot))
    (courses0 : List MCourse) (usePreferred : List Nat)
    (hsubP : ∀ cid s, s ∈ mapGet prefM cid → s ∈ mapGet m cid)
    (hsubN : ∀ cid s, s ∈ mapGet nonPrefM cid → s ∈ mapGet m cid) :
    ∀ (cs : List MCourse) (pre : List Nat) (selected : List MSlot)
      (occupied : List (String × Nat)) (st : RState) (sel : List MSlot)
      (st' : RState),
    List.Forall₂ (fun cid s => s ∈ mapGet m cid) pre selected →
    PairwiseValid selected →
    tryBuildGo courses0 usePreferred prefM nonPrefM cs selected occupied st
      = (some sel, st') →
    List.Forall₂ (fun cid s => s ∈ mapGet m cid) (pre ++ cs.map (·.id)) sel ∧
    PairwiseValid sel := by
  intro cs
  induction cs with
  | nil =>
    intro pre selected occupied st sel st' halign hPW h
    simp only [tryBuildGo, Prod.mk.injEq] at h
    have hsel : selected = sel := Option.some.inj h.1
    subst hsel
    rw [List.map_nil, List.append_nil]
    exact ⟨halign, hPW⟩
  | cons course rest ih =>
    intro pre selected occupied st sel st' halign hPW h
    simp only [tryBuildGo] at h
    set usePref := usePreferred.contains (courses0.indexOf course) with hup
    set pool0 := if usePref then mapGet prefM course.id
      else mapGet nonPrefM course.id with hpool0
    set pool := if pool0.isEmpty then
        (if usePref then mapGet nonPrefM course.id else mapGet prefM course.id)
      else pool0 with hpool
    have hpoolsub : ∀ s ∈ pool, s ∈ mapGet m course.id := by
      intro s hs
      rw [hpool] at hs
      by_cases he : pool0.isEmpty = true
      · rw [if_pos he] at hs
        by_cases hu : usePref = true
        · rw [if_pos hu] at hs; exact hsubN _ _ hs
        · rw [if_neg hu] at hs; exact hsubP _ _ hs
      · rw [if_neg he] at hs
        rw [hpool0] at hs
        by_cases hu : usePref = true
        · rw [if_pos hu] at hs; exact hsubP _ _ hs
        · rw [if_neg hu] at hs; exact hsubN _ _ hs
    by_cases hemp : pool.isEmpty = true
    · rw [if_pos hemp] at h; simp at h
    · rw [if_neg hemp] at h
      cases hff : firstFit (shuffleList pool st).1 selected occupied with
      | none => rw [hff] at h; simp at h
      | some pair =>
        rw [hff] at h
        obtain ⟨slot, newTimes⟩ := pair
        rcases firstFit_sound _ _ _ _ _ hff with ⟨hmemC, hnoClash⟩
        have hmem : slot ∈ mapGet m course.id :=
          hpoolsub _ (shuffleList_mem hmemC)
        have halign' := forall₂_append_singleton halign hmem
        have hPW' := pairwiseValid_append hPW hnoClash
        have := ih (pre ++ [course.id]) (selected ++ [slot])
          (occupied ++ newTimes) _ sel st' halign' hPW' h
        rw [List.append_assoc] at this
        simpa using this

/-- `_try_build_timetable` yields only invariant-satisfying solutions. -/
theorem tryBuildTimetable_sound {m prefM nonPrefM : List (Nat × List MSlot)}
    {courses : List MCourse} {usePreferred : List Nat} {st : RState}
    {sel : List MSlot} (hWF : MapWF m)
    (hsubP : ∀ cid s, s ∈ mapGet prefM cid → s ∈ mapGet m cid)
    (hsubN : ∀ cid s, s ∈ mapGet nonPrefM cid → s ∈ mapGet m cid)
    (h : (tryBuildTimetable courses usePreferred prefM nonPrefM st).1
      = some sel) :
    SolutionOK m courses sel := by
  unfold tryBuildTimetable at h
  cases hS : shuffleList courses st with
  | mk scs st1 =>
    rw [hS] at h
    dsimp only at h
    have hperm : scs.Perm courses := by
      have := shuffleList_perm courses st
      rw [hS] at this
      exact this
    cases hgo : tryBuildGo courses usePreferred prefM nonPrefM scs [] [] st1 with
    | mk res st2 =>
      rw [hgo] at h
      cases res with
      | none => simp at h
      | some sel0 =>
        simp only at h
        by_cases hlen : sel0.length = courses.length
        · rw [if_pos hlen] at h
          have hsel : sel0 = sel := by simpa using h
          subst hsel
          rcases tryBuildGo_sound m prefM nonPrefM courses usePreferred
            hsubP hsubN scs [] [] [] st1 sel0 st2 List.Forall₂.nil
            List.Pairwise.nil hgo with ⟨halign, hPW⟩
          rw [List.nil_append] at halign
          refine ⟨aligned_oneSlotPerCourse hWF halign ?_, hPW⟩
          exact hperm.map (·.id)
        · rw [if_neg hlen] at h; simp at h

theorem mapSet_sub {m : List (Nat × List MSlot)} {cid : Nat} {v : List MSlot}
    (hv : ∀ x ∈ v, x ∈ mapGet m cid) :
    ∀ c s, s ∈ mapGet (mapSet m cid v) c → s ∈ mapGet m c := by
  induction m with
  | nil => intro c s hs; simpa [mapSet] using hs
  | cons e rest ih =>
    intro c s hs
    by_cases he : e.1 = cid
    · simp only [mapSet, if_pos he] at hs
      rw [mapGet_cons] at hs ⊢
      by_cases hc : c = cid
      · subst hc
        simp only [if_pos rfl] at hs
        have := hv s hs
        rw [mapGet_cons, if_pos he] at this
        rw [if_pos he]
        exact this
      · have : ¬ (cid, v).1 = c := by simpa using Ne.symm hc
        rw [if_neg this] at hs
        rw [if_neg (by rw [he]; exact Ne.symm hc)]
        exact hs
    · simp only [mapSet, if_neg he] at hs
      rw [mapGet_cons] at hs ⊢
      by_cases hc : e.1 = c
      · rw [if_pos hc] at hs ⊢; exact hs
      · rw [if_neg hc] at hs ⊢
        refine ih ?_ c s hs
        intro x hx
        have := hv x hx
        rw [mapGet_cons, if_neg he] at this
        exact this

theorem shuffleMapForIds_sub :
    ∀ (cids : List Nat) (m : List (Nat × List MSlot)) (st : RState) (c : Nat)
      (s : MSlot), s ∈ mapGet (shuffleMapForIds m cids st).1 c →
      s ∈ mapGet m c := by
  intro cids
  induction cids with
  | nil => intro m st c s hs; simpa [shuffleMapForIds] using hs
  | cons cid rest ih =>
    intro m st c s hs
    simp only [shuffleMapForIds] at hs
    cases hl : m.lookup cid with
    | none =>
      rw [hl] at hs
      exact ih m st c s hs
    | some l =>
      rw [hl] at hs
      dsimp only at hs
      have hsub : ∀ x ∈ (shuffleList l st).1, x ∈ mapGet m cid := by
        intro x hx
        have : x ∈ l := shuffleList_mem hx
        unfold mapGet
        rw [hl]
        exact this
      exact mapSet_sub hsub c s (ih _ _ c s hs)

theorem divUnwrap_eq {x : Option (Option (List MSlot)) × Nat}
    {sel : List MSlot} {a' : Nat}
    (h : (match x.1 with
          | some r => (r, x.2)
          | none => ((none : Option (List MSlot)), x.2)) = (some sel, a')) :
    x.1 = some (some sel) := by
  cases hx : x.1 with
  | none => rw [hx] at h; simp at h
  | some r =>
    rw [hx] at h
    simp only [Prod.mk.injEq] at h
    rw [h.1]

/-- The `generate_diverse` backtracking preserves the invariants for any
complete assignment it returns. -/
theorem diverseBT_sound (maxA : Nat) (m : List (Nat × List MSlot)) :
    ∀ (cids : List Nat) (pre : List Nat) (selected : List MSlot)
      (occupied : List (String × Nat)) (attempts : Nat) (sel : List MSlot)
      (a' : Nat),
    List.Forall₂ (fun cid s => s ∈ mapGet m cid) pre selected →
    PairwiseValid selected →
    diverseBT maxA m cids selected occupied attempts = (some sel, a') →
    List.Forall₂ (fun cid s => s ∈ mapGet m cid) (pre ++ cids) sel ∧
    PairwiseValid sel := by
  intro cids
  induction cids with
  | nil =>
    intro pre selected occupied attempts sel a' halign hPW h
    simp only [diverseBT] at h
    by_cases hge : attempts ≥ maxA
    · rw [if_pos hge] at h; simp at h
    · rw [if_neg hge] at h
      simp only [Prod.mk.injEq] at h
      have hsel : selected = sel := Option.some.inj h.1
      subst hsel
      rw [List.append_nil]
      exact ⟨halign, hPW⟩
  | cons cid rest ih =>
    intro pre selected occupied attempts sel a' halign hPW h
    simp only [diverseBT] at h
    by_cases hge : attempts ≥ maxA
    · rw [if_pos hge] at h; simp at h
    · rw [if_neg hge] at h
      -- fold invariant: whenever the accumulator records a returned complete
      -- solution, that solution satisfies the invariants
      have inner : ∀ (dom : List MSlot)
          (acc : Option (Option (List MSlot)) × Nat),
          (∀ x ∈ dom, x ∈ mapGet m cid) →
          (∀ s, acc.1 = some (some s) →
            List.Forall₂ (fun cid s => s ∈ mapGet m cid) (pre ++ cid :: rest) s ∧
            PairwiseValid s) →
          ∀ s, (dom.foldl (fun acc slot =>
            match acc.1 with
            | some _ => acc
            | none =>
              let a' := acc.2 + 1
              if a' ≥ maxA then (some none, a')
              else if selected.any (fun e => checkClash slot e) then (none, a')
              else
                match collectTimes slot occupied with
                | none => (none, a')
                | some newTimes =>
                  match diverseBT maxA m rest (selected ++ [slot])
                      (occupied ++ newTimes) a' with
                  | (some result, a2) => (some (some result), a2)
                  | (none, a2) => (none, a2)) acc).1 = some (some s) →
            List.Forall₂ (fun cid s => s ∈ mapGet m cid) (pre ++ cid :: rest) s ∧
            PairwiseValid s := by
        intro dom
        induction dom with
        | nil => intro acc _ hAcc s hs; exact hAcc s hs
        | cons slot dom' ihdom =>
          intro acc hdom hAcc s hs
          rw [List.foldl_cons] at hs
          have hdom' : ∀ x ∈ dom', x ∈ mapGet m cid :=
            fun x hx => hdom x (List.mem_cons_of_mem _ hx)
          refine ihdom _ hdom' ?_ s hs
          intro s' hs'
          cases hacc1 : acc.1 with
          | some r =>
            rw [hacc1] at hs'
            dsimp only at hs'
            exact hAcc s' hs'
          | none =>
            rw [hacc1] at hs'
            simp only at hs'
            by_cases hge2 : acc.2 + 1 ≥ maxA
            · rw [if_pos hge2] at hs'; simp at hs'
            · rw [if_neg hge2] at hs'
              by_cases hcl : selected.any (fun e => checkClash slot e) = true
              · rw [if_pos hcl] at hs'; simp at hs'
              · rw [if_neg hcl] at hs'
                cases hct : collectTimes slot occupied with
                | none => rw [hct] at hs'; simp at hs'
                | some newTimes =>
                  rw [hct] at hs'
                  dsimp only at hs'
                  cases hrec : diverseBT maxA m rest (selected ++ [slot])
                      (occupied ++ newTimes) (acc.2 + 1) with
                  | mk res a2 =>
                    rw [hrec] at hs'
                    cases res with
                    | none => simp at hs'
                    | some result =>
                      simp only [Option.some_inj] at hs'
                      subst hs'
                      have hmem : slot ∈ mapGet m cid :=
                        hdom slot (List.mem_cons_self _ _)
                      have hnoClash : ∀ e ∈ selected, checkClash slot e = false := by
                        intro e he
                        by_contra hne
                        exact hcl (List.any_eq_true.mpr
                          ⟨e, he, Bool.not_eq_false _ |>.mp hne⟩)
                      have halign' := forall₂_append_singleton halign hmem
                      have hPW' := pairwiseValid_append hPW hnoClash
                      have := ih (pre ++ [cid]) (selected ++ [slot])
                        (occupied ++ newTimes) (acc.2 + 1) result a2
                        halign' hPW' hrec
                      rw [List.append_assoc] at this
                      simpa using this
      have hx := divUnwrap_eq h
      exact inner (mapGet m cid) ((none : Option (Option (List MSlot))), attempts)
        (fun x hx => hx) (by intro s' hs'; simp at hs') sel hx

/-- The outer `generate_diverse` loop only accepts invariant-satisfying
solutions. -/
theorem generateDiverseLoop_sound {p : MPreferences} {courses : List MCourse}
    {m : List (Nat × List MSlot)} (hWF : MapWF m) {limit maxA : Nat} :
    ∀ (fuel : Nat) (solutions : List MSolution) (seenIds : List (Finset Nat))
      (cmd : Int) (fs attempts : Nat) (st : RState) (trace : List DivAccept),
    (∀ sol ∈ solutions, SolutionOK m courses sol.slots) →
    ∀ sol ∈ (generateDiverseLoop p courses m limit maxA fuel solutions seenIds
      cmd fs attempts st trace).1, SolutionOK m courses sol.slots := by
  intro fuel
  induction fuel with
  | zero =>
    intro solutions seenIds cmd fs attempts st trace hinv sol hsol
    exact hinv sol hsol
  | succ fuel ih =>
    intro solutions seenIds cmd fs attempts st trace hinv sol hsol
    simp only [generateDiverseLoop] at hsol
    by_cases hstop : solutions.length ≥ limit ∨ attempts ≥ maxA
    · rw [if_pos hstop] at hsol; exact hinv sol hsol
    · rw [if_neg hstop] at hsol
      cases hS : shuffleList (courses.map (·.id)) st with
      | mk scids st1 =>
        rw [hS] at hsol
        dsimp only at hsol
        have hperm : scids.Perm (courses.map (·.id)) := by
          have := shuffleList_perm (courses.map (·.id)) st
          rw [hS] at this
          exact this
        cases hM : (if shouldShuffleSlots p then shuffleMapForIds m scids st1
            else (m, st1)) with
        | mk m' st2 =>
          rw [hM] at hsol
          dsimp only at hsol
          have hsub : ∀ c s, s ∈ mapGet m' c → s ∈ mapGet m c := by
            intro c s hs
            by_cases hsh : shouldShuffleSlots p = true
            · rw [if_pos hsh] at hM
              have hm' : m' = (shuffleMapForIds m scids st1).1 :=
                (congrArg Prod.fst hM).symm
              rw [hm'] at hs
              exact shuffleMapForIds_sub scids m st1 c s hs
            · rw [if_neg hsh] at hM
              have hm' : m' = m := (congrArg Prod.fst hM).symm
              rw [hm'] at hs
              exact hs
          cases hbt : diverseBT maxA m' scids [] [] attempts with
          | mk res attempts' =>
            rw [hbt] at hsol
            cases res with
            | none => exact hinv sol hsol
            | some r =>
              dsimp only at hsol
              have hrOK : SolutionOK m courses r := by
                rcases diverseBT_sound maxA m' scids [] [] [] attempts r
                  attempts' List.Forall₂.nil List.Pairwise.nil hbt with
                  ⟨halign, hPW⟩
                rw [List.nil_append] at halign
                have halign' : List.Forall₂ (fun cid s => s ∈ mapGet m cid)
                    scids r := halign.imp (fun {cid s} h => hsub cid s h)
                exact ⟨aligned_oneSlotPerCourse hWF halign' hperm, hPW⟩
              by_cases hseen : solutionSig r ∈ seenIds
              · rw [if_pos hseen] at hsol
                exact ih _ _ _ _ _ _ _ hinv sol hsol
              · rw [if_neg hseen] at hsol
                by_cases hacc : calculateDiversityScore r solutions ≥
                    (if fs > 20 then (max 5 (cmd - 5), 0)
                      else (cmd, fs)).1 ∨ solutions.length = 0
                · rw [if_pos hacc] at hsol
                  refine ih _ _ _ _ _ _ _ ?_ sol hsol
                  intro s hs
                  rcases List.mem_append.mp hs with hs | hs
                  · exact hinv s hs
                  · rw [List.mem_singleton] at hs
                    subst hs
                    exact hrOK
                · rw [if_neg hacc] at hsol
                  exact ih _ _ _ _ _ _ _ hinv sol hsol

/-- C1 core for `generate_diverse`. -/
theorem generateDiverse_sound {p : MPreferences} {courses : List MCourse}
    {m : List (Nat × List MSlot)} {limit : Nat} {minDiv : Int} {st : RState}
    (hWF : MapWF m) :
    ∀ sol ∈ (generateDiverse p courses m limit minDiv st).1,
      SolutionOK m courses sol.slots := by
  intro sol hsol
  unfold generateDiverse at hsol
  by_cases hemp : courses.isEmpty = true
  · rw [if_pos hemp] at hsol; simp at hsol
  · rw [if_neg hemp] at hsol
    exact generateDiverseLoop_sound hWF _ _ _ _ _ _ _ _ (by simp) sol hsol

/-- The `_generate_random_solutions` loop only records solutions produced by
`_try_random_timetable`. -/
theorem randomSolutionsLoop_sound {courses : List MCourse}
    {m : List (Nat × List MSlot)} (hWF : MapWF m) {targetSize : Nat} :
    ∀ (fuel : Nat) (solutions : List MSolution) (seen : List (Finset Nat))
      (st : RState),
    (∀ sol ∈ solutions, SolutionOK m courses sol.slots) →
    ∀ sol ∈ (randomSolutionsLoop courses m targetSize fuel solutions seen
      st).1, SolutionOK m courses sol.slots := by
  intro fuel
  induction fuel with
  | zero => intro solutions seen st hinv sol hsol; exact hinv sol hsol
  | succ fuel ih =>
    intro solutions seen st hinv sol hsol
    simp only [randomSolutionsLoop] at hsol
    by_cases hstop : solutions.length ≥ targetSize
    · rw [if_pos hstop] at hsol; exact hinv sol hsol
    · rw [if_neg hstop] at hsol
      cases htry : tryRandomTimetable courses m st with
      | mk res st' =>
        rw [htry] at hsol
        cases res with
        | none => exact ih _ _ _ hinv sol hsol
        | some result =>
          dsimp only at hsol
          have hres : SolutionOK m courses result :=
            tryRandomTimetable_sound hWF (by rw [htry])
          by_cases hseen : solutionSig result ∈ seen
          · rw [if_pos hseen] at hsol
            exact ih _ _ _ hinv sol hsol
          · rw [if_neg hseen] at hsol
            refine ih _ _ _ ?_ sol hsol
            intro s hs
            rcases List.mem_append.mp hs with hs | hs
            · exact hinv s hs
            · rw [List.mem_singleton] at hs
              subst hs
              exact hres

/-- The `_generate_random_pool` loop only records solutions produced by
`_try_random_timetable`. -/
theorem randomPoolLoop_sound {courses : List MCourse}
    {m : List (Nat × List MSlot)} (hWF : MapWF m) {targetPool : Nat} :
    ∀ (fuel : Nat) (pool : List (List MSlot)) (seen : List (Finset Nat))
      (noProgress : Nat) (st : RState),
    (∀ slots ∈ pool, SolutionOK m courses slots) →
    ∀ slots ∈ (randomPoolLoop courses m targetPool fuel pool seen noProgress
      st).1, SolutionOK m courses slots := by
  intro fuel
  induction fuel with
  | zero => intro pool seen noProgress st hinv slots hs; exact hinv slots hs
  | succ fuel ih =>
    intro pool seen noProgress st hinv slots hs
    simp only [randomPoolLoop] at hs
    by_cases hstop : pool.length ≥ targetPool
    · rw [if_pos hstop] at hs; exact hinv slots hs
    · rw [if_neg hstop] at hs
      cases htry : tryRandomTimetable courses m st with
      | mk res st' =>
        rw [htry] at hs
        cases res with
        | none =>
          dsimp only at hs
          by_cases hnp : noProgress + 1 ≥ 1000
          · rw [if_pos hnp] at hs; exact hinv slots hs
          · rw [if_neg hnp] at hs; exact ih _ _ _ _ hinv slots hs
        | some result =>
          dsimp only at hs
          have hres : SolutionOK m courses result :=
            tryRandomTimetable_sound hWF (by rw [htry])
          by_cases hseen : solutionSig result ∈ seen
          · rw [if_pos hseen] at hs
            by_cases hnp : noProgress + 1 ≥ 1000
            · rw [if_pos hnp] at hs; exact hinv slots hs
            · rw [if_neg hnp] at hs; exact ih _ _ _ _ hinv slots hs
          · rw [if_neg hseen] at hs
            refine ih _ _ _ _ ?_ slots hs
            intro s hsmem
            rcases List.mem_append.mp hsmem with hsm | hsm
            · exact hinv s hsm
            · rw [List.mem_singleton] at hsm
              subst hsm
              exact hres

/-- Every slot of the solution comes from the filtered candidate pool of one
of the requested courses. -/
def FromPool (p : MPreferences) (ign : Bool) (courses : List MCourse)
    (sel : List MSlot) : Prop :=
  ∀ s ∈ sel, ∃ c ∈ courses, c.id = s.courseId ∧ s ∈ filteredSlots p ign c

theorem mapGet_built_mem {p : MPreferences} {r i : Bool} {st : RState}
    {courses : List MCourse} {cid : Nat} {s : MSlot}
    (hs : s ∈ mapGet ((buildSlotMap p courses r i st).1) cid) :
    ∃ c ∈ courses, c.id = cid ∧ s ∈ filteredSlots p i c := by
  unfold mapGet at hs
  cases hl : ((buildSlotMap p courses r i st).1).lookup cid with
  | none => rw [hl] at hs; simp at hs
  | some v =>
    rw [hl] at hs
    simp only [Option.getD_some] at hs
    rcases buildSlotMap_entries (lookup_mem hl) with ⟨c, hc, hid, hsub⟩
    exact ⟨c, hc, hid.symm ▸ rfl, hsub s hs⟩

theorem solutionOK_built_fromPool {p : MPreferences} {r i : Bool}
    {st : RState} {courses : List MCourse} {sel : List MSlot}
    (h : SolutionOK ((buildSlotMap p courses r i st).1) courses sel) :
    FromPool p i courses sel := by
  intro s hs
  rcases mapGet_built_mem (h.1.2 s hs) with ⟨c, hc, hid, hf⟩
  exact ⟨c, hc, hid, hf⟩

/-- C1 core for `_generate_random_solutions` (scenario 1 of
`generate_unified`). -/
theorem generateRandomSolutions_sound {p : MPreferences}
    {courses : List MCourse} {targ : Nat} {st : RState}
    (hCW : CoursesSlotWF courses) :
    ∀ sol ∈ (generateRandomSolutions p courses targ st).1,
      InvariantsOK courses sol.slots ∧ FromPool p true courses sol.slots := by
  intro sol hsol
  unfold generateRandomSolutions at hsol
  cases hB : buildSlotMap p courses true true st with
  | mk mR st1 =>
    rw [hB] at hsol
    dsimp only at hsol
    have hmR : mR = (buildSlotMap p courses true true st).1 := by rw [hB]
    have hWF : MapWF mR := by rw [hmR]; exact buildSlotMap_WF hCW
    have hOK := randomSolutionsLoop_sound hWF _ _ _ _ (by simp) sol hsol
    refine ⟨solutionOK_invariantsOK hOK, ?_⟩
    rw [hmR] at hOK
    exact solutionOK_built_fromPool hOK

/-- C1 core for `_generate_random_pool` (the sampling pool behind the ranked
scenarios of `generate_unified`). -/
theorem generateRandomPool_sound {p : MPreferences} {courses : List MCourse}
    {targ : Nat} {st : RState} (hCW : CoursesSlotWF courses) :
    ∀ slots ∈ (generateRandomPool p courses targ st).1,
      InvariantsOK courses slots ∧ FromPool p true courses slots := by
  intro slots hsol
  unfold generateRandomPool at hsol
  cases hB : buildSlotMap p courses true true st with
  | mk mR st1 =>
    rw [hB] at hsol
    dsimp only at hsol
    have hmR : mR = (buildSlotMap p courses true true st).1 := by rw [hB]
    have hWF : MapWF mR := by rw [hmR]; exact buildSlotMap_WF hCW
    have hOK := randomPoolLoop_sound hWF _ _ _ _ _ (by simp) slots hsol
    refine ⟨solutionOK_invariantsOK hOK, ?_⟩
    rw [hmR] at hOK
    exact solutionOK_built_fromPool hOK

/-- The `_generate_tier` loop only records solutions from
`_try_build_timetable`. -/
theorem generateTierLoop_sound {courses : List MCourse}
    {m prefM nonPrefM : List (Nat × List MSlot)} (hWF : MapWF m)
    (hsubP : ∀ cid s, s ∈ mapGet prefM cid → s ∈ mapGet m cid)
    (hsubN : ∀ cid s, s ∈ mapGet nonPrefM cid → s ∈ mapGet m cid)
    {numPreferred maxSolutions : Nat} :
    ∀ (fuel : Nat) (solutions : List (List MSlot)) (seen : List (Finset Nat))
      (st : RState),
    (∀ s ∈ solutions, SolutionOK m courses s) →
    ∀ s ∈ (generateTierLoop courses numPreferred prefM nonPrefM maxSolutions
      fuel solutions seen st).1, SolutionOK m courses s := by
  intro fuel
  induction fuel with
  | zero => intro solutions seen st hinv s hs; exact hinv s hs
  | succ fuel ih =>
    intro solutions seen st hinv s hs
    simp only [generateTierLoop] at hs
    by_cases hstop : solutions.length ≥ maxSolutions
    · rw [if_pos hstop] at hs; exact hinv s hs
    · rw [if_neg hstop] at hs
      cases hS : shuffleList (List.range courses.length) st with
      | mk sidx st1 =>
        rw [hS] at hs
        dsimp only at hs
        cases htry : tryBuildTimetable courses (sidx.take numPreferred)
            prefM nonPrefM st1 with
        | mk res st2 =>
          rw [htry] at hs
          cases res with
          | none => exact ih _ _ _ hinv s hs
          | some result =>
            dsimp only at hs
            have hres : SolutionOK m courses result :=
              tryBuildTimetable_sound hWF hsubP hsubN (by rw [htry])
            by_cases hseen : solutionSig result ∈ seen
            · rw [if_pos hseen] at hs
              exact ih _ _ _ hinv s hs
            · rw [if_neg hseen] at hs
              refine ih _ _ _ ?_ s hs
              intro x hx
              rcases List.mem_append.mp hx with hx | hx
              · exact hinv x hx
              · rw [List.mem_singleton] at hx
                subst hx
                exact hres

theorem tieredPoolTiers_sound {courses : List MCourse}
    {m prefM nonPrefM : List (Nat × List MSlot)} (hWF : MapWF m)
    (hsubP : ∀ cid s, s ∈ mapGet prefM cid → s ∈ mapGet m cid)
    (hsubN : ∀ cid s, s ∈ mapGet nonPrefM cid → s ∈ mapGet m cid)
    {targetPool : Nat} :
    ∀ (tiers : List Nat) (allSolutions : List (List MSlot))
      (seen : List (Finset Nat)) (st : RState),
    (∀ s ∈ allSolutions, SolutionOK m courses s) →
    ∀ s ∈ (tieredPoolTiers courses prefM nonPrefM targetPool tiers
      allSolutions seen st).1, SolutionOK m courses s := by
  intro tiers
  induction tiers with
  | nil => intro allSolutions seen st hinv s hs; exact hinv s hs
  | cons numPreferred rest ih =>
    intro allSolutions seen st hinv s hs
    simp only [tieredPoolTiers] at hs
    by_cases hstop : allSolutions.length ≥ targetPool
    · rw [if_pos hstop] at hs; exact hinv s hs
    · rw [if_neg hstop] at hs
      cases htier : generateTier courses numPreferred prefM nonPrefM
          (targetPool - allSolutions.length) seen st with
      | mk tierSolutions rest2 =>
        obtain ⟨seen', st'⟩ := rest2
        rw [htier] at hs
        dsimp only at hs
        have htierOK : ∀ x ∈ tierSolutions, SolutionOK m courses x := by
          intro x hx
          unfold generateTier at htier
          by_cases hnp : numPreferred > courses.length
          · rw [if_pos hnp] at htier
            have : tierSolutions = [] := by
              have := congrArg Prod.fst htier
              simpa using this.symm
            rw [this] at hx
            simp at hx
          · rw [if_neg hnp] at htier
            have h1 : (generateTierLoop courses numPreferred prefM nonPrefM
                (targetPool - allSolutions.length)
                ((targetPool - allSolutions.length) * 50) [] seen st).1
                = tierSolutions := by
              rw [htier]
            rw [← h1] at hx
            exact generateTierLoop_sound hWF hsubP hsubN _ _ _ _ (by simp) x hx
        refine ih _ _ _ ?_ s hs
        intro x hx
        rcases List.mem_append.mp hx with hx | hx
        · exact hinv x hx
        · exact htierOK x hx

/-- C1 core for `generate_tiered_teacher_pool`. -/
theorem generateTieredTeacherPool_sound {p : MPreferences}
    {courses : List MCourse} {m : List (Nat × List MSlot)}
    {targetPool targetSize : Nat} {st : RState} (hWF : MapWF m) :
    ∀ sol ∈ (generateTieredTeacherPool p courses m targetPool targetSize
      st).1, SolutionOK m courses sol.slots := by
  intro sol hsol
  unfold generateTieredTeacherPool at hsol
  by_cases hemp : courses.isEmpty = true
  · rw [if_pos hemp] at hsol; simp at hsol
  · rw [if_neg hemp] at hsol
    dsimp only at hsol
    cases htiers : tieredPoolTiers courses (splitPreferred p courses m).1
        (splitPreferred p courses m).2 targetPool
        ((List.range (courses.length + 1)).reverse) [] [] st with
    | mk allSolutions st' =>
      rw [htiers] at hsol
      dsimp only at hsol
      have hall : ∀ s ∈ allSolutions, SolutionOK m courses s := by
        intro s hs
        have h1 : (tieredPoolTiers courses (splitPreferred p courses m).1
            (splitPreferred p courses m).2 targetPool
            ((List.range (courses.length + 1)).reverse) [] [] st).1
            = allSolutions := by rw [htiers]
        rw [← h1] at hs
        exact tieredPoolTiers_sound hWF splitPreferred_sub.1
          splitPreferred_sub.2 _ _ _ _ (by simp) s hs
      have hmem := List.mem_of_mem_take hsol
      rw [List.mem_insertionSort] at hmem
      rcases List.mem_map.mp hmem with ⟨slots, hslots, hmk⟩
      rw [← hmk]
      exact hall slots hslots

/-- The `generate_ranked_pool` loop only records attempt results. -/
theorem rankedPoolLoop_sound {courses : List MCourse}
    {m : List (Nat × List MSlot)} (hWF : MapWF m) {targetPool : Nat} :
    ∀ (fuel : Nat) (pool : List (List MSlot))
      (seen : List (Finset String × Finset Nat × Nat × Nat)) (st : RState),
    (∀ slots ∈ pool, SolutionOK m courses slots) →
    ∀ slots ∈ (rankedPoolLoop courses m targetPool fuel pool seen st).1,
      SolutionOK m courses slots := by
  intro fuel
  induction fuel with
  | zero => intro pool seen st hinv slots hs; exact hinv slots hs
  | succ fuel ih =>
    intro pool seen st hinv slots hs
    simp only [rankedPoolLoop] at hs
    by_cases hstop : pool.length ≥ targetPool
    · rw [if_pos hstop] at hs; exact hinv slots hs
    · rw [if_neg hstop] at hs
      cases htry : rankedPoolAttempt courses m st with
      | mk res st' =>
        rw [htry] at hs
        cases res with
        | none => exact ih _ _ _ hinv slots hs
        | some result =>
          dsimp only at hs
          have hres : SolutionOK m courses result :=
            rankedPoolAttempt_sound hWF (by rw [htry])
          by_cases hseen : getTimetableSignature result ∈ seen
          · rw [if_pos hseen] at hs
            exact ih _ _ _ hinv slots hs
          · rw [if_neg hseen] at hs
            refine ih _ _ _ ?_ slots hs
            intro x hx
            rcases List.mem_append.mp hx with hx | hx
            · exact hinv x hx
            · rw [List.mem_singleton] at hx
              subst hx
              exact hres

/-- C1 core for `generate_ranked_pool`. -/
theorem generateRankedPool_sound {p : MPreferences} {courses : List MCourse}
    {targetSize poolAttempts : Nat} {st : RState}
    (hCW : CoursesSlotWF courses) :
    ∀ sol ∈ (generateRankedPool p courses targetSize poolAttempts st).1,
      InvariantsOK courses sol.slots ∧ FromPool p true courses sol.slots := by
  intro sol hsol
  unfold generateRankedPool at hsol
  cases hB : buildSlotMap p courses true true st with
  | mk mR st1 =>
    rw [hB] at hsol
    dsimp only at hsol
    have hmR : mR = (buildSlotMap p courses true true st).1 := by rw [hB]
    have hWF : MapWF mR := by rw [hmR]; exact buildSlotMap_WF hCW
    cases hP : rankedPoolLoop courses mR 20000 poolAttempts [] [] st1 with
    | mk pool st2 =>
      rw [hP] at hsol
      dsimp only at hsol
      have hpool : ∀ slots ∈ pool, SolutionOK mR courses slots := by
        intro slots hs
        have h1 : (rankedPoolLoop courses mR 20000 poolAttempts [] [] st1).1
            = pool := by rw [hP]
        rw [← h1] at hs
        exact rankedPoolLoop_sound hWF _ _ _ _ (by simp) slots hs
      have hmem := List.mem_of_mem_take hsol
      rw [List.mem_insertionSort] at hmem
      rcases List.mem_map.mp hmem with ⟨slots, hslots, hmk⟩
      have hOK := hpool slots hslots
      rw [← hmk]
      refine ⟨solutionOK_invariantsOK hOK, ?_⟩
      rw [hmR] at hOK
      exact solutionOK_built_fromPool hOK

theorem rankByTime_slots {scored : List ScoredItem} {targetSize : Nat}
    {sol : MSolution} (h : sol ∈ rankByTime scored targetSize) :
    ∃ it ∈ scored, sol.slots = it.slots := by
  unfold rankByTime at h
  rcases List.mem_map.mp h with ⟨it, hit, hsol⟩
  have hmem := List.mem_of_mem_take hit
  rw [List.mem_insertionSort] at hmem
  exact ⟨it, hmem, by rw [← hsol]⟩

theorem rankTieredByTime_slots {numCourses : Nat} {scored : List ScoredItem}
    {targetSize : Nat} {sol : MSolution}
    (h : sol ∈ rankTieredByTime numCourses scored targetSize) :
    ∃ it ∈ scored, sol.slots = it.slots := by
  unfold rankTieredByTime at h
  rcases List.mem_map.mp h with ⟨it, hit, hsol⟩
  have hmem := List.mem_of_mem_take hit
  rcases List.mem_flatMap.mp hmem with ⟨tier, _, htier⟩
  rw [List.mem_insertionSort] at htier
  exact ⟨it, (List.mem_filter.mp htier).1, by rw [← hsol]⟩

theorem rankTieredByTeacherPriority_slots {numCourses : Nat}
    {scored : List ScoredItem} {targetSize : Nat} {sol : MSolution}
    (h : sol ∈ rankTieredByTeacherPriority numCourses scored targetSize) :
    ∃ it ∈ scored, sol.slots = it.slots := by
  unfold rankTieredByTeacherPriority at h
  rcases List.mem_map.mp h with ⟨it, hit, hsol⟩
  have hmem := List.mem_of_mem_take hit
  rcases List.mem_flatMap.mp hmem with ⟨tier, _, htier⟩
  rw [List.mem_insertionSort] at htier
  exact ⟨it, (List.mem_filter.mp htier).1, by rw [← hsol]⟩

theorem scoredPoolOf_slots {p : MPreferences} {pool : List (List MSlot)}
    {it : ScoredItem} (h : it ∈ scoredPoolOf p pool) : it.slots ∈ pool := by
  unfold scoredPoolOf at h
  rcases List.mem_map.mp h with ⟨slots, hmem, hmk⟩
  rw [← hmk]
  exact hmem

/-- C1 core for `generate_unified` (all four scenarios). -/
theorem generateUnified_sound {p : MPreferences} {courses : List MCourse}
    {targetSize : Nat} {st : RState} (hCW : CoursesSlotWF courses) :
    ∀ sol ∈ (generateUnified p courses targetSize st).1,
      InvariantsOK courses sol.slots ∧ FromPool p true courses sol.slots := by
  intro sol hsol
  unfold generateUnified at hsol
  by_cases h1 : (!(!p.courseFacultyPreferences.isEmpty) &&
      !(p.timeMode != "none" || p.avoidEarlyMorning ||
        p.avoidLateEvening)) = true
  · rw [if_pos h1] at hsol
    exact generateRandomSolutions_sound hCW sol hsol
  · rw [if_neg h1] at hsol
    cases hP : generateRandomPool p courses 20000 st with
    | mk pool st' =>
      rw [hP] at hsol
      dsimp only at hsol
      have hpool : ∀ slots ∈ pool,
          InvariantsOK courses slots ∧ FromPool p true courses slots := by
        intro slots hs
        have h2 : (generateRandomPool p courses 20000 st).1 = pool := by
          rw [hP]
        rw [← h2] at hs
        exact generateRandomPool_sound hCW slots hs
      by_cases hemp : pool.isEmpty = true
      · rw [if_pos hemp] at hsol; simp at hsol
      · rw [if_neg hemp] at hsol
        have hfromScored : ∀ it : ScoredItem, it ∈ scoredPoolOf p pool →
            sol.slots = it.slots →
            InvariantsOK courses sol.slots ∧
              FromPool p true courses sol.slots := by
          intro it hit hsl
          rw [hsl]
          exact hpool it.slots (scoredPoolOf_slots hit)
        by_cases h3 : ((p.timeMode != "none" || p.avoidEarlyMorning ||
            p.avoidLateEvening) && !(!p.courseFacultyPreferences.isEmpty))
            = true
        · rw [if_pos h3] at hsol
          rcases rankByTime_slots hsol with ⟨it, hit, hsl⟩
          exact hfromScored it hit hsl
        · rw [if_neg h3] at hsol
          by_cases h4 : ((!p.courseFacultyPreferences.isEmpty) &&
              !(p.timeMode != "none" || p.avoidEarlyMorning ||
                p.avoidLateEvening)) = true
          · rw [if_pos h4] at hsol
            rcases rankTieredByTeacherPriority_slots hsol with ⟨it, hit, hsl⟩
            exact hfromScored it hit hsl
          · rw [if_neg h4] at hsol
            rcases rankTieredByTime_slots hsol with ⟨it, hit, hsl⟩
            exact hfromScored it hit hsl

/-- `_revise` only removes candidates. -/
theorem revise_sub {m : List (Nat × List MSlot)} {c1 c2 : Nat} :
    ∀ c s, s ∈ mapGet (revise m c1 c2).2 c → s ∈ mapGet m c := by
  unfold revise
  exact mapSet_sub (fun x hx => List.mem_of_mem_filter hx)

/-- The AC-3 queue loop only removes candidates from the domains. -/
theorem acLoop_sub {courses : List MCourse} :
    ∀ (N : Nat) (m : List (Nat × List MSlot)) (q : List (Nat × Nat)),
    totalSize m < N →
    ∀ c s, s ∈ mapGet (acLoop courses m q).2 c → s ∈ mapGet m c := by
  intro N
  induction N with
  | zero => intro m q h; omega
  | succ N ihN =>
    intro m q
    induction q with
    | nil =>
      intro _ c s hs
      simp only [acLoop] at hs
      exact hs
    | cons pair rest ihq =>
      intro hN c s hs
      obtain ⟨c1, c2⟩ := pair
      simp only [acLoop] at hs
      by_cases hr : (revise m c1 c2).1 = true
      · rw [dif_pos hr] at hs
        by_cases hempty : (mapGet (revise m c1 c2).2 c1).isEmpty = true
        · rw [if_pos hempty] at hs
          exact revise_sub c s hs
        · rw [if_neg hempty] at hs
          have hlt := revise_true_size_lt hr
          exact revise_sub c s (ihN _ _ (by omega) c s hs)
      · rw [dif_neg hr] at hs
        exact ihq hN c s hs

/-- `apply_arc_consistency` only removes candidates from the domains. -/
theorem applyArcConsistency_sub {courses : List MCourse}
    {m : List (Nat × List MSlot)} :
    ∀ c s, s ∈ mapGet (applyArcConsistency courses m).2 c → s ∈ mapGet m c := by
  intro c s hs
  unfold applyArcConsistency at hs
  by_cases hlen : courses.length < 2
  · rw [if_pos hlen] at hs; exact hs
  · rw [if_neg hlen] at hs
    exact acLoop_sub (totalSize m + 1) m _ (by omega) c s hs

/-- One beam-expansion level preserves the alignment and validity
invariants. -/
theorem beamStep_sound {p : MPreferences} {m m' : List (Nat × List MSlot)}
    (hsub : ∀ cid s, s ∈ mapGet m' cid → s ∈ mapGet m cid) (hWF : MapWF m)
    {beamWidth : Nat} {processed : List MCourse} {course : MCourse}
    {beams : List (Score × List MSlot × List (String × Nat))}
    (hinv : ∀ b ∈ beams,
      List.Forall₂ (fun (c : MCourse) slot => slot ∈ mapGet m' c.id)
        processed b.2.1 ∧ PairwiseValid b.2.1)
    (hfresh : course.id ∉ processed.map (·.id)) :
    ∀ b ∈ beamStep p m' beamWidth beams course,
      List.Forall₂ (fun (c : MCourse) slot => slot ∈ mapGet m' c.id)
        (processed ++ [course]) b.2.1 ∧ PairwiseValid b.2.1 := by
  intro b hb
  unfold beamStep at hb
  have hmem := List.mem_of_mem_take hb
  rw [List.mem_insertionSort] at hmem
  rcases List.mem_flatMap.mp hmem with ⟨b0, hb0, hbf⟩
  rcases List.mem_filterMap.mp hbf with ⟨slot, hslot, heq⟩
  by_cases hocc : ((slotTimings slot).any (fun t => b0.2.2.contains t)) = true
  · rw [if_pos hocc] at heq; simp at heq
  · rw [if_neg hocc] at heq
    by_cases hcl : (b0.2.1.any (fun sel => checkClashFast slot sel)) = true
    · rw [if_pos hcl] at heq; simp at heq
    · rw [if_neg hcl] at heq
      rcases hinv b0 hb0 with ⟨halign, hPW⟩
      have hb' : (b0.1.add (scoreSlot p slot), b0.2.1 ++ [slot],
          b0.2.2 ++ slotTimings slot) = b := Option.some.inj heq
      have hbeq : b.2.1 = b0.2.1 ++ [slot] := by rw [← hb']
      rw [hbeq]
      constructor
      · exact forall₂_append_singleton halign hslot
      · refine pairwiseValid_append_fast hPW ?_
        intro e he
        constructor
        · have hclf := Bool.eq_false_iff.mpr hcl
          have := List.any_eq_false.mp hclf e he
          exact Bool.eq_false_iff.mpr this
        · rcases forall₂_mem_right halign he with ⟨c0, hc0, hmem0⟩
          have hce : e.courseId = c0.id :=
            mapGet_courseId hWF (hsub _ _ hmem0)
          have hcs : slot.courseId = course.id :=
            mapGet_courseId hWF (hsub _ _ hslot)
          rw [hce, hcs]
          intro hcontra
          exact hfresh (hcontra ▸ List.mem_map_of_mem (·.id) hc0)

theorem beamFold_sound {p : MPreferences} {m m' : List (Nat × List MSlot)}
    (hsub : ∀ cid s, s ∈ mapGet m' cid → s ∈ mapGet m cid) (hWF : MapWF m)
    {beamWidth : Nat} :
    ∀ (rest processed : List MCourse)
      (beams : List (Score × List MSlot × List (String × Nat))),
    (∀ b ∈ beams,
      List.Forall₂ (fun (c : MCourse) slot => slot ∈ mapGet m' c.id)
        processed b.2.1 ∧ PairwiseValid b.2.1) →
    ((processed ++ rest).map (·.id)).Nodup →
    ∀ b ∈ rest.foldl (beamStep p m' beamWidth) beams,
      List.Forall₂ (fun (c : MCourse) slot => slot ∈ mapGet m' c.id)
        (processed ++ rest) b.2.1 ∧ PairwiseValid b.2.1 := by
  intro rest
  induction rest with
  | nil =>
    intro processed beams hinv _ b hb
    simpa using hinv b hb
  | cons course rest ih =>
    intro processed beams hinv hnd b hb
    rw [List.foldl_cons] at hb
    have hfresh : course.id ∉ processed.map (·.id) := by
      intro hmem
      rw [List.map_append] at hnd
      have hd := (List.nodup_append.mp hnd).2.2
      exact hd hmem (by simp)
    have hstep := @beamStep_sound p m m' hsub hWF beamWidth processed course
      beams hinv hfresh
    have hnd' : (((processed ++ [course]) ++ rest).map (·.id)).Nodup := by
      simpa using hnd
    have := ih (processed ++ [course]) _ hstep hnd'
    simpa using this _ hb

/-- `beamCollect` only returns pre-existing results or beams from its
input list. -/
theorem beamCollect_mem {t n : Nat} {sol : MSolution} :
    ∀ (bs : List (Score × List MSlot × List (String × Nat)))
      (sols : List MSolution) (seen : List (Finset Nat)),
    sol ∈ beamCollect t n bs sols seen →
    sol ∈ sols ∨ ∃ b ∈ bs, sol.slots = b.2.1 := by
  intro bs
  induction bs with
  | nil =>
    intro sols seen h
    simp only [beamCollect] at h
    exact Or.inl h
  | cons b rest ih =>
    intro sols seen h
    simp only [beamCollect] at h
    by_cases h1 : b.2.1.length ≠ n
    · rw [if_pos h1] at h
      rcases ih _ _ h with h | ⟨b', hb', hs⟩
      · exact Or.inl h
      · exact Or.inr ⟨b', List.mem_cons_of_mem _ hb', hs⟩
    · rw [if_neg h1] at h
      by_cases h2 : solutionSig b.2.1 ∈ seen
      · rw [if_pos h2] at h
        rcases ih _ _ h with h | ⟨b', hb', hs⟩
        · exact Or.inl h
        · exact Or.inr ⟨b', List.mem_cons_of_mem _ hb', hs⟩
      · rw [if_neg h2] at h
        have hnew : ∀ x, x ∈ sols ++ [⟨b.2.1, b.1, sumCredits b.2.1⟩] →
            x ∈ sols ∨ ∃ b' ∈ b :: rest, x.slots = b'.2.1 := by
          intro x hx
          rcases List.mem_append.mp hx with hx | hx
          · exact Or.inl hx
          · rw [List.mem_singleton] at hx
            subst hx
            exact Or.inr ⟨b, List.mem_cons_self _ _, rfl⟩
        by_cases h3 : (sols ++ [(⟨b.2.1, b.1, sumCredits b.2.1⟩ : MSolution)]).length ≥ t
        · rw [if_pos h3] at h
          exact hnew sol h
        · rw [if_neg h3] at h
          rcases ih _ _ h with h | ⟨b', hb', hs⟩
          · exact hnew sol h
          · exact Or.inr ⟨b', List.mem_cons_of_mem _ hb', hs⟩

/-- C1 core for `generate_beam_search`. -/
theorem generateBeamSearch_sound {p : MPreferences} {courses : List MCourse}
    {m : List (Nat × List MSlot)} {beamWidth targetSize : Nat}
    (hWF : MapWF m) (hnd : (courses.map (·.id)).Nodup) :
    ∀ sol ∈ generateBeamSearch p courses m beamWidth targetSize,
      SolutionOK m courses sol.slots := by
  intro sol hsol
  unfold generateBeamSearch at hsol
  by_cases hemp : courses.isEmpty = true
  · rw [if_pos hemp] at hsol; simp at hsol
  · rw [if_neg hemp] at hsol
    cases hAC : applyArcConsistency courses m with
    | mk ok m' =>
      rw [hAC] at hsol
      cases ok with
      | false => simp at hsol
      | true =>
        dsimp only at hsol
        have hsub : ∀ cid s, s ∈ mapGet m' cid → s ∈ mapGet m cid := by
          intro cid s hs
          have h1 : (applyArcConsistency courses m).2 = m' := by rw [hAC]
          rw [← h1] at hs
          exact applyArcConsistency_sub cid s hs
        cases hsort : courses.insertionSort (domSizeRel m') with
        | nil => rw [hsort] at hsol; simp at hsol
        | cons first restCourses =>
          rw [hsort] at hsol
          dsimp only at hsol
          have hperm : (first :: restCourses).Perm courses := by
            rw [← hsort]
            exact List.perm_insertionSort _ _
          have hnds : ((first :: restCourses).map (·.id)).Nodup :=
            ((hperm.map (·.id)).nodup_iff).mpr hnd
          have hinv0 : ∀ b ∈ (((((mapGet m' first.id).take (beamWidth * 2)).map
              (fun slot => (scoreSlot p slot, [slot], slotTimings slot))).insertionSort
                beamDescRel).take beamWidth),
              List.Forall₂ (fun (c : MCourse) slot => slot ∈ mapGet m' c.id)
                [first] b.2.1 ∧ PairwiseValid b.2.1 := by
            intro b hb
            have hmem := List.mem_of_mem_take hb
            rw [List.mem_insertionSort] at hmem
            rcases List.mem_map.mp hmem with ⟨slot, hslot, heq⟩
            have hb1 : b.2.1 = [slot] := by rw [← heq]
            rw [hb1]
            refine ⟨List.Forall₂.cons ?_ List.Forall₂.nil,
              List.pairwise_singleton _ _⟩
            exact List.mem_of_mem_take hslot
          have hfold := @beamFold_sound p m m' hsub hWF beamWidth
            restCourses [first] _ hinv0 (by simpa using hnds)
          rcases beamCollect_mem _ _ _ hsol with h | ⟨b, hb, hs⟩
          · simp at h
          · rcases hfold b hb with ⟨halign, hPW⟩
            have halign' : List.Forall₂ (fun cid slot => slot ∈ mapGet m cid)
                ((first :: restCourses).map (·.id)) b.2.1 := by
              rw [List.forall₂_map_left_iff]
              exact halign.imp (fun a b hc => hsub a.id b hc)
            rw [hs]
            exact ⟨aligned_oneSlotPerCourse hWF halign' (hperm.map (·.id)),
              hPW⟩

theorem lookup_mem_pair {m : List (Nat × MSlot)} {c : Nat} {v : MSlot}
    (h : m.lookup c = some v) : (c, v) ∈ m := by
  induction m with
  | nil => simp [List.lookup] at h
  | cons e rest ih =>
    obtain ⟨k, l⟩ := e
    by_cases hk : k = c
    · subst hk
      simp [List.lookup] at h
      subst h
      exact List.mem_cons_self _ _
    · have : (c == k) = false := by simp [Ne.symm hk]
      simp [List.lookup, this] at h
      exact List.mem_cons_of_mem _ (ih h)

theorem sub_filterMap {f g : α → Option β} :
    ∀ {l : List α}, (∀ a ∈ l, ∀ b, f a = some b → g a = some b) →
    List.Sublist (l.filterMap f) (l.filterMap g) := by
  intro l
  induction l with
  | nil => intro _; simp
  | cons a l ih =>
    intro h
    have htail := ih (fun x hx => h x (List.mem_cons_of_mem _ hx))
    rw [List.filterMap_cons, List.filterMap_cons]
    cases hfa : f a with
    | none =>
      cases hga : g a with
      | none => exact htail
      | some b => exact htail.cons _
    | some b =>
      rw [h a (List.mem_cons_self _ _) b hfa]
      exact htail.cons₂ _

theorem pairwise_filterMap_of {R : β → β → Prop} {f : α → Option β} :
    ∀ {l : List α},
    List.Pairwise (fun x y => ∀ b1, f x = some b1 → ∀ b2, f y = some b2 →
      R b1 b2) l →
    List.Pairwise R (l.filterMap f) := by
  intro l
  induction l with
  | nil => intro _; simp
  | cons a l ih =>
    intro h
    rcases List.pairwise_cons.mp h with ⟨hhead, htail⟩
    rw [List.filterMap_cons]
    cases hfa : f a with
    | none => exact ih htail
    | some b =>
      refine List.Pairwise.cons ?_ (ih htail)
      intro b' hb'
      rcases List.mem_filterMap.mp hb' with ⟨y, hy, hfy⟩
      exact hhead y hy _ hfa _ hfy

theorem pairwise_enum_snd_ne {l : List Nat} (h : l.Nodup) :
    List.Pairwise (fun e1 e2 : Nat × Nat => e1.2 ≠ e2.2) l.enum := by
  have h1 : (l.enum.map Prod.snd) = l := List.enum_map_snd l
  rw [← h1] at h
  exact List.pairwise_map.mp h

theorem refSlotMap_key {courses : List MCourse} {refIds : List Nat}
    (hCW : CoursesSlotWF courses) :
    ∀ e ∈ refSlotMap courses refIds, e.2.courseId = e.1 := by
  intro e he
  rcases List.mem_filterMap.mp he with ⟨c, hc, hfc⟩
  cases hf : c.slots.find? (fun s => refIds.contains s.id) with
  | none => rw [hf] at hfc; simp at hfc
  | some s =>
    rw [hf] at hfc
    simp only [Option.map_some'] at hfc
    have hse : (c.id, s) = e := Option.some.inj hfc
    have hs : s ∈ c.slots := List.mem_of_find?_eq_some hf
    rw [← hse]
    exact hCW c hc s hs

/-- The fixed part of a `generate_similar` combination is pairwise valid
when the reference slots are pairwise valid across distinct courses. -/
theorem similarSelected_pairwiseValid {courses : List MCourse}
    {refIds : List Nat} {courseIds varyIndices : List Nat}
    (hnd : courseIds.Nodup)
    (hRefPW : ∀ a ∈ refSlotMap courses refIds,
      ∀ b ∈ refSlotMap courses refIds, a.1 ≠ b.1 → PairOK a.2 b.2) :
    PairwiseValid
      (similarSelected (refSlotMap courses refIds) courseIds varyIndices) := by
  unfold similarSelected PairwiseValid
  apply pairwise_filterMap_of
  refine (pairwise_enum_snd_ne hnd).imp ?_
  intro e1 e2 hne b1 h1 b2 h2
  by_cases hc1 : varyIndices.contains e1.1
  · rw [if_pos hc1] at h1; simp at h1
  · rw [if_neg hc1] at h1
    by_cases hc2 : varyIndices.contains e2.1
    · rw [if_pos hc2] at h2; simp at h2
    · rw [if_neg hc2] at h2
      exact hRefPW (e1.2, b1) (lookup_mem_pair h1) (e2.2, b2)
        (lookup_mem_pair h2) hne

theorem similarSelected_map_courseId_sub {refMap : List (Nat × MSlot)}
    {courseIds varyIndices : List Nat}
    (hkey : ∀ e ∈ refMap, e.2.courseId = e.1) :
    List.Sublist
      ((similarSelected refMap courseIds varyIndices).map (·.courseId))
      (courseIds.enum.filterMap (fun e =>
        if varyIndices.contains e.1 then none else some e.2)) := by
  unfold similarSelected
  have hmf := List.map_filterMap (fun e : Nat × Nat =>
    if varyIndices.contains e.1 then none else refMap.lookup e.2)
    (fun s : MSlot => s.courseId) courseIds.enum
  rw [hmf]
  apply sub_filterMap
  intro a _ b hb
  by_cases hc : varyIndices.contains a.1
  · rw [if_pos hc] at hb; simp at hb
  · rw [if_neg hc] at hb
    rw [if_neg hc]
    cases hl : refMap.lookup a.2 with
    | none => rw [hl] at hb; simp at hb
    | some s =>
      rw [hl] at hb
      simp only [Option.map_some'] at hb
      have hk : s.courseId = a.2 := hkey (a.2, s) (lookup_mem_pair hl)
      rw [← Option.some.inj hb, hk]

theorem keepIdx_sublist {courseIds varyIndices : List Nat} :
    List.Sublist (courseIds.enum.filterMap (fun e =>
      if varyIndices.contains e.1 then none else some e.2)) courseIds := by
  have h2 : ∀ (l : List (Nat × Nat)), l.filterMap (fun e => some e.2)
      = l.map (·.2) := by
    intro l
    induction l with
    | nil => rfl
    | cons a t ih => simp [List.filterMap_cons, ih]
  have h3 : List.Sublist
      (courseIds.enum.filterMap (fun e =>
        if varyIndices.contains e.1 then none else some e.2))
      (courseIds.enum.filterMap (fun e => some e.2)) := by
    apply sub_filterMap
    intro a _ b hb
    by_cases hc : varyIndices.contains a.1
    · rw [if_pos hc] at hb; simp at hb
    · rw [if_neg hc] at hb; exact hb
  rw [h2, List.enum_map_snd] at h3
  exact h3

theorem getD_not_mem_keepIdx {courseIds : List Nat} (hnd : courseIds.Nodup)
    {varyIndices : List Nat} {idx : Nat} (hidx : idx ∈ varyIndices)
    (hlt : idx < courseIds.length) :
    courseIds.getD idx 0 ∉ courseIds.enum.filterMap (fun e =>
      if varyIndices.contains e.1 then none else some e.2) := by
  intro hmem
  rcases List.mem_filterMap.mp hmem with ⟨e, he, hfe⟩
  by_cases hc : varyIndices.contains e.1
  · rw [if_pos hc] at hfe; simp at hfe
  · rw [if_neg hc] at hfe
    have he2 : e.2 = courseIds.getD idx 0 := Option.some.inj hfe
    have hget := List.mem_enum_iff_getElem?.mp he
    rcases List.getElem?_eq_some_iff.mp hget with ⟨hlt1, hval⟩
    have hgd : courseIds.getD idx 0 = courseIds[idx] :=
      List.getD_eq_getElem courseIds 0 hlt
    have heq : courseIds[e.1] = courseIds[idx] := by
      rw [hval, he2, hgd]
    have : e.1 = idx :=
      (@List.Nodup.getElem_inj_iff _ courseIds hnd e.1 hlt1 idx hlt).mp heq
    rw [this] at hc
    exact hc (List.elem_eq_true_of_mem hidx)

/-- The invariant for each solution `generate_similar` accepts: the fixed
reference slots plus one fresh non-clashing slot for the varied course,
with full course coverage. -/
theorem similarAccept_sound {courses : List MCourse}
    {m : List (Nat × List MSlot)} {refIds : List Nat}
    (hCW : CoursesSlotWF courses) (hWF : MapWF m)
    (hnd : (courses.map (·.id)).Nodup)
    (hRefPW : ∀ a ∈ refSlotMap courses refIds,
      ∀ b ∈ refSlotMap courses refIds, a.1 ≠ b.1 → PairOK a.2 b.2)
    {varyIndices : List Nat} {idx : Nat} (hidx : idx ∈ varyIndices)
    (hlt : idx < (courses.map (·.id)).length) {slot : MSlot}
    (hslot : slot ∈ mapGet m ((courses.map (·.id)).getD idx 0))
    (hnoclash : ((similarSelected (refSlotMap courses refIds)
      (courses.map (·.id)) varyIndices).any
        (fun e => checkClash slot e)) = false)
    (hlen : ((similarSelected (refSlotMap courses refIds)
      (courses.map (·.id)) varyIndices) ++ [slot]).length
        = (courses.map (·.id)).length) :
    InvariantsOK courses ((similarSelected (refSlotMap courses refIds)
      (courses.map (·.id)) varyIndices) ++ [slot]) := by
  have hPWsel := @similarSelected_pairwiseValid courses refIds
    (courses.map (·.id)) varyIndices hnd hRefPW
  constructor
  · rw [List.map_append]
    have h1 := @similarSelected_map_courseId_sub (refSlotMap courses refIds)
      (courses.map (·.id)) varyIndices (@refSlotMap_key courses refIds hCW)
    have h2 := @keepIdx_sublist (courses.map (·.id)) varyIndices
    have hKnd := h2.nodup hnd
    have hselnd := h1.nodup hKnd
    have hcid : slot.courseId = (courses.map (·.id)).getD idx 0 :=
      mapGet_courseId hWF hslot
    have hnotin := getD_not_mem_keepIdx hnd hidx hlt
    have hnd2 : (((similarSelected (refSlotMap courses refIds)
        (courses.map (·.id)) varyIndices).map (·.courseId))
          ++ [slot.courseId]).Nodup := by
      rw [List.nodup_append]
      refine ⟨hselnd, List.nodup_singleton _, ?_⟩
      intro a ha hb
      rw [List.mem_singleton] at hb
      subst hb
      exact hnotin (hcid ▸ h1.subset ha)
    have hsub : (((similarSelected (refSlotMap courses refIds)
        (courses.map (·.id)) varyIndices).map (·.courseId))
          ++ [slot.courseId]) ⊆ courses.map (·.id) := by
      intro a ha
      rcases List.mem_append.mp ha with ha | ha
      · exact h2.subset (h1.subset ha)
      · rw [List.mem_singleton] at ha
        subst ha
        rw [hcid]
        exact getD_mem_of_lt _ _ _ hlt
    have hlen2 : (((similarSelected (refSlotMap courses refIds)
        (courses.map (·.id)) varyIndices).map (·.courseId))
          ++ [slot.courseId]).length = (courses.map (·.id)).length := by
      simp only [List.length_append, List.length_map, List.length_singleton]
      simpa using hlen
    exact (List.subperm_of_subset hnd2 hsub).perm_of_length_le
      (le_of_eq hlen2.symm)
  · refine List.pairwise_append.mpr
      ⟨hPWsel, List.pairwise_singleton _ _, ?_⟩
    intro a ha b hb
    rw [List.mem_singleton] at hb
    rw [hb]
    have hcl := List.any_eq_false.mp hnoclash a ha
    have hclf : checkClash slot a = false := Bool.eq_false_iff.mpr hcl
    exact pairOK_symm ((checkClash_false_iff slot a).mp hclf)

/-- `similarSlotScan` only returns pre-existing results or the fixed slots
plus one scanned slot that passed the clash and completeness checks. -/
theorem similarSlotScan_mem {p : MPreferences} {n : Nat} {refId : Option Nat}
    {selected : List MSlot} {occupied : List (String × Nat)} {sol : MSolution} :
    ∀ (cands : List MSlot) (acc : List MSolution × List (Finset Nat)),
    sol ∈ (similarSlotScan p n refId selected occupied cands acc).1 →
    sol ∈ acc.1 ∨ ∃ slot ∈ cands,
      sol.slots = selected ++ [slot] ∧
      (selected.any (fun e => checkClash slot e)) = false ∧
      (selected ++ [slot]).length = n := by
  intro cands
  induction cands with
  | nil =>
    intro acc h
    simp only [similarSlotScan] at h
    exact Or.inl h
  | cons slot more ih =>
    intro acc h
    have hstep : ∀ (acc2 : List MSolution × List (Finset Nat)),
        sol ∈ (similarSlotScan p n refId selected occupied more acc2).1 →
        acc2 = acc →
        sol ∈ acc.1 ∨ ∃ s ∈ slot :: more,
          sol.slots = selected ++ [s] ∧
          (selected.any (fun e => checkClash s e)) = false ∧
          (selected ++ [s]).length = n := by
      intro acc2 h2 heq
      subst heq
      rcases ih _ h2 with h3 | ⟨s, hs, hrest⟩
      · exact Or.inl h3
      · exact Or.inr ⟨s, List.mem_cons_of_mem _ hs, hrest⟩
    simp only [similarSlotScan] at h
    by_cases hskip : isRefSlot refId slot = true
    · rw [if_pos hskip] at h
      exact hstep _ h rfl
    · rw [if_neg hskip] at h
      by_cases hcl : (selected.any (fun e => checkClash slot e)) = true
      · rw [if_pos hcl] at h
        exact hstep _ h rfl
      · rw [if_neg hcl] at h
        cases hct : collectTimes slot occupied with
        | none =>
          rw [hct] at h
          exact hstep _ h rfl
        | some newTimes =>
          rw [hct] at h
          dsimp only at h
          by_cases hacc : solutionSig (selected ++ [slot]) ∉ acc.2 ∧
              (selected ++ [slot]).length = n
          · rw [if_pos hacc] at h
            rcases List.mem_append.mp h with h3 | h3
            · exact Or.inl h3
            · rw [List.mem_singleton] at h3
              subst h3
              exact Or.inr ⟨slot, List.mem_cons_self _ _,
                rfl, Bool.eq_false_iff.mpr hcl, hacc.2⟩
          · rw [if_neg hacc] at h
            exact hstep _ h rfl

/-- The per-combination fold of `generate_similar` preserves the
invariants. -/
theorem similarCombo_sound {p : MPreferences} {courses : List MCourse}
    {m : List (Nat × List MSlot)} {refIds : List Nat}
    (hCW : CoursesSlotWF courses) (hWF : MapWF m)
    (hnd : (courses.map (·.id)).Nodup)
    (hRefPW : ∀ a ∈ refSlotMap courses refIds,
      ∀ b ∈ refSlotMap courses refIds, a.1 ≠ b.1 → PairOK a.2 b.2)
    {varyIndices : List Nat}
    (hbound : ∀ i ∈ varyIndices, i < (courses.map (·.id)).length) :
    ∀ (acc : List MSolution × List (Finset Nat)),
    (∀ sol ∈ acc.1, InvariantsOK courses sol.slots) →
    ∀ sol ∈ (similarCombo p m (courses.map (·.id))
      (refSlotMap courses refIds) (courses.map (·.id)).length
      acc varyIndices).1,
      InvariantsOK courses sol.slots := by
  unfold similarCombo
  have hgen : ∀ (idxs : List Nat), (∀ i ∈ idxs, i ∈ varyIndices) →
      (∀ i ∈ idxs, i < (courses.map (·.id)).length) →
      ∀ (acc : List MSolution × List (Finset Nat)),
      (∀ sol ∈ acc.1, InvariantsOK courses sol.slots) →
      ∀ sol ∈ (idxs.foldl (fun acc2 idx =>
        similarSlotScan p (courses.map (·.id)).length
          (((refSlotMap courses refIds).lookup
            ((courses.map (·.id)).getD idx 0)).map (·.id))
          (similarSelected (refSlotMap courses refIds)
            (courses.map (·.id)) varyIndices)
          ((similarSelected (refSlotMap courses refIds)
            (courses.map (·.id)) varyIndices).flatMap slotTimings)
          (mapGet m ((courses.map (·.id)).getD idx 0)) acc2) acc).1,
        InvariantsOK courses sol.slots := by
    intro idxs
    induction idxs with
    | nil => intro _ _ acc hacc sol hs; exact hacc sol hs
    | cons idx rest ih =>
      intro hin hblt acc hacc sol hs
      rw [List.foldl_cons] at hs
      refine ih (fun i hi => hin i (List.mem_cons_of_mem _ hi))
        (fun i hi => hblt i (List.mem_cons_of_mem _ hi)) _ ?_ sol hs
      intro x hx
      rcases similarSlotScan_mem _ _ hx with hx | ⟨slot, hslot, hxs, hcl, hln⟩
      · exact hacc x hx
      · rw [hxs]
        exact similarAccept_sound hCW hWF hnd hRefPW
          (hin idx (List.mem_cons_self _ _))
          (hblt idx (List.mem_cons_self _ _)) hslot hcl hln
  exact hgen varyIndices (fun _ h => h) hbound

theorem combos_bound {n : Nat} :
    ∀ v ∈ combos1 n ++ combos2 n, ∀ i ∈ v, i < n := by
  intro v hv i hi
  rcases List.mem_append.mp hv with hv | hv
  · rcases List.mem_map.mp hv with ⟨j, hj, hveq⟩
    rw [← hveq] at hi
    rw [List.mem_singleton] at hi
    subst hi
    exact List.mem_range.mp hj
  · rcases List.mem_flatMap.mp hv with ⟨a, ha, hmem⟩
    rcases List.mem_map.mp hmem with ⟨b, hb, hveq⟩
    rw [← hveq] at hi
    rcases List.mem_cons.mp hi with hi | hi
    · subst hi
      exact List.mem_range.mp ha
    · rw [List.mem_singleton] at hi
      subst hi
      exact List.mem_range.mp (List.mem_of_mem_filter hb)

/-- C1 core for `generate_similar`: under a pairwise-valid reference, every
returned solution satisfies the invariants. -/
theorem generateSimilar_sound {p : MPreferences} {courses : List MCourse}
    {m : List (Nat × List MSlot)} {refIds : List Nat} {limit : Nat}
    (hCW : CoursesSlotWF courses) (hWF : MapWF m)
    (hnd : (courses.map (·.id)).Nodup)
    (hRefPW : ∀ a ∈ refSlotMap courses refIds,
      ∀ b ∈ refSlotMap courses refIds, a.1 ≠ b.1 → PairOK a.2 b.2) :
    ∀ sol ∈ generateSimilar p courses m refIds limit,
      InvariantsOK courses sol.slots := by
  intro sol hsol
  unfold generateSimilar at hsol
  by_cases hemp : courses.isEmpty = true
  · rw [if_pos hemp] at hsol; simp at hsol
  · rw [if_neg hemp] at hsol
    dsimp only at hsol
    have hfold : ∀ (combos : List (List Nat)),
        (∀ v ∈ combos, ∀ i ∈ v, i < (courses.map (·.id)).length) →
        ∀ (acc : List MSolution × List (Finset Nat)),
        (∀ x ∈ acc.1, InvariantsOK courses x.slots) →
        ∀ x ∈ (combos.foldl (similarCombo p m (courses.map (·.id))
          (refSlotMap courses refIds) (courses.map (·.id)).length) acc).1,
          InvariantsOK courses x.slots := by
      intro combos
      induction combos with
      | nil => intro _ acc hacc x hx; exact hacc x hx
      | cons v rest ih =>
        intro hb acc hacc x hx
        rw [List.foldl_cons] at hx
        refine ih (fun w hw => hb w (List.mem_cons_of_mem _ hw)) _ ?_ x hx
        exact similarCombo_sound hCW hWF hnd hRefPW
          (hb v (List.mem_cons_self _ _)) acc hacc
    have hlen : (courses.map (·.id)).length = courses.length :=
      List.length_map _ _
    exact hfold _ (by rw [hlen]; exact combos_bound) _ (by simp)
      sol (List.mem_of_mem_take hsol)

/-- C1: every solution returned by any of the seven search operations
(`generate_exhaustive`, `generate_unified`, `generate_beam_search`,
`generate_diverse`, `generate_similar`, `generate_ranked_pool`,
`generate_tiered_teacher_pool`) selects exactly one slot per requested
course (its course-ids are a permutation of the request's), no two chosen
slots share a resolved (day, period) cell, and no two chosen slots match a
mutual-exclusion pairing — for `generate_similar`, whenever the supplied
reference is itself pairwise valid across distinct courses. -/
theorem claim_C1_invariants {p : MPreferences} {courses : List MCourse}
    {m : List (Nat × List MSlot)} {st : RState}
    {maxSolutions targetSize targetPool poolAttempts beamWidth limit : Nat}
    {minDiversity : Int} {refIds : List Nat}
    (hCW : CoursesSlotWF courses) (hWF : MapWF m)
    (hnd : (courses.map (·.id)).Nodup)
    (hRef : ∀ a ∈ refSlotMap courses refIds,
      ∀ b ∈ refSlotMap courses refIds, a.1 ≠ b.1 → PairOK a.2 b.2) :
    (∀ sol ∈ generateExhaustive p courses m maxSolutions targetSize,
      InvariantsOK courses sol.slots) ∧
    (∀ sol ∈ (generateUnified p courses targetSize st).1,
      InvariantsOK courses sol.slots) ∧
    (∀ sol ∈ generateBeamSearch p courses m beamWidth targetSize,
      InvariantsOK courses sol.slots) ∧
    (∀ sol ∈ (generateDiverse p courses m limit minDiversity st).1,
      InvariantsOK courses sol.slots) ∧
    (∀ sol ∈ generateSimilar p courses m refIds limit,
      InvariantsOK courses sol.slots) ∧
    (∀ sol ∈ (generateRankedPool p courses targetSize poolAttempts st).1,
      InvariantsOK courses sol.slots) ∧
    (∀ sol ∈ (generateTieredTeacherPool p courses m targetPool targetSize
      st).1, InvariantsOK courses sol.slots) := by
  refine ⟨?_, ?_, ?_, ?_, ?_, ?_, ?_⟩
  · intro sol hs
    exact solutionOK_invariantsOK (generateExhaustive_sound hWF hnd sol hs)
  · intro sol hs
    exact (generateUnified_sound hCW sol hs).1
  · intro sol hs
    exact solutionOK_invariantsOK (generateBeamSearch_sound hWF hnd sol hs)
  · intro sol hs
    exact solutionOK_invariantsOK (generateDiverse_sound hWF sol hs)
  · intro sol hs
    exact generateSimilar_sound hCW hWF hnd hRef sol hs
  · intro sol hs
    exact (generateRankedPool_sound hCW sol hs).1
  · intro sol hs
    exact solutionOK_invariantsOK (generateTieredTeacherPool_sound hWF sol hs)

theorem claim_C1_invariants_witness :
    (∀ sol ∈ generateExhaustive defaultPreferences toy3Courses toy3Map 5 5,
      InvariantsOK toy3Courses sol.slots) ∧
    (∀ sol ∈ (generateUnified defaultPreferences toy3Courses 5 toyStream).1,
      InvariantsOK toy3Courses sol.slots) ∧
    (∀ sol ∈ generateBeamSearch defaultPreferences toy3Courses toy3Map 3 5,
      InvariantsOK toy3Courses sol.slots) ∧
    (∀ sol ∈ (generateDiverse defaultPreferences toy3Courses toy3Map 3 30
      toyStream).1, InvariantsOK toy3Courses sol.slots) ∧
    (∀ sol ∈ generateSimilar defaultPreferences toy3Courses toy3Map [] 5,
      InvariantsOK toy3Courses sol.slots) ∧
    (∀ sol ∈ (generateRankedPool defaultPreferences toy3Courses 5 10
      toyStream).1, InvariantsOK toy3Courses sol.slots) ∧
    (∀ sol ∈ (generateTieredTeacherPool defaultPreferences toy3Courses
      toy3Map 5 5 toyStream).1, InvariantsOK toy3Courses sol.slots) :=
  claim_C1_invariants
    (by unfold CoursesSlotWF; decide)
    (by unfold MapWF; decide)
    (by decide)
    (by intro a ha
        rw [show refSlotMap toy3Courses [] = [] from rfl] at ha
        exact absurd ha (List.not_mem_nil a))

theorem forall₂_mem_left {R : α → β → Prop} {l1 : List α} {l2 : List β}
    (h : List.Forall₂ R l1 l2) : ∀ {a : α}, a ∈ l1 → ∃ b ∈ l2, R a b := by
  induction h with
  | nil => intro a ha; simp at ha
  | cons hab htail ih =>
    intro a ha
    rcases List.mem_cons.mp ha with ha | ha
    · subst ha
      exact ⟨_, List.mem_cons_self _ _, hab⟩
    · rcases ih ha with ⟨b, hb, hr⟩
      exact ⟨b, List.mem_cons_of_mem _ hb, hr⟩

/-- Membership in the assignment space is exactly componentwise membership
in the per-course domains. -/
theorem mem_extensions_iff {m : List (Nat × List MSlot)} :
    ∀ {courses : List MCourse} {A : List MSlot},
    A ∈ extensions m courses ↔
      List.Forall₂ (fun (c : MCourse) slot => slot ∈ mapGet m c.id)
        courses A := by
  intro courses
  induction courses with
  | nil =>
    intro A
    simp only [extensions, List.mem_singleton]
    constructor
    · intro h; subst h; exact List.Forall₂.nil
    · intro h; cases h; rfl
  | cons c rest ih =>
    intro A
    simp only [extensions, List.mem_flatMap, List.mem_map]
    constructor
    · rintro ⟨slot, hslot, ext, hext, hA⟩
      rw [← hA]
      exact List.Forall₂.cons hslot (ih.mp hext)
    · intro h
      cases h with
      | cons hab h' => exact ⟨_, hab, _, ih.mpr h', rfl⟩

theorem clashFast_false_of_pairOK {a b : MSlot} (h : PairOK a b) :
    checkClashFast a b = false := by
  unfold checkClashFast
  rw [Bool.and_eq_false_iff]
  right
  rw [Bool.or_eq_false_iff]
  constructor
  · by_contra hne
    have htrue : ((slotTimings a).any fun t => (slotTimings b).contains t)
        = true := Bool.not_eq_false _ |>.mp hne
    rcases (clashFast_time_iff a b).mp htrue with ⟨t, hta, htb⟩
    exact h.2 t hta htb
  · exact h.1

theorem mapGet_mapSet_ne {m : List (Nat × List MSlot)} {cid c : Nat}
    {v : List MSlot} (hne : c ≠ cid) :
    mapGet (mapSet m cid v) c = mapGet m c := by
  induction m with
  | nil => simp [mapSet]
  | cons e rest ih =>
    obtain ⟨k, l⟩ := e
    by_cases hk : k = cid
    · subst hk
      have hstep : mapSet ((k, l) :: rest) k v = (k, v) :: rest := by
        simp [mapSet]
      rw [hstep, mapGet_cons, mapGet_cons]
      dsimp only
      rw [if_neg (fun h => hne h.symm), if_neg (fun h => hne h.symm)]
    · simp only [mapSet, if_neg hk]
      rw [mapGet_cons, mapGet_cons]
      dsimp only
      by_cases hkc : k = c
      · rw [if_pos hkc, if_pos hkc]
      · rw [if_neg hkc, if_neg hkc]
        exact ih

theorem mapGet_mapSet_self {m : List (Nat × List MSlot)} {cid : Nat}
    {v w : List MSlot} (h : m.lookup cid = some w) :
    mapGet (mapSet m cid v) cid = v := by
  induction m with
  | nil => simp [List.lookup] at h
  | cons e rest ih =>
    obtain ⟨k, l⟩ := e
    by_cases hk : k = cid
    · subst hk
      have hstep : mapSet ((k, l) :: rest) k v = (k, v) :: rest := by
        simp [mapSet]
      rw [hstep, mapGet_cons]
      simp
    · have hbeq : (cid == k) = false := by simp [Ne.symm hk]
      simp only [List.lookup, hbeq] at h
      simp only [mapSet, if_neg hk]
      rw [mapGet_cons]
      dsimp only
      rw [if_neg hk]
      exact ih h

theorem mapWF_mapSet {m : List (Nat × List MSlot)} {cid : Nat}
    {v : List MSlot} (hWF : MapWF m) (hv : ∀ s ∈ v, s.courseId = cid) :
    MapWF (mapSet m cid v) := by
  induction m with
  | nil => intro e he; simp [mapSet] at he
  | cons e rest ih =>
    obtain ⟨k, l⟩ := e
    have hWFr : MapWF rest := fun e he => hWF e (List.mem_cons_of_mem _ he)
    by_cases hk : k = cid
    · subst hk
      simp only [mapSet, if_pos rfl]
      intro e he
      rcases List.mem_cons.mp he with he | he
      · subst he; exact hv
      · exact hWFr e he
    · simp only [mapSet, if_neg hk]
      intro e he
      rcases List.mem_cons.mp he with he | he
      · subst he
        exact hWF _ (List.mem_cons_self _ _)
      · exact ih hWFr e he

theorem revise_mapWF {m : List (Nat × List MSlot)} {c1 c2 : Nat}
    (hWF : MapWF m) : MapWF (revise m c1 c2).2 := by
  unfold revise
  apply mapWF_mapSet hWF
  intro s hs
  exact mapGet_courseId hWF (List.mem_of_mem_filter hs)

/-- In a conflict-free complete assignment, every component has a
non-clashing partner inside any other requested course's domain. -/
theorem valid_component_support {m : List (Nat × List MSlot)} (hWF : MapWF m) :
    ∀ {courses : List MCourse} {A : List MSlot},
    List.Forall₂ (fun (c : MCourse) s => s ∈ mapGet m c.id) courses A →
    NoClashPW A → ∀ {c2 : Nat}, c2 ∈ courses.map (·.id) →
    ∀ s1 ∈ A, s1.courseId ≠ c2 →
    ∃ s2 ∈ mapGet m c2, checkClash s1 s2 = false := by
  intro courses A halign
  induction halign with
  | nil => intro _ c2 hc2; simp at hc2
  | @cons c s rest A' hab htail ih =>
    intro hnc c2 hc2 s1 hs1 hne
    rcases List.pairwise_cons.mp hnc with ⟨hhead, htailnc⟩
    rcases List.mem_cons.mp hs1 with hs1 | hs1
    · subst hs1
      have hcid : s1.courseId = c.id := mapGet_courseId hWF hab
      have hc2' : c2 ∈ rest.map (·.id) := by
        rw [List.map_cons] at hc2
        rcases List.mem_cons.mp hc2 with h | h
        · exact absurd (hcid.trans h.symm) hne
        · exact h
      rcases List.mem_map.mp hc2' with ⟨cc, hcc, hccid⟩
      rcases forall₂_mem_left htail hcc with ⟨s2, hs2A, hs2m⟩
      rw [hccid] at hs2m
      exact ⟨s2, hs2m, hhead s2 hs2A⟩
    · by_cases hc2c : c2 = c.id
      · refine ⟨s, by rw [hc2c]; exact hab, ?_⟩
        rw [checkClash_symm]
        exact hhead s1 hs1
      · have hc2' : c2 ∈ rest.map (·.id) := by
          rw [List.map_cons] at hc2
          rcases List.mem_cons.mp hc2 with h | h
          · exact absurd h hc2c
          · exact h
        exact ih htailnc hc2' s1 hs1 hne

/-- The alignment of a supported assignment survives `_revise`. -/
theorem revise_align {m : List (Nat × List MSlot)} (hWF : MapWF m)
    {c1 c2 : Nat} {Aall : List MSlot}
    (hsupport : ∀ s1 ∈ Aall, s1.courseId = c1 →
      ∃ s2 ∈ mapGet m c2, checkClash s1 s2 = false) :
    ∀ {courses : List MCourse} {A : List MSlot},
    List.Forall₂ (fun (c : MCourse) s => s ∈ mapGet m c.id) courses A →
    (∀ s ∈ A, s ∈ Aall) →
    List.Forall₂ (fun (c : MCourse) s => s ∈ mapGet (revise m c1 c2).2 c.id)
      courses A := by
  intro courses A halign
  induction halign with
  | nil => intro _; exact List.Forall₂.nil
  | @cons c s rest A' hab htail ih =>
    intro hsub
    refine List.Forall₂.cons ?_
      (ih (fun x hx => hsub x (List.mem_cons_of_mem _ hx)))
    by_cases hc : c.id = c1
    · rcases hsupport s (hsub s (List.mem_cons_self _ _))
        (by rw [mapGet_courseId hWF hab, hc]) with ⟨s2, hs2, hcl⟩
      have hkept : s ∈ (mapGet m c1).filter
          (fun x => (mapGet m c2).any (fun y => !checkClashFast x y)) := by
        refine List.mem_filter.mpr ⟨by rw [← hc]; exact hab, ?_⟩
        refine List.any_eq_true.mpr ⟨s2, hs2, ?_⟩
        rw [clashFast_false_of_pairOK ((checkClash_false_iff s s2).mp hcl)]
        rfl
      have hlk : m.lookup c1 = some (mapGet m c1) ∨ mapGet m c1 = [] := by
        unfold mapGet
        cases hl : m.lookup c1 with
        | none => right; rfl
        | some v => left; rfl
      rcases hlk with hlk | hlk
      · unfold revise
        rw [hc, mapGet_mapSet_self hlk]
        exact hkept
      · rw [← hc] at hlk
        rw [hlk] at hab
        simp at hab
    · unfold revise
      rw [mapGet_mapSet_ne hc]
      exact hab

/-- `_revise` on a pair of distinct requested courses does not change the
set of valid complete assignments. -/
theorem revise_validAssignments {m : List (Nat × List MSlot)}
    {courses : List MCourse} (hWF : MapWF m) {c1 c2 : Nat}
    (hc2 : c2 ∈ courses.map (·.id)) (hne : c1 ≠ c2) :
    ∀ A, A ∈ validAssignments (revise m c1 c2).2 courses ↔
      A ∈ validAssignments m courses := by
  intro A
  unfold validAssignments
  rw [List.mem_filter, List.mem_filter]
  constructor
  · rintro ⟨hext, hnc⟩
    refine ⟨?_, hnc⟩
    rw [mem_extensions_iff] at hext ⊢
    exact hext.imp (fun c s hs => revise_sub _ _ hs)
  · rintro ⟨hext, hnc⟩
    refine ⟨?_, hnc⟩
    rw [mem_extensions_iff] at hext ⊢
    have hncP : NoClashPW A := of_decide_eq_true hnc
    refine revise_align hWF ?_ hext (fun _ h => h)
    intro s1 hs1 hcid
    exact valid_component_support hWF hext hncP hc2 s1 hs1 (by rw [hcid]; exact hne)

/-- No valid assignment exists once a requested course's domain is empty. -/
theorem validAssignments_nil_of_empty {m : List (Nat × List MSlot)}
    {courses : List MCourse} {cid : Nat} (hc : cid ∈ courses.map (·.id))
    (he : mapGet m cid = []) : validAssignments m courses = [] := by
  rw [List.eq_nil_iff_forall_not_mem]
  intro A hA
  have hext := (List.mem_filter.mp hA).1
  rw [mem_extensions_iff] at hext
  rcases List.mem_map.mp hc with ⟨c, hcmem, hcid⟩
  rcases forall₂_mem_left hext hcmem with ⟨s, _, hsm⟩
  rw [hcid, he] at hsm
  exact List.not_mem_nil s hsm

/-- The AC-3 queue loop preserves the set of valid complete assignments and
returns `false` only with an emptied domain of a requested course. -/
theorem acLoop_valid {courses : List MCourse} :
    ∀ (N : Nat) (m : List (Nat × List MSlot)) (q : List (Nat × Nat)),
    totalSize m < N → MapWF m →
    (∀ pr ∈ q, pr.1 ∈ courses.map (·.id) ∧ pr.2 ∈ courses.map (·.id) ∧
      pr.1 ≠ pr.2) →
    (∀ A, A ∈ validAssignments (acLoop courses m q).2 courses ↔
      A ∈ validAssignments m courses) ∧
    ((acLoop courses m q).1 = false → ∃ cid ∈ courses.map (·.id),
      mapGet (acLoop courses m q).2 cid = []) := by
  intro N
  induction N with
  | zero => intro m q h; omega
  | succ N ihN =>
    intro m q
    induction q with
    | nil =>
      intro _ _ _
      constructor
      · intro A
        simp only [acLoop]
      · intro hfalse
        simp [acLoop] at hfalse
    | cons pair rest ihq =>
      intro hN hWF hq
      obtain ⟨c1, c2⟩ := pair
      have hqh := hq (c1, c2) (List.mem_cons_self _ _)
      have hqt : ∀ pr ∈ rest, pr.1 ∈ courses.map (·.id) ∧
          pr.2 ∈ courses.map (·.id) ∧ pr.1 ≠ pr.2 :=
        fun pr hpr => hq pr (List.mem_cons_of_mem _ hpr)
      have hrv := @revise_validAssignments m courses hWF c1 c2 hqh.2.1
        hqh.2.2
      simp only [acLoop]
      by_cases hr : (revise m c1 c2).1 = true
      · rw [dif_pos hr]
        by_cases hempty : (mapGet (revise m c1 c2).2 c1).isEmpty = true
        · rw [if_pos hempty]
          refine ⟨fun A => hrv A, fun _ => ⟨c1, hqh.1, ?_⟩⟩
          exact List.isEmpty_iff.mp hempty
        · rw [if_neg hempty]
          have hlt := revise_true_size_lt hr
          have hWF' := @revise_mapWF m c1 c2 hWF
          have hq' : ∀ pr ∈ rest ++ courses.filterMap (fun c3 =>
              if c3.id ≠ c1 ∧ c3.id ≠ c2 then some (c3.id, c1) else none),
              pr.1 ∈ courses.map (·.id) ∧ pr.2 ∈ courses.map (·.id) ∧
              pr.1 ≠ pr.2 := by
            intro pr hpr
            rcases List.mem_append.mp hpr with hpr | hpr
            · exact hqt pr hpr
            · rcases List.mem_filterMap.mp hpr with ⟨c3, hc3, hif⟩
              by_cases hcond : c3.id ≠ c1 ∧ c3.id ≠ c2
              · rw [if_pos hcond] at hif
                rw [← Option.some.inj hif]
                exact ⟨List.mem_map_of_mem (·.id) hc3, hqh.1, hcond.1⟩
              · rw [if_neg hcond] at hif
                simp at hif
          have := ihN (revise m c1 c2).2 _ (by omega) hWF' hq'
          exact ⟨fun A => (this.1 A).trans (hrv A), this.2⟩
      · rw [dif_neg hr]
        exact ihq hN hWF hqt

/-- C2: `apply_arc_consistency` never changes the set of valid complete
conflict-free assignments (every one that exists before the reduction still
exists over the reduced domains and vice versa), and it returns `False`
only when some requested course's domain becomes empty — in which case no
valid complete assignment exists at all. -/
theorem claim_C2_arcConsistency {courses : List MCourse}
    {m : List (Nat × List MSlot)} (hWF : MapWF m) :
    (∀ A, A ∈ validAssignments (applyArcConsistency courses m).2 courses ↔
      A ∈ validAssignments m courses) ∧
    ((applyArcConsistency courses m).1 = false →
      (∃ cid ∈ courses.map (·.id),
        mapGet (applyArcConsistency courses m).2 cid = []) ∧
      validAssignments m courses = []) := by
  unfold applyArcConsistency
  by_cases hlen : courses.length < 2
  · rw [if_pos hlen]
    exact ⟨fun A => Iff.rfl, fun hfalse => by simp at hfalse⟩
  · rw [if_neg hlen]
    have hq : ∀ pr ∈ courses.flatMap (fun c1 => courses.filterMap (fun c2 =>
        if c1.id ≠ c2.id then some (c1.id, c2.id) else none)),
        pr.1 ∈ courses.map (·.id) ∧ pr.2 ∈ courses.map (·.id) ∧
        pr.1 ≠ pr.2 := by
      intro pr hpr
      rcases List.mem_flatMap.mp hpr with ⟨ca, hca, hmem⟩
      rcases List.mem_filterMap.mp hmem with ⟨cb, hcb, hif⟩
      by_cases hcond : ca.id ≠ cb.id
      · rw [if_pos hcond] at hif
        rw [← Option.some.inj hif]
        exact ⟨List.mem_map_of_mem (·.id) hca,
          List.mem_map_of_mem (·.id) hcb, hcond⟩
      · rw [if_neg hcond] at hif
        simp at hif
    have h := acLoop_valid (totalSize m + 1) m _ (by omega) hWF hq
    refine ⟨h.1, fun hfalse => ?_⟩
    rcases h.2 hfalse with ⟨cid, hcid, hemp⟩
    refine ⟨⟨cid, hcid, hemp⟩, ?_⟩
    have hnil := validAssignments_nil_of_empty hcid hemp
    rw [List.eq_nil_iff_forall_not_mem]
    intro A hA
    have := (h.1 A).mpr hA
    rw [hnil] at this
    exact List.not_mem_nil A this

theorem claim_C2_arcConsistency_witness :
    (∀ A, A ∈ validAssignments
        (applyArcConsistency toy3Courses toy3Map).2 toy3Courses ↔
      A ∈ validAssignments toy3Map toy3Courses) ∧
    ((applyArcConsistency toy3Courses toy3Map).1 = false →
      (∃ cid ∈ toy3Courses.map (·.id),
        mapGet (applyArcConsistency toy3Courses toy3Map).2 cid = []) ∧
      validAssignments toy3Map toy3Courses = []) :=
  claim_C2_arcConsistency (by unfold MapWF; decide)

theorem clashFast_symm (a b : MSlot) :
    checkClashFast a b = checkClashFast b a := by
  have key : ∀ x y : MSlot, checkClashFast x y = true →
      checkClashFast y x = true := by
    intro x y h
    unfold checkClashFast at h ⊢
    rw [Bool.and_eq_true] at h ⊢
    rcases h with ⟨hne, hrest⟩
    constructor
    · by_cases hxy : x.courseId = y.courseId
      · rw [bne_iff_ne] at hne
        exact absurd hxy hne
      · simpa [bne_iff_ne] using Ne.symm hxy
    · rcases Bool.or_eq_true_iff.mp hrest with htime | hmx
      · refine Bool.or_eq_true_iff.mpr (Or.inl ?_)
        rcases (clashFast_time_iff x y).mp htime with ⟨t, htx, hty⟩
        exact (clashFast_time_iff y x).mpr ⟨t, hty, htx⟩
      · refine Bool.or_eq_true_iff.mpr (Or.inr ?_)
        rw [mutexPairClash_symm]
        exact hmx
  cases hxy : checkClashFast a b with
  | true => exact (key a b hxy).symm
  | false =>
    cases hyx : checkClashFast b a with
    | false => rfl
    | true => exact absurd (key b a hyx) (by simp [hxy])

/-- Arc consistency of a pair: every candidate of `c1` has a non-conflicting
partner in `c2`'s pool. -/
def Supported (m : List (Nat × List MSlot)) (c1 c2 : Nat) : Prop :=
  ∀ s1 ∈ mapGet m c1, ∃ s2 ∈ mapGet m c2, checkClashFast s1 s2 = false

instance (m : List (Nat × List MSlot)) (c1 c2 : Nat) :
    Decidable (Supported m c1 c2) :=
  inferInstanceAs (Decidable (∀ s1 ∈ mapGet m c1, ∃ s2 ∈ mapGet m c2,
    checkClashFast s1 s2 = false))

/-- `_revise` reports no change exactly when the arc is already consistent. -/
theorem revise_false_iff {m : List (Nat × List MSlot)} {c1 c2 : Nat} :
    (revise m c1 c2).1 = false ↔ Supported m c1 c2 := by
  unfold revise Supported
  dsimp only
  constructor
  · intro h
    rw [bne_eq_false_iff_eq] at h
    have hall : ∀ s1 ∈ mapGet m c1,
        ((mapGet m c2).any fun s2 => !checkClashFast s1 s2) = true := by
      rw [← List.filter_eq_self]
      exact List.Sublist.eq_of_length (List.filter_sublist _) h
    intro s1 hs1
    rcases List.any_eq_true.mp (hall s1 hs1) with ⟨s2, hs2, hb⟩
    exact ⟨s2, hs2, by simpa using hb⟩
  · intro h
    have hself : (mapGet m c1).filter
        (fun s1 => (mapGet m c2).any fun s2 => !checkClashFast s1 s2)
        = mapGet m c1 := by
      apply List.filter_eq_self.mpr
      intro s1 hs1
      rcases h s1 hs1 with ⟨s2, hs2, hcl⟩
      exact List.any_eq_true.mpr ⟨s2, hs2, by simp [hcl]⟩
    rw [hself]
    simp

theorem mapSet_lookup_none {m : List (Nat × List MSlot)} {cid : Nat}
    {v : List MSlot} (h : m.lookup cid = none) : mapSet m cid v = m := by
  induction m with
  | nil => rfl
  | cons e rest ih =>
    obtain ⟨k, l⟩ := e
    by_cases hk : k = cid
    · subst hk
      simp [List.lookup] at h
    · have hbeq : (cid == k) = false := by simp [Ne.symm hk]
      simp only [List.lookup, hbeq] at h
      simp only [mapSet, if_neg hk]
      rw [ih h]

theorem mapGet_mapSet_self_or (m : List (Nat × List MSlot)) (cid : Nat)
    (v : List MSlot) :
    mapGet (mapSet m cid v) cid = v ∨ mapGet (mapSet m cid v) cid = [] := by
  cases h : m.lookup cid with
  | some w => exact Or.inl (mapGet_mapSet_self h)
  | none =>
    right
    rw [mapSet_lookup_none h]
    unfold mapGet
    rw [h]
    rfl

theorem mem_revise_self {m : List (Nat × List MSlot)} {c1 c2 : Nat} {s : MSlot}
    (hs : s ∈ mapGet m c1)
    (hpred : ((mapGet m c2).any (fun s2 => !checkClashFast s s2)) = true) :
    s ∈ mapGet (revise m c1 c2).2 c1 := by
  have hlk : ∃ w, m.lookup c1 = some w := by
    cases h : m.lookup c1 with
    | none =>
      have : mapGet m c1 = [] := by unfold mapGet; rw [h]; rfl
      rw [this] at hs
      simp at hs
    | some w => exact ⟨w, rfl⟩
  rcases hlk with ⟨w, hw⟩
  unfold revise
  rw [mapGet_mapSet_self hw]
  exact List.mem_filter.mpr ⟨hs, hpred⟩

/-- After `_revise(c1, c2)`, the arc (c1, c2) is consistent. -/
theorem supported_revise_self {m : List (Nat × List MSlot)} {c1 c2 : Nat}
    (hne : c1 ≠ c2) : Supported (revise m c1 c2).2 c1 c2 := by
  intro s hs
  have hc2 : mapGet (revise m c1 c2).2 c2 = mapGet m c2 := by
    unfold revise
    exact mapGet_mapSet_ne (Ne.symm hne)
  rw [hc2]
  unfold revise at hs
  dsimp only at hs
  rcases mapGet_mapSet_self_or m c1 ((mapGet m c1).filter
      (fun s1 => (mapGet m c2).any fun s2 => !checkClashFast s1 s2))
    with hor | hor
  · rw [hor] at hs
    rcases List.any_eq_true.mp (List.mem_filter.mp hs).2 with ⟨s2, hs2, hb⟩
    exact ⟨s2, hs2, by simpa using hb⟩
  · rw [hor] at hs
    simp at hs

/-- `_revise(c1, c2)` cannot break the reverse arc (c2, c1): a removed
candidate supported nothing. -/
theorem supported_nobreak {m : List (Nat × List MSlot)} {c1 c2 : Nat}
    (hne : c1 ≠ c2) (h : Supported m c2 c1) :
    Supported (revise m c1 c2).2 c2 c1 := by
  intro s2 hs2
  have hc2 : mapGet (revise m c1 c2).2 c2 = mapGet m c2 := by
    unfold revise
    exact mapGet_mapSet_ne (Ne.symm hne)
  rw [hc2] at hs2
  rcases h s2 hs2 with ⟨s1, hs1, hcl⟩
  refine ⟨s1, ?_, hcl⟩
  apply mem_revise_self hs1
  refine List.any_eq_true.mpr ⟨s2, hs2, ?_⟩
  rw [clashFast_symm s1 s2]
  simp [hcl]

/-- `_revise(c1, c2)` cannot break any arc whose support pool is not c1. -/
theorem supported_mono {m : List (Nat × List MSlot)} {c1 c2 a b : Nat}
    (hb : b ≠ c1) (h : Supported m a b) :
    Supported (revise m c1 c2).2 a b := by
  intro s hs
  have hsa : s ∈ mapGet m a := revise_sub a s hs
  rcases h s hsa with ⟨s2, hs2, hcl⟩
  have hdb : mapGet (revise m c1 c2).2 b = mapGet m b := by
    unfold revise
    exact mapGet_mapSet_ne hb
  rw [hdb]
  exact ⟨s2, hs2, hcl⟩

theorem queue_append_bounds {courses : List MCourse}
    {rest : List (Nat × Nat)} {c1 c2 : Nat}
    (hqt : ∀ pr ∈ rest, pr.1 ∈ courses.map (·.id) ∧
      pr.2 ∈ courses.map (·.id) ∧ pr.1 ≠ pr.2)
    (hc1 : c1 ∈ courses.map (·.id)) :
    ∀ pr ∈ rest ++ courses.filterMap (fun c3 =>
      if c3.id ≠ c1 ∧ c3.id ≠ c2 then some (c3.id, c1) else none),
      pr.1 ∈ courses.map (·.id) ∧ pr.2 ∈ courses.map (·.id) ∧
      pr.1 ≠ pr.2 := by
  intro pr hpr
  rcases List.mem_append.mp hpr with hpr | hpr
  · exact hqt pr hpr
  · rcases List.mem_filterMap.mp hpr with ⟨c3, hc3, hif⟩
    by_cases hcond : c3.id ≠ c1 ∧ c3.id ≠ c2
    · rw [if_pos hcond] at hif
      rw [← Option.some.inj hif]
      exact ⟨List.mem_map_of_mem (·.id) hc3, hc1, hcond.1⟩
    · rw [if_neg hcond] at hif
      simp at hif

/-- AC-3 termination invariant: when the queue loop returns `true`, every
arc between distinct requested courses is consistent. -/
theorem acLoop_true_consistent {courses : List MCourse} :
    ∀ (N : Nat) (m : List (Nat × List MSlot)) (q : List (Nat × Nat)),
    totalSize m < N →
    (∀ pr ∈ q, pr.1 ∈ courses.map (·.id) ∧ pr.2 ∈ courses.map (·.id) ∧
      pr.1 ≠ pr.2) →
    (∀ a b, a ∈ courses.map (·.id) → b ∈ courses.map (·.id) → a ≠ b →
      ¬ Supported m a b → (a, b) ∈ q) →
    (acLoop courses m q).1 = true →
    ∀ a b, a ∈ courses.map (·.id) → b ∈ courses.map (·.id) → a ≠ b →
      Supported (acLoop courses m q).2 a b := by
  intro N
  induction N with
  | zero => intro m q h; omega
  | succ N ihN =>
    intro m q
    induction q with
    | nil =>
      intro _ _ hinv _ a b ha hb hne
      have h2 : (acLoop courses m []).2 = m := by simp [acLoop]
      rw [h2]
      by_contra hns
      exact absurd (hinv a b ha hb hne hns) (List.not_mem_nil _)
    | cons pair rest ihq =>
      intro hN hq hinv htrue a b ha hb hne
      obtain ⟨c1, c2⟩ := pair
      have hqh := hq (c1, c2) (List.mem_cons_self _ _)
      have hqt : ∀ pr ∈ rest, pr.1 ∈ courses.map (·.id) ∧
          pr.2 ∈ courses.map (·.id) ∧ pr.1 ≠ pr.2 :=
        fun pr hpr => hq pr (List.mem_cons_of_mem _ hpr)
      by_cases hr : (revise m c1 c2).1 = true
      · by_cases hempty : (mapGet (revise m c1 c2).2 c1).isEmpty = true
        · have hfalse : (acLoop courses m ((c1, c2) :: rest)).1 = false := by
            simp only [acLoop]
            rw [dif_pos hr, if_pos hempty]
          rw [hfalse] at htrue
          simp at htrue
        · have hstep : acLoop courses m ((c1, c2) :: rest)
              = acLoop courses (revise m c1 c2).2
                (rest ++ courses.filterMap (fun c3 =>
                  if c3.id ≠ c1 ∧ c3.id ≠ c2 then some (c3.id, c1)
                  else none)) := by
            simp only [acLoop]
            rw [dif_pos hr, if_neg hempty]
          rw [hstep] at htrue ⊢
          have hlt := revise_true_size_lt hr
          have hinv' : ∀ x y, x ∈ courses.map (·.id) →
              y ∈ courses.map (·.id) → x ≠ y →
              ¬ Supported (revise m c1 c2).2 x y →
              (x, y) ∈ rest ++ courses.filterMap (fun c3 =>
                if c3.id ≠ c1 ∧ c3.id ≠ c2 then some (c3.id, c1)
                else none) := by
            intro x y hx hy hxy hns
            by_cases hyc1 : y = c1
            · subst hyc1
              by_cases hxc2 : x = c2
              · subst hxc2
                by_cases hsup : Supported m x y
                · exact absurd (supported_nobreak hqh.2.2 hsup) hns
                · rcases List.mem_cons.mp (hinv x y hx hy hxy hsup)
                      with heq | hmem
                  · exact absurd (congrArg Prod.fst heq) hxy
                  · exact List.mem_append_left _ hmem
              · rcases List.mem_map.mp hx with ⟨c3, hc3, hc3id⟩
                refine List.mem_append_right _
                  (List.mem_filterMap.mpr ⟨c3, hc3, ?_⟩)
                rw [if_pos ⟨by rw [hc3id]; exact hxy,
                  by rw [hc3id]; exact hxc2⟩]
                rw [hc3id]
            · by_cases hxyc : x = c1 ∧ y = c2
              · rcases hxyc with ⟨hx1, hy2⟩
                subst hx1
                subst hy2
                exact absurd (supported_revise_self hqh.2.2) hns
              · have hnsm : ¬ Supported m x y :=
                  fun hsup => hns (supported_mono hyc1 hsup)
                rcases List.mem_cons.mp (hinv x y hx hy hxy hnsm)
                    with heq | hmem
                · exact absurd ⟨congrArg Prod.fst heq,
                    congrArg Prod.snd heq⟩ hxyc
                · exact List.mem_append_left _ hmem
          exact ihN _ _ (by omega) (queue_append_bounds hqt hqh.1) hinv'
            htrue a b ha hb hne
      · have hstep : acLoop courses m ((c1, c2) :: rest)
            = acLoop courses m rest := by
          simp only [acLoop]
          rw [dif_neg hr]
        rw [hstep] at htrue ⊢
        have hsup : Supported m c1 c2 :=
          revise_false_iff.mp (Bool.eq_false_iff.mpr hr)
        have hinv' : ∀ x y, x ∈ courses.map (·.id) →
            y ∈ courses.map (·.id) → x ≠ y → ¬ Supported m x y →
            (x, y) ∈ rest := by
          intro x y hx hy hxy hns
          rcases List.mem_cons.mp (hinv x y hx hy hxy hns) with heq | hmem
          · exfalso
            have hx1 : x = c1 := congrArg Prod.fst heq
            have hy2 : y = c2 := congrArg Prod.snd heq
            rw [hx1, hy2] at hns
            exact hns hsup
          · exact hmem
        exact ihq hN hqt hinv' htrue a b ha hb hne

/-- On an already arc-consistent map, the AC-3 queue loop is the identity. -/
theorem acLoop_of_consistent {courses : List MCourse}
    {m : List (Nat × List MSlot)} :
    ∀ (q : List (Nat × Nat)), (∀ pr ∈ q, Supported m pr.1 pr.2) →
    acLoop courses m q = (true, m) := by
  intro q
  induction q with
  | nil => intro _; simp [acLoop]
  | cons pair rest ih =>
    intro h
    obtain ⟨c1, c2⟩ := pair
    have hsup := h (c1, c2) (List.mem_cons_self _ _)
    have hr : ¬ (revise m c1 c2).1 = true := by
      rw [revise_false_iff.mpr hsup]
      simp
    simp only [acLoop]
    rw [dif_neg hr]
    exact ih (fun pr hpr => h pr (List.mem_cons_of_mem _ hpr))

theorem mem_initQueue {courses : List MCourse} {a b : Nat}
    (ha : a ∈ courses.map (·.id)) (hb : b ∈ courses.map (·.id))
    (hne : a ≠ b) :
    (a, b) ∈ courses.flatMap (fun c1 => courses.filterMap (fun c2 =>
      if c1.id ≠ c2.id then some (c1.id, c2.id) else none)) := by
  rcases List.mem_map.mp ha with ⟨ca, hca, haid⟩
  rcases List.mem_map.mp hb with ⟨cb, hcb, hbid⟩
  refine List.mem_flatMap.mpr ⟨ca, hca, List.mem_filterMap.mpr
    ⟨cb, hcb, ?_⟩⟩
  rw [if_pos (by rw [haid, hbid]; exact hne)]
  rw [haid, hbid]

/-- C9 (amended): when `apply_arc_consistency` returns `True`, it is
idempotent — running it again on the reduced pools changes nothing and
returns `True` again.  (When the first run returns `False` it stops at the
first emptied domain, and a second run can remove further candidates: see
the counterexample.) -/
theorem claim_C9_acIdempotent {courses : List MCourse}
    {m : List (Nat × List MSlot)}
    (htrue : (applyArcConsistency courses m).1 = true) :
    applyArcConsistency courses (applyArcConsistency courses m).2
      = (true, (applyArcConsistency courses m).2) := by
  by_cases hlen : courses.length < 2
  · have h1 : applyArcConsistency courses m = (true, m) := by
      unfold applyArcConsistency
      rw [if_pos hlen]
    rw [h1]
    unfold applyArcConsistency
    rw [if_pos hlen]
  · have heq : applyArcConsistency courses m
        = acLoop courses m (courses.flatMap (fun c1 =>
          courses.filterMap (fun c2 =>
            if c1.id ≠ c2.id then some (c1.id, c2.id) else none))) := by
      unfold applyArcConsistency
      rw [if_neg hlen]
    rw [heq] at htrue ⊢
    have hcons := acLoop_true_consistent (totalSize m + 1) m _ (by omega)
      (by
        intro pr hpr
        rcases List.mem_flatMap.mp hpr with ⟨ca, hca, hmem⟩
        rcases List.mem_filterMap.mp hmem with ⟨cb, hcb, hif⟩
        by_cases hcond : ca.id ≠ cb.id
        · rw [if_pos hcond] at hif
          rw [← Option.some.inj hif]
          exact ⟨List.mem_map_of_mem (·.id) hca,
            List.mem_map_of_mem (·.id) hcb, hcond⟩
        · rw [if_neg hcond] at hif
          simp at hif)
      (fun a b ha hb hne _ => mem_initQueue ha hb hne) htrue
    unfold applyArcConsistency
    rw [if_neg hlen]
    apply acLoop_of_consistent
    intro pr hpr
    rcases List.mem_flatMap.mp hpr with ⟨ca, hca, hmem⟩
    rcases List.mem_filterMap.mp hmem with ⟨cb, hcb, hif⟩
    by_cases hcond : ca.id ≠ cb.id
    · rw [if_pos hcond] at hif
      rw [← Option.some.inj hif]
      exact hcons ca.id cb.id (List.mem_map_of_mem (·.id) hca)
        (List.mem_map_of_mem (·.id) hcb) hcond
    · rw [if_neg hcond] at hif
      simp at hif

theorem claim_C9_acIdempotent_witness :
    (applyArcConsistency toy3Courses toy3Map).1 = true ∧
    applyArcConsistency toy3Courses (applyArcConsistency toy3Courses
      toy3Map).2 = (true, (applyArcConsistency toy3Courses toy3Map).2) := by
  have hfirst : applyArcConsistency toy3Courses toy3Map
      = (true, toy3Map) := by
    unfold applyArcConsistency
    rw [if_neg (by decide)]
    exact acLoop_of_consistent _ (by decide)
  exact ⟨by rw [hfirst], claim_C9_acIdempotent (by rw [hfirst])⟩

/-- Two one-candidate courses whose only slots clash on the same cell: the
first AC-3 run fails after emptying only the first course's pool. -/
def cxS1 : MSlot := ⟨1, 1, ["A11"], none, "V1", 3⟩

def cxS2 : MSlot := ⟨2, 2, ["A11"], none, "V2", 3⟩

def cxCourses : List MCourse := [⟨1, 3, [cxS1]⟩, ⟨2, 3, [cxS2]⟩]

def cxMap : List (Nat × List MSlot) := [(1, [cxS1]), (2, [cxS2])]

def cxMap1 : List (Nat × List MSlot) := [(1, []), (2, [cxS2])]

def cxMap2 : List (Nat × List MSlot) := [(1, []), (2, [])]

theorem claim_C9_counterexample :
    (applyArcConsistency cxCourses cxMap).1 = false ∧
    mapGet (applyArcConsistency cxCourses
      (applyArcConsistency cxCourses cxMap).2).2 2
      ≠ mapGet (applyArcConsistency cxCourses cxMap).2 2 := by
  have hq : cxCourses.flatMap (fun c1 => cxCourses.filterMap (fun c2 =>
      if c1.id ≠ c2.id then some (c1.id, c2.id) else none))
      = [(1, 2), (2, 1)] := by decide
  have hrev1 : revise cxMap 1 2 = (true, cxMap1) := rfl
  have h1 : applyArcConsistency cxCourses cxMap = (false, cxMap1) := by
    unfold applyArcConsistency
    rw [if_neg (by decide), hq]
    simp only [acLoop]
    rw [hrev1]
    rfl
  have hrev2 : revise cxMap1 1 2 = (false, cxMap1) := rfl
  have hrev3 : revise cxMap1 2 1 = (true, cxMap2) := rfl
  have h2 : applyArcConsistency cxCourses cxMap1 = (false, cxMap2) := by
    unfold applyArcConsistency
    rw [if_neg (by decide), hq]
    simp only [acLoop]
    rw [hrev2]
    rw [dif_neg (by simp)]
    rw [hrev3]
    rfl
  constructor
  · rw [h1]
  · rw [h1]
    dsimp only
    rw [h2]
    intro hcontra
    exact List.noConfusion (hcontra : ([] : List MSlot) = [cxS2])

/-- The claim's faculty-score formula: 1000/800/600 for preference rank
0/1/2, and 0 otherwise. -/
def specFacultyScore (p : MPreferences) (s : MSlot) : ℚ :=
  match s.faculty with
  | some f =>
    let prefs := p.prefsFor (toString s.courseId)
    if prefs.contains f then
      if prefs.indexOf f = 0 then 1000
      else if prefs.indexOf f = 1 then 800
      else if prefs.indexOf f = 2 then 600
      else 0
    else 0
  | none => 0

/-- The claim's per-cell time-score formula, by period and mode. -/
def specTimeScore (p : MPreferences) (period : Nat) : ℚ :=
  if p.avoidEarlyMorning = true ∧ period = 1 then 0
  else if p.avoidLateEvening = true ∧ period = 7 then 0
  else if p.timeMode = "morning" then max 0 (115 - 15 * (period : ℚ))
  else if p.timeMode = "afternoon" then max 0 (10 + 15 * ((period : ℚ) - 1))
  else if p.timeMode = "middle" then max 0 (100 - 30 * |(period : ℚ) - 4|)
  else 50

/-- The claim's per-cell contribution: time score of the cell plus the
faculty score. -/
def specCellScore (p : MPreferences) (s : MSlot) (c : String) : ℚ :=
  (match getSlotTiming c with
   | some t => specTimeScore p t.period
   | none => 0) + specFacultyScore p s

/-- The claim's gap-heuristic penalty: −8·|period − 4| averaged over the
candidate's cells. -/
def specGapPenalty (s : MSlot) : ℚ :=
  ((s.getIndividualSlots.filterMap getSlotTiming).map
    (fun t => (-8 : ℚ) * |(t.period : ℚ) - 4|)).sum
    / s.getIndividualSlots.length

/-- The claim's per-candidate score formula: credit weight times (cell
average plus gap penalty). -/
def specScoreSlot (p : MPreferences) (s : MSlot) : ℚ :=
  (s.credits : ℚ) *
    ((s.getIndividualSlots.map (specCellScore p s)).sum
        / s.getIndividualSlots.length
      + specGapPenalty s)

theorem effectiveMode_eq {p : MPreferences} (hpm : p.preferMorning = false)
    (hpa : p.preferAfternoon = false) : effectiveMode p = p.timeMode := by
  unfold effectiveMode
  by_cases h : p.timeMode = "none"
  · rw [if_pos h, hpm, hpa]
    simp [h]
  · rw [if_neg h]

theorem prefsFor_empty {p : MPreferences}
    (h : p.courseFacultyPreferences.isEmpty = true) (k : String) :
    p.prefsFor k = [] := by
  unfold MPreferences.prefsFor
  rw [List.isEmpty_iff.mp h]
  rfl

theorem facultyScore_toRat_spec {p : MPreferences} {s : MSlot}
    (hcid : s.courseId ≠ 0) :
    (facultyScore p s).toRat = specFacultyScore p s := by
  unfold facultyScore specFacultyScore
  by_cases hemp : p.courseFacultyPreferences.isEmpty = true
  · rw [if_neg (by simp [hemp])]
    rw [Score.toRat_ofInt]
    cases hf : s.faculty with
    | none => norm_num
    | some f =>
      rw [prefsFor_empty hemp]
      simp
  · rw [if_pos (by
      rw [Bool.and_eq_true]
      exact ⟨by simp [hemp], by simpa [bne_iff_ne] using hcid⟩)]
    cases hf : s.faculty with
    | none => rw [Score.toRat_ofInt]; norm_num
    | some f =>
      dsimp only
      by_cases hc : (p.prefsFor (toString s.courseId)).contains f = true
      · rw [if_pos hc, if_pos hc]
        by_cases h0 : (p.prefsFor (toString s.courseId)).indexOf f = 0
        · rw [if_pos h0, if_pos h0, Score.toRat_ofInt]; norm_num
        · rw [if_neg h0, if_neg h0]
          by_cases h1 : (p.prefsFor (toString s.courseId)).indexOf f = 1
          · rw [if_pos h1, if_pos h1, Score.toRat_ofInt]; norm_num
          · rw [if_neg h1, if_neg h1]
            by_cases h2 : (p.prefsFor (toString s.courseId)).indexOf f = 2
            · rw [if_pos h2, if_pos h2, Score.toRat_ofInt]; norm_num
            · rw [if_neg h2, if_neg h2, Score.toRat_ofInt]; norm_num
      · rw [if_neg hc, if_neg hc, Score.toRat_ofInt]; norm_num

theorem cellTimeScore_toRat_spec {p : MPreferences} {s : MSlot} {c : String}
    (hexc : p.excludeSlots.contains c = false)
    (hav : (match s.faculty with
            | some f => p.avoidedFaculties.contains f
            | none => false) = false)
    {t : Timing} (hres : getSlotTiming c = some t)
    (hpm : p.preferMorning = false) (hpa : p.preferAfternoon = false)
    (hev : p.timeMode ≠ "evening") :
    (cellTimeScore p s c).toRat = specTimeScore p t.period := by
  unfold cellTimeScore specTimeScore
  rw [if_neg (by rw [hexc]; exact Bool.false_ne_true)]
  rw [if_neg (by rw [hav]; exact Bool.false_ne_true)]
  rw [hres]
  dsimp only
  have hmode := effectiveMode_eq hpm hpa
  by_cases h1 : p.avoidEarlyMorning = true ∧ t.period = 1
  · rw [if_pos (by simp [h1.1, h1.2]), if_pos h1, Score.toRat_ofInt]
    norm_num
  · have hb1 : (p.avoidEarlyMorning && t.period == 1) = false := by
      rcases not_and_or.mp h1 with h | h
      · simp [Bool.eq_false_iff.mpr h]
      · simp [beq_eq_false_iff_ne.mpr h]
    rw [if_neg (by rw [hb1]; exact Bool.false_ne_true), if_neg h1]
    by_cases h2 : p.avoidLateEvening = true ∧ t.period = 7
    · rw [if_pos (by simp [h2.1, h2.2]), if_pos h2, Score.toRat_ofInt]
      norm_num
    · have hb2 : (p.avoidLateEvening && t.period == 7) = false := by
        rcases not_and_or.mp h2 with h | h
        · simp [Bool.eq_false_iff.mpr h]
        · simp [beq_eq_false_iff_ne.mpr h]
      rw [if_neg (by rw [hb2]; exact Bool.false_ne_true), if_neg h2]
      by_cases hm : p.timeMode = "morning"
      · rw [if_pos (hmode.trans hm), if_pos hm, Score.toRat_ofInt]
        push_cast
        rfl
      · rw [if_neg (fun h => hm (hmode.symm.trans h)), if_neg hm]
        by_cases ha : p.timeMode = "afternoon"
        · have hcond : (decide (effectiveMode p = "evening")
              || decide (effectiveMode p = "afternoon")) = true := by
            rw [hmode, ha]
            rfl
          rw [if_pos hcond, if_pos ha, Score.toRat_ofInt]
          push_cast
          rfl
        · have hcond : (decide (effectiveMode p = "evening")
              || decide (effectiveMode p = "afternoon")) = false := by
            rw [hmode]
            simp [hev, ha]
          rw [if_neg (by rw [hcond]; exact Bool.false_ne_true), if_neg ha]
          by_cases hmid : p.timeMode = "middle"
          · rw [if_pos (hmode.trans hmid), if_pos hmid, Score.toRat_ofInt]
            push_cast
            rfl
          · rw [if_neg (fun h => hmid (hmode.symm.trans h)), if_neg hmid,
              Score.toRat_ofInt]
            norm_num

theorem Score.toRat_foldl_add (f : String → Score) :
    ∀ (l : List String) (z : Score),
    (l.foldl (fun acc c => acc.add (f c)) z).toRat
      = z.toRat + (l.map (fun c => (f c).toRat)).sum := by
  intro l
  induction l with
  | nil => intro z; simp
  | cons c rest ih =>
    intro z
    rw [List.foldl_cons, ih, Score.toRat_add, List.map_cons, List.sum_cons]
    ring

theorem int_foldl_gap :
    ∀ (l : List Timing) (z : Int),
    l.foldl (fun acc t => acc + |(t.period : Int) - 4| * 8) z
      = z + (l.map (fun t => |(t.period : Int) - 4| * 8)).sum := by
  intro l
  induction l with
  | nil => intro z; simp
  | cons t rest ih =>
    intro z
    rw [List.foldl_cons, ih, List.map_cons, List.sum_cons]
    ring

theorem cast_gap_sum :
    ∀ (l : List Timing),
    (((l.map (fun t => |(t.period : Int) - 4| * 8)).sum : Int) : ℚ)
      = (l.map (fun t => (8 : ℚ) * |(t.period : ℚ) - 4|)).sum := by
  intro l
  induction l with
  | nil => simp
  | cons t rest ih =>
    rw [List.map_cons, List.sum_cons, List.map_cons, List.sum_cons]
    have hcell : ((|(t.period : Int) - 4| * 8 : Int) : ℚ)
        = 8 * |(t.period : ℚ) - 4| := by
      push_cast
      ring
    rw [Int.cast_add, hcell, ih]

theorem neg_gap_sum :
    ∀ (l : List Timing),
    -((l.map (fun t => (8 : ℚ) * |(t.period : ℚ) - 4|)).sum)
      = (l.map (fun t => (-8 : ℚ) * |(t.period : ℚ) - 4|)).sum := by
  intro l
  induction l with
  | nil => simp
  | cons t rest ih =>
    rw [List.map_cons, List.sum_cons, List.map_cons, List.sum_cons,
      neg_add, ih]
    have hhead : -((8 : ℚ) * |(t.period : ℚ) - 4|)
        = (-8 : ℚ) * |(t.period : ℚ) - 4| := by ring
    rw [hhead]

theorem estimateGapPenalty_toRat_spec {s : MSlot}
    (hne : s.getIndividualSlots ≠ []) :
    (estimateGapPenalty s).toRat = specGapPenalty s := by
  unfold estimateGapPenalty specGapPenalty
  rw [if_neg (by simp [List.isEmpty_iff, hne])]
  dsimp only
  have hlen : 0 < s.getIndividualSlots.length := List.length_pos.mpr hne
  rw [int_foldl_gap, Score.toRat_divNat _ _ hlen, Score.toRat_ofInt]
  rw [zero_add]
  rw [Int.cast_neg, cast_gap_sum, neg_gap_sum]

/-- C8 (amended): `_score_slot` matches the claimed closed formula — credit
weight times (cell average of time score plus faculty score, plus the gap
penalty) — for every candidate with at least one atomic cell, provided all
its cells resolve in the timing index, none of them is excluded, its faculty
is not avoided, the legacy `prefer_morning`/`prefer_afternoon` flags are
off, the time mode is not the undocumented `evening` alias, and the course
has a nonzero id and credit count.  (An excluded or faculty-avoided cell is
scored −1000 by the code, which the claimed formula does not mention: see
the counterexample.) -/
theorem claim_C8_scoreSlot {p : MPreferences} {s : MSlot}
    (hne : s.getIndividualSlots ≠ [])
    (hres : ∀ c ∈ s.getIndividualSlots, (getSlotTiming c).isSome = true)
    (hexc : ∀ c ∈ s.getIndividualSlots, p.excludeSlots.contains c = false)
    (hav : (match s.faculty with
            | some f => p.avoidedFaculties.contains f
            | none => false) = false)
    (hpm : p.preferMorning = false) (hpa : p.preferAfternoon = false)
    (hev : p.timeMode ≠ "evening") (hcr : s.credits ≠ 0)
    (hcid : s.courseId ≠ 0) :
    (scoreSlot p s).toRat = specScoreSlot p s := by
  unfold scoreSlot specScoreSlot
  rw [if_neg (by simp [List.isEmpty_iff, hne])]
  dsimp only
  have hlen : 0 < s.getIndividualSlots.length := List.length_pos.mpr hne
  have hcred : (if s.credits != 0 then (s.credits : Int) else 1)
      = (s.credits : Int) := by
    rw [if_pos (by simpa [bne_iff_ne] using hcr)]
  rw [hcred, Score.toRat_scale, Score.toRat_add,
    Score.toRat_divNat _ _ hlen, Score.toRat_foldl_add]
  have hcellmap : s.getIndividualSlots.map
      (fun c => ((cellTimeScore p s c).add (facultyScore p s)).toRat)
      = s.getIndividualSlots.map (specCellScore p s) := by
    apply List.map_congr_left
    intro c hc
    rw [Score.toRat_add]
    rcases Option.isSome_iff_exists.mp (hres c hc) with ⟨t, ht⟩
    unfold specCellScore
    rw [cellTimeScore_toRat_spec (hexc c hc) hav ht hpm hpa hev,
      facultyScore_toRat_spec hcid, ht]
  rw [hcellmap, estimateGapPenalty_toRat_spec hne, Score.toRat_ofInt]
  push_cast
  ring

/-- Preferences whose only effect is to exclude the cell `A11`. -/
def cxP8 : MPreferences := ⟨false, false, "none", false, false, [], [], ["A11"]⟩

theorem claim_C8_counterexample :
    cxS1.getIndividualSlots ≠ [] ∧
    (scoreSlot cxP8 cxS1).toRat ≠ specScoreSlot cxP8 cxS1 := by
  constructor
  · intro h
    exact List.noConfusion h
  · have h1 : scoreSlot cxP8 cxS1 = Score.ofInt (-3072) := rfl
    have ht : getSlotTiming "A11" = some ⟨"MON", 1, "08:30", "10:00"⟩ := rfl
    have h2 : specScoreSlot cxP8 cxS1 = 78 := by
      simp [specScoreSlot, specCellScore, specTimeScore, specFacultyScore,
        specGapPenalty, MSlot.getIndividualSlots, cxS1, cxP8, ht]
      norm_num
    rw [h1, h2, Score.toRat_ofInt]
    norm_num

def w8Slot : MSlot := ⟨1, 1, ["A11"], some "FacA", "V1", 3⟩

theorem claim_C8_scoreSlot_witness :
    (scoreSlot defaultPreferences w8Slot).toRat
      = specScoreSlot defaultPreferences w8Slot :=
  claim_C8_scoreSlot (by decide) (by decide) (by decide) (by decide)
    rfl rfl (by decide) (by decide) (by decide)

theorem foldl_fixed {γ : Type _} {β : Type _} {f : γ → β → γ}
    (h : ∀ acc x, f acc x = acc) :
    ∀ (l : List β) (acc : γ), l.foldl f acc = acc := by
  intro l
  induction l with
  | nil => intro acc; rfl
  | cons x xs ih =>
    intro acc
    rw [List.foldl_cons, h acc x]
    exact ih acc

/-- A course with an empty pool kills every branch of the exhaustive
backtracking: nothing is ever recorded. -/
theorem exhaustiveBT_empty_domain {m : List (Nat × List MSlot)} {maxS : Nat}
    {c : MCourse} (hc : mapGet m c.id = []) :
    ∀ (cs : List MCourse), c ∈ cs →
    ∀ (selected : List MSlot) (occupied : List (String × Nat))
      (acc : List (List MSlot) × List (Finset Nat)),
    exhaustiveBT m maxS cs selected occupied acc = acc := by
  intro cs
  induction cs with
  | nil => intro h; simp at h
  | cons d rest ih =>
    intro hmem selected occupied acc
    rcases List.mem_cons.mp hmem with heq | hmem
    · subst heq
      simp only [exhaustiveBT]
      rw [hc]
      rfl
    · simp only [exhaustiveBT]
      apply foldl_fixed
      intro acc' slot
      by_cases hcap : acc'.1.length ≥ maxS
      · rw [if_pos hcap]
      · rw [if_neg hcap]
        by_cases hcl : (selected.any (fun e => checkClashFast slot e)) = true
        · rw [if_pos hcl]
        · rw [if_neg hcl]
          by_cases hocc : ((slotTimings slot).any
              (fun t => occupied.contains t)) = true
          · rw [if_pos hocc]
          · rw [if_neg hocc]
            exact ih hmem _ _ _

theorem generateExhaustive_empty_domain {p : MPreferences}
    {m : List (Nat × List MSlot)} {courses : List MCourse} {c : MCourse}
    {maxS target : Nat} (hmem : c ∈ courses) (hc : mapGet m c.id = []) :
    generateExhaustive p courses m maxS target = [] := by
  unfold generateExhaustive
  rw [if_neg (by
    rw [List.isEmpty_iff]
    intro h
    rw [h] at hmem
    simp at hmem)]
  rw [exhaustiveBT_empty_domain hc courses hmem [] [] ([], [])]
  simp

theorem tryRandomGo_empty_domain {m : List (Nat × List MSlot)} {c : MCourse}
    (hc : mapGet m c.id = []) :
    ∀ (cs : List MCourse), c ∈ cs →
    ∀ (selected : List MSlot) (occupied : List (String × Nat)) (st : RState),
    (tryRandomGo m cs selected occupied st).1 = none := by
  intro cs
  induction cs with
  | nil => intro h; simp at h
  | cons d rest ih =>
    intro hmem selected occupied st
    rcases List.mem_cons.mp hmem with heq | hmem
    · subst heq
      simp only [tryRandomGo]
      rw [if_pos (by rw [hc]; rfl)]
    · simp only [tryRandomGo]
      by_cases hemp : (mapGet m d.id).isEmpty = true
      · rw [if_pos hemp]
      · rw [if_neg hemp]
        cases hf : firstFit (((shuffleList (mapGet m d.id) st).1).take 10)
            selected occupied with
        | none => rfl
        | some pr =>
          obtain ⟨slot, newTimes⟩ := pr
          dsimp only
          exact ih hmem _ _ _

theorem tryRandomTimetable_empty_domain {courses : List MCourse}
    {m : List (Nat × List MSlot)} {c : MCourse} {st : RState}
    (hmem : c ∈ courses) (hc : mapGet m c.id = []) :
    (tryRandomTimetable courses m st).1 = none := by
  unfold tryRandomTimetable
  cases hS : shuffleList courses st with
  | mk shuffled st' =>
    dsimp only
    have hmem' : c ∈ shuffled := by
      have := (shuffleList_perm courses st).mem_iff.mpr hmem
      rw [hS] at this
      exact this
    have hgo := tryRandomGo_empty_domain hc shuffled hmem' [] [] st'
    cases hG : tryRandomGo m shuffled [] [] st' with
    | mk res st'' =>
      rw [hG] at hgo
      dsimp only at hgo
      subst hgo
      rfl

theorem cellTimeScore_unknown_mode {p : MPreferences} (s : MSlot) (c : String)
    (h1 : p.timeMode ≠ "none") (h2 : p.timeMode ≠ "morning")
    (h3 : p.timeMode ≠ "afternoon") (h4 : p.timeMode ≠ "evening")
    (h5 : p.timeMode ≠ "middle") :
    cellTimeScore p s c = cellTimeScore ⟨p.avoidEarlyMorning,
      p.avoidLateEvening, "none", false, false, p.courseFacultyPreferences,
      p.avoidedFaculties, p.excludeSlots⟩ s c := by
  have hmode : effectiveMode p = p.timeMode := by
    unfold effectiveMode
    rw [if_neg h1]
  unfold cellTimeScore
  by_cases hc1 : p.excludeSlots.contains c = true
  · rw [if_pos hc1, if_pos hc1]
  · rw [if_neg hc1, if_neg hc1]
    by_cases hc2 : (match s.faculty with
        | some f => p.avoidedFaculties.contains f
        | none => false) = true
    · rw [if_pos hc2, if_pos hc2]
    · rw [if_neg hc2, if_neg hc2]
      cases ht : getSlotTiming c with
      | none => rfl
      | some t =>
        dsimp only
        by_cases hp1 : (p.avoidEarlyMorning && t.period == 1) = true
        · rw [if_pos hp1, if_pos hp1]
        · rw [if_neg hp1, if_neg hp1]
          by_cases hp2 : (p.avoidLateEvening && t.period == 7) = true
          · rw [if_pos hp2, if_pos hp2]
          · rw [if_neg hp2, if_neg hp2]
            rw [hmode]
            have hmode' : effectiveMode ⟨p.avoidEarlyMorning,
                p.avoidLateEvening, "none", false, false,
                p.courseFacultyPreferences, p.avoidedFaculties,
                p.excludeSlots⟩ = "none" := rfl
            rw [hmode']
            rw [if_neg h2, if_neg (by decide : ¬("none" : String) = "morning")]
            have hlor : (decide (p.timeMode = "evening")
                || decide (p.timeMode = "afternoon")) = false := by
              rw [decide_eq_false h4, decide_eq_false h3]
              rfl
            rw [if_neg (by rw [hlor]; exact Bool.false_ne_true)]
            rw [if_neg (by decide :
              ¬(decide (("none" : String) = "evening")
                || decide (("none" : String) = "afternoon")) = true)]
            rw [if_neg h5, if_neg (by decide : ¬("none" : String) = "middle")]

/-- An unknown `time_mode` is silently scored exactly like `'none'`. -/
theorem scoreSlot_unknown_mode (p : MPreferences) (s : MSlot)
    (h1 : p.timeMode ≠ "none") (h2 : p.timeMode ≠ "morning")
    (h3 : p.timeMode ≠ "afternoon") (h4 : p.timeMode ≠ "evening")
    (h5 : p.timeMode ≠ "middle") :
    scoreSlot p s = scoreSlot ⟨p.avoidEarlyMorning, p.avoidLateEvening,
      "none", false, false, p.courseFacultyPreferences, p.avoidedFaculties,
      p.excludeSlots⟩ s := by
  have hfac : facultyScore p s = facultyScore ⟨p.avoidEarlyMorning,
      p.avoidLateEvening, "none", false, false, p.courseFacultyPreferences,
      p.avoidedFaculties, p.excludeSlots⟩ s := rfl
  have hfold : ∀ (l : List String) (z : Score),
      l.foldl (fun acc c => acc.add ((cellTimeScore p s c).add
        (facultyScore p s))) z
      = l.foldl (fun acc c => acc.add ((cellTimeScore ⟨p.avoidEarlyMorning,
          p.avoidLateEvening, "none", false, false,
          p.courseFacultyPreferences, p.avoidedFaculties,
          p.excludeSlots⟩ s c).add (facultyScore ⟨p.avoidEarlyMorning,
          p.avoidLateEvening, "none", false, false,
          p.courseFacultyPreferences, p.avoidedFaculties,
          p.excludeSlots⟩ s))) z := by
    intro l
    induction l with
    | nil => intro z; rfl
    | cons c rest ih =>
      intro z
      rw [List.foldl_cons, List.foldl_cons,
        cellTimeScore_unknown_mode s c h1 h2 h3 h4 h5, hfac]
      exact ih _
  unfold scoreSlot
  dsimp only
  rw [hfold]

/-- C3 (amended): there is no fail-fast error channel.  A requested course
whose pool is empty (e.g. all its candidates filtered out) makes
`generate_exhaustive` return the empty list and `_try_random_timetable`
return `None` — byte-identical to the unsatisfiable outcome — and a
malformed (unknown) `time_mode` is silently scored exactly like `'none'`
instead of being rejected. -/
theorem claim_C3_noFailFast :
    (∀ (p : MPreferences) (m : List (Nat × List MSlot))
       (courses : List MCourse) (c : MCourse) (maxS target : Nat),
       c ∈ courses → mapGet m c.id = [] →
       generateExhaustive p courses m maxS target = []) ∧
    (∀ (courses : List MCourse) (m : List (Nat × List MSlot)) (c : MCourse)
       (st : RState), c ∈ courses → mapGet m c.id = [] →
       (tryRandomTimetable courses m st).1 = none) ∧
    (∀ (p : MPreferences) (s : MSlot),
       p.timeMode ≠ "none" → p.timeMode ≠ "morning" →
       p.timeMode ≠ "afternoon" → p.timeMode ≠ "evening" →
       p.timeMode ≠ "middle" →
       scoreSlot p s = scoreSlot ⟨p.avoidEarlyMorning, p.avoidLateEvening,
         "none", false, false, p.courseFacultyPreferences,
         p.avoidedFaculties, p.excludeSlots⟩ s) :=
  ⟨fun _ _ _ _ _ _ hmem hc => generateExhaustive_empty_domain hmem hc,
   fun _ _ _ _ hmem hc => tryRandomTimetable_empty_domain hmem hc,
   fun p s h1 h2 h3 h4 h5 => scoreSlot_unknown_mode p s h1 h2 h3 h4 h5⟩

/-- Preferences avoiding the faculty of the only candidate. -/
def c3P : MPreferences :=
  ⟨false, false, "none", false, false, [], ["BadFac"], []⟩

def c3Slot : MSlot := ⟨1, 1, ["A11"], some "BadFac", "V1", 3⟩

def c3Course : MCourse := ⟨1, 3, [c3Slot]⟩

theorem claim_C3_counterexample :
    filteredSlots c3P false c3Course = [] ∧
    generateExhaustive c3P [c3Course]
      (buildSlotMap c3P [c3Course] false false toyStream).1 5 5 = [] ∧
    generateExhaustive defaultPreferences cxCourses cxMap 5 5 = [] ∧
    scoreSlot ⟨false, false, "garbage", false, false, [], [], []⟩ w8Slot
      = scoreSlot defaultPreferences w8Slot :=
  ⟨rfl, rfl, rfl, rfl⟩

theorem claim_C3_noFailFast_witness :
    generateExhaustive c3P [c3Course]
      (buildSlotMap c3P [c3Course] false false toyStream).1 5 5 = [] ∧
    (tryRandomTimetable [c3Course]
      (buildSlotMap c3P [c3Course] false false toyStream).1 toyStream).1
      = none ∧
    scoreSlot ⟨false, false, "garbage", false, false, [], [], []⟩ w8Slot
      = scoreSlot ⟨false, false, "none", false, false, [], [], []⟩ w8Slot :=
  ⟨claim_C3_noFailFast.1 c3P _ [c3Course] c3Course 5 5
      (List.mem_cons_self _ _) rfl,
   claim_C3_noFailFast.2.1 [c3Course] _ c3Course toyStream
      (List.mem_cons_self _ _) rfl,
   claim_C3_noFailFast.2.2 ⟨false, false, "garbage", false, false, [], [], []⟩
      w8Slot (by decide) (by decide) (by decide) (by decide) (by decide)⟩

theorem filteredSlots_not_excluded {p : MPreferences} {c : MCourse}
    {s : MSlot} (h : s ∈ filteredSlots p false c) :
    shouldExcludeSlot p s = false := by
  unfold filteredSlots at h
  have hcond := List.of_mem_filter h
  rw [Bool.and_eq_true] at hcond
  have h2 := hcond.2
  rw [Bool.or_eq_true] at h2
  rcases h2 with h2 | h2
  · exact absurd h2 (by simp)
  · simpa using h2

/-- C5 (amended): the hard exclusions hold exactly for the pools built with
`ignore_preferences=False` — the constructor-built map used by
`generate_exhaustive`, `generate_beam_search`, `generate_diverse` and
`generate_tiered_teacher_pool` never yields a solution containing an
avoided-faculty or excluded-code slot.  (`generate_unified`,
`_generate_random_solutions`, `_generate_random_pool` and
`generate_ranked_pool` rebuild their pools with `ignore_preferences=True`,
so they can return such slots: see the counterexample.) -/
theorem claim_C5_hardExclusions {p : MPreferences} {courses : List MCourse}
    {r : Bool} {st st2 : RState}
    {maxS target beamWidth targetPool limit : Nat} {minDiv : Int}
    (hCW : CoursesSlotWF courses) (hnd : (courses.map (·.id)).Nodup) :
    (∀ (c : MCourse) (s : MSlot), s ∈ filteredSlots p false c →
       shouldExcludeSlot p s = false) ∧
    (∀ sol ∈ generateExhaustive p courses
       (buildSlotMap p courses r false st).1 maxS target,
       ∀ s ∈ sol.slots, shouldExcludeSlot p s = false) ∧
    (∀ sol ∈ generateBeamSearch p courses
       (buildSlotMap p courses r false st).1 beamWidth target,
       ∀ s ∈ sol.slots, shouldExcludeSlot p s = false) ∧
    (∀ sol ∈ (generateDiverse p courses
       (buildSlotMap p courses r false st).1 limit minDiv st2).1,
       ∀ s ∈ sol.slots, shouldExcludeSlot p s = false) ∧
    (∀ sol ∈ (generateTieredTeacherPool p courses
       (buildSlotMap p courses r false st).1 targetPool target st2).1,
       ∀ s ∈ sol.slots, shouldExcludeSlot p s = false) := by
  have hWF : MapWF (buildSlotMap p courses r false st).1 :=
    buildSlotMap_WF hCW
  have hfrom : ∀ {sel : List MSlot},
      SolutionOK (buildSlotMap p courses r false st).1 courses sel →
      ∀ s ∈ sel, shouldExcludeSlot p s = false := by
    intro sel hOK s hs
    rcases mapGet_built_mem (hOK.1.2 s hs) with ⟨c, _, _, hf⟩
    exact filteredSlots_not_excluded hf
  refine ⟨fun c s h => filteredSlots_not_excluded h, ?_, ?_, ?_, ?_⟩
  · intro sol hsol
    exact hfrom (generateExhaustive_sound hWF hnd sol hsol)
  · intro sol hsol
    exact hfrom (generateBeamSearch_sound hWF hnd sol hsol)
  · intro sol hsol
    exact hfrom (generateDiverse_sound hWF sol hsol)
  · intro sol hsol
    exact hfrom (generateTieredTeacherPool_sound hWF sol hsol)

theorem claim_C5_hardExclusions_witness :
    (∀ (c : MCourse) (s : MSlot),
       s ∈ filteredSlots defaultPreferences false c →
       shouldExcludeSlot defaultPreferences s = false) ∧
    (∀ sol ∈ generateExhaustive defaultPreferences toy3Courses
       (buildSlotMap defaultPreferences toy3Courses false false
         toyStream).1 5 5,
       ∀ s ∈ sol.slots, shouldExcludeSlot defaultPreferences s = false) ∧
    (∀ sol ∈ generateBeamSearch defaultPreferences toy3Courses
       (buildSlotMap defaultPreferences toy3Courses false false
         toyStream).1 3 5,
       ∀ s ∈ sol.slots, shouldExcludeSlot defaultPreferences s = false) ∧
    (∀ sol ∈ (generateDiverse defaultPreferences toy3Courses
       (buildSlotMap defaultPreferences toy3Courses false false
         toyStream).1 3 30 toyStream).1,
       ∀ s ∈ sol.slots, shouldExcludeSlot defaultPreferences s = false) ∧
    (∀ sol ∈ (generateTieredTeacherPool defaultPreferences toy3Courses
       (buildSlotMap defaultPreferences toy3Courses false false
         toyStream).1 5 5 toyStream).1,
       ∀ s ∈ sol.slots, shouldExcludeSlot defaultPreferences s = false) :=
  claim_C5_hardExclusions (by unfold CoursesSlotWF; decide) (by decide)

theorem claim_C5_counterexample :
    shouldExcludeSlot c3P c3Slot = true ∧
    (generateUnified c3P [c3Course] 1 toyStream).1.map (·.slots)
      = [[c3Slot]] :=
  ⟨rfl, rfl⟩

/-- Every acceptance record of the `generate_diverse` loop carries the
candidate's diversity score against the solutions accepted so far, and it
was either the first solution or met the threshold in effect. -/
theorem generateDiverseLoop_trace {p : MPreferences} {courses : List MCourse}
    {m : List (Nat × List MSlot)} {limit maxA : Nat} :
    ∀ (fuel : Nat) (solutions : List MSolution) (seenIds : List (Finset Nat))
      (cmd : Int) (fs attempts : Nat) (st : RState)
      (trace : List DivAccept),
    (∀ tr ∈ trace, tr.diversity = calculateDiversityScore tr.slots tr.prior ∧
      (tr.prior = [] ∨ tr.diversity ≥ tr.threshold)) →
    ∀ tr ∈ (generateDiverseLoop p courses m limit maxA fuel solutions seenIds
      cmd fs attempts st trace).2.1,
      tr.diversity = calculateDiversityScore tr.slots tr.prior ∧
      (tr.prior = [] ∨ tr.diversity ≥ tr.threshold) := by
  intro fuel
  induction fuel with
  | zero =>
    intro solutions seenIds cmd fs attempts st trace hinv tr htr
    exact hinv tr htr
  | succ fuel ih =>
    intro solutions seenIds cmd fs attempts st trace hinv tr htr
    simp only [generateDiverseLoop] at htr
    by_cases hstop : solutions.length ≥ limit ∨ attempts ≥ maxA
    · rw [if_pos hstop] at htr
      exact hinv tr htr
    · rw [if_neg hstop] at htr
      cases hS : shuffleList (courses.map (·.id)) st with
      | mk scids st1 =>
        rw [hS] at htr
        dsimp only at htr
        cases hM : (if shouldShuffleSlots p then shuffleMapForIds m scids st1
            else (m, st1)) with
        | mk m' st2 =>
          rw [hM] at htr
          dsimp only at htr
          cases hbt : diverseBT maxA m' scids [] [] attempts with
          | mk res attempts' =>
            rw [hbt] at htr
            cases res with
            | none => exact hinv tr htr
            | some r =>
              dsimp only at htr
              by_cases hseen : solutionSig r ∈ seenIds
              · rw [if_pos hseen] at htr
                exact ih _ _ _ _ _ _ _ hinv tr htr
              · rw [if_neg hseen] at htr
                by_cases hacc : calculateDiversityScore r solutions ≥
                    (if fs > 20 then (max 5 (cmd - 5), 0)
                     else (cmd, fs)).1 ∨ solutions.length = 0
                · rw [if_pos hacc] at htr
                  refine ih _ _ _ _ _ _ _ ?_ tr htr
                  intro x hx
                  rcases List.mem_append.mp hx with hx | hx
                  · exact hinv x hx
                  · rw [List.mem_singleton] at hx
                    subst hx
                    refine ⟨rfl, ?_⟩
                    rcases hacc with hacc | hacc
                    · exact Or.inr hacc
                    · exact Or.inl (List.length_eq_zero.mp hacc)
                · rw [if_neg hacc] at htr
                  exact ih _ _ _ _ _ _ _ hinv tr htr

/-- C4 (amended): `generate_diverse` accepts a candidate exactly when its
diversity score — 100 minus five times the MINIMUM similarity over the
already-accepted solutions — meets the threshold in effect at that moment,
or when it is the first solution.  Because the minimum (not the maximum)
similarity is used, acceptance does not bound the candidate's similarity to
every earlier solution: see the counterexample. -/
theorem claim_C4_diversityAcceptance {p : MPreferences}
    {courses : List MCourse} {m : List (Nat × List MSlot)} {limit : Nat}
    {minDiv : Int} {st : RState} :
    ∀ tr ∈ (generateDiverse p courses m limit minDiv st).2.1,
      tr.diversity = calculateDiversityScore tr.slots tr.prior ∧
      (tr.prior = [] ∨ tr.diversity ≥ tr.threshold) := by
  intro tr htr
  unfold generateDiverse at htr
  by_cases hemp : courses.isEmpty = true
  · rw [if_pos hemp] at htr
    simp at htr
  · rw [if_neg hemp] at htr
    exact generateDiverseLoop_trace _ _ _ _ _ _ _ _ (by simp) tr htr

/-- Slots of the diversity counterexample: course 1 offers a three-cell
Monday-morning slot and a Friday slot, course 2 a Monday-afternoon slot and
a Saturday-evening slot. -/
def c4a1 : MSlot := ⟨1, 1, ["A11", "A12", "A13"], none, "V1", 3⟩

def c4a2 : MSlot := ⟨2, 1, ["E14"], none, "V2", 3⟩

def c4b1 : MSlot := ⟨3, 2, ["A21"], none, "V3", 3⟩

def c4b2 : MSlot := ⟨4, 2, ["F24"], none, "V4", 3⟩

def c4Courses : List MCourse := [⟨1, 3, [c4a1, c4a2]⟩, ⟨2, 3, [c4b1, c4b2]⟩]

def c4Map : List (Nat × List MSlot) := [(1, [c4a1, c4a2]), (2, [c4b1, c4b2])]

/-- A stream steering `generate_diverse` to find `{c4a1, c4b1}`, then
`{c4a2, c4b2}`, then `{c4a1, c4b2}`. -/
def c4Stream : RState :=
  ⟨fun n => if n = 8 ∨ n = 10 ∨ n = 16 then 1 else 0, 0⟩

theorem claim_C4_counterexample :
    ((generateDiverse defaultPreferences c4Courses c4Map 3 30 c4Stream).1.map
      (·.slots)) = [[c4a1, c4b1], [c4a2, c4b2], [c4a1, c4b2]] ∧
    ((generateDiverse defaultPreferences c4Courses c4Map 3 30 c4Stream).2.1.map
      (fun tr => tr.threshold)) = [30, 30, 30] ∧
    similarityScore [c4a1, c4b2] [c4a1, c4b1] = 15 ∧
    calculateDiversityScore [c4a1, c4b2]
      [⟨[c4a1, c4b1], Score.ofInt 0, 0⟩] = 25 ∧
    ¬ ((25 : Int) ≥ 30) :=
  ⟨rfl, rfl, rfl, rfl, by decide⟩

theorem claim_C4_diversityAcceptance_witness :
    (⟨[c4a1, c4b1], [], 30, 100⟩ : DivAccept).diversity
      = calculateDiversityScore
        (⟨[c4a1, c4b1], [], 30, 100⟩ : DivAccept).slots
        (⟨[c4a1, c4b1], [], 30, 100⟩ : DivAccept).prior ∧
    ((⟨[c4a1, c4b1], [], 30, 100⟩ : DivAccept).prior = [] ∨
      (⟨[c4a1, c4b1], [], 30, 100⟩ : DivAccept).diversity
        ≥ (⟨[c4a1, c4b1], [], 30, 100⟩ : DivAccept).threshold) :=
  claim_C4_diversityAcceptance ⟨[c4a1, c4b1], [], 30, 100⟩ (by
    have h : (generateDiverse defaultPreferences c4Courses c4Map 3 30
        c4Stream).2.1
        = (⟨[c4a1, c4b1], [], 30, 100⟩ : DivAccept) ::
          ((generateDiverse defaultPreferences c4Courses c4Map 3 30
            c4Stream).2.1).tail := rfl
    rw [h]
    exact List.mem_cons_self _ _)

instance : IsTotal ScoredItem itemTimeDescRel :=
  ⟨fun a b => by
    unfold itemTimeDescRel
    rcases le_total a.timeScore.toRat b.timeScore.toRat with h | h
    · exact Or.inr ((Score.ble_iff _ _).mpr h)
    · exact Or.inl ((Score.ble_iff _ _).mpr h)⟩

instance : IsTrans ScoredItem itemTimeDescRel :=
  ⟨fun a b c hab hbc => by
    unfold itemTimeDescRel at hab hbc ⊢
    exact (Score.ble_iff _ _).mpr
      (le_trans ((Score.ble_iff _ _).mp hbc) ((Score.ble_iff _ _).mp hab))⟩

theorem scoredPoolOf_tmc {p : MPreferences} {pool : List (List MSlot)}
    {it : ScoredItem} (h : it ∈ scoredPoolOf p pool) :
    it.teacherMatchCount = countPreferredTeachers p it.slots := by
  rcases List.mem_map.mp h with ⟨slots, _, hmk⟩
  rw [← hmk]

theorem pairwise_flatMap_of {R : β → β → Prop} {f : α → List β} :
    ∀ {l : List α},
    List.Pairwise (fun a b => ∀ x ∈ f a, ∀ y ∈ f b, R x y) l →
    (∀ a ∈ l, List.Pairwise R (f a)) →
    List.Pairwise R (l.flatMap f) := by
  intro l
  induction l with
  | nil => intro _ _; simp
  | cons a t ih =>
    intro hcross hwithin
    rw [List.flatMap_cons]
    rcases List.pairwise_cons.mp hcross with ⟨hhead, htail⟩
    refine List.pairwise_append.mpr
      ⟨hwithin a (List.mem_cons_self _ _),
       ih htail (fun b hb => hwithin b (List.mem_cons_of_mem _ hb)), ?_⟩
    intro x hx y hy
    rcases List.mem_flatMap.mp hy with ⟨b, hb, hyb⟩
    exact hhead b hb x hx y hyb

/-- The tier ordering of `_rank_tiered_by_time`: results appear in strictly
descending teacher-match tiers, and inside a tier in descending time
score. -/
theorem rankTieredByTime_ordered (p : MPreferences)
    (pool : List (List MSlot)) (n target : Nat) :
    List.Pairwise (fun s1 s2 : MSolution =>
      countPreferredTeachers p s2.slots < countPreferredTeachers p s1.slots ∨
      (countPreferredTeachers p s1.slots = countPreferredTeachers p s2.slots ∧
        Score.ble s2.score s1.score = true))
      (rankTieredByTime n (scoredPoolOf p pool) target) := by
  unfold rankTieredByTime
  rw [List.pairwise_map]
  refine List.Pairwise.sublist (List.take_sublist _ _) ?_
  refine pairwise_flatMap_of ?_ ?_
  · have hrange : List.Pairwise (fun t1 t2 : Nat => t2 < t1)
        ((List.range (n + 1)).reverse) :=
      List.pairwise_reverse.mpr (List.pairwise_lt_range (n + 1))
    refine hrange.imp ?_
    intro t1 t2 hlt x hx y hy
    have hx1 := (List.perm_insertionSort itemTimeDescRel _).mem_iff.mp hx
    have hy1 := (List.perm_insertionSort itemTimeDescRel _).mem_iff.mp hy
    have hxf := List.mem_filter.mp hx1
    have hyf := List.mem_filter.mp hy1
    have hxt : countPreferredTeachers p x.slots = t1 := by
      rw [← scoredPoolOf_tmc hxf.1]
      exact of_decide_eq_true hxf.2
    have hyt : countPreferredTeachers p y.slots = t2 := by
      rw [← scoredPoolOf_tmc hyf.1]
      exact of_decide_eq_true hyf.2
    left
    rw [hxt, hyt]
    exact hlt
  · intro t _
    have hsorted : List.Pairwise itemTimeDescRel
        (((scoredPoolOf p pool).filter
          (fun x => x.teacherMatchCount = t)).insertionSort
            itemTimeDescRel) :=
      List.sorted_insertionSort itemTimeDescRel _
    refine hsorted.imp_of_mem ?_
    intro a b ha hb hab
    have ha1 := List.mem_filter.mp
      ((List.perm_insertionSort itemTimeDescRel _).mem_iff.mp ha)
    have hb1 := List.mem_filter.mp
      ((List.perm_insertionSort itemTimeDescRel _).mem_iff.mp hb)
    have hat : countPreferredTeachers p a.slots = t := by
      rw [← scoredPoolOf_tmc ha1.1]
      exact of_decide_eq_true ha1.2
    have hbt : countPreferredTeachers p b.slots = t := by
      rw [← scoredPoolOf_tmc hb1.1]
      exact of_decide_eq_true hb1.2
    right
    exact ⟨hat.trans hbt.symm, hab⟩

theorem randomPoolLoop_mono {courses : List MCourse}
    {m : List (Nat × List MSlot)} {targetPool : Nat} :
    ∀ (fuel : Nat) (pool : List (List MSlot)) (seen : List (Finset Nat))
      (np : Nat) (st : RState),
    ∃ rest, (randomPoolLoop courses m targetPool fuel pool seen np st).1
      = pool ++ rest := by
  intro fuel
  induction fuel with
  | zero =>
    intro pool seen np st
    exact ⟨[], by simp [randomPoolLoop]⟩
  | succ fuel ih =>
    intro pool seen np st
    simp only [randomPoolLoop]
    by_cases h1 : pool.length ≥ targetPool
    · rw [if_pos h1]
      exact ⟨[], by simp⟩
    · rw [if_neg h1]
      cases htr : tryRandomTimetable courses m st with
      | mk res st' =>
        cases res with
        | some result =>
          dsimp only
          by_cases hseen : solutionSig result ∈ seen
          · rw [if_pos hseen]
            by_cases hnp : np + 1 ≥ 1000
            · rw [if_pos hnp]
              exact ⟨[], by simp⟩
            · rw [if_neg hnp]
              exact ih _ _ _ _
          · rw [if_neg hseen]
            rcases ih (pool ++ [result]) (seen ++ [solutionSig result]) 0 st'
              with ⟨rest, hrest⟩
            exact ⟨[result] ++ rest, by rw [hrest, List.append_assoc]⟩
        | none =>
          dsimp only
          by_cases hnp : np + 1 ≥ 1000
          · rw [if_pos hnp]
            exact ⟨[], by simp⟩
          · rw [if_neg hnp]
            exact ih _ _ _ _

/-- On an empty course list the random pool still collects the empty
assignment, so it is never empty. -/
theorem randomPool_empty_courses_ne {p : MPreferences} {st : RState} :
    (generateRandomPool p [] 20000 st).1 ≠ [] := by
  show (randomPoolLoop [] [] 20000 (20000 * 10) [] [] 0 st).1 ≠ []
  obtain ⟨f', hf⟩ : ∃ f', (20000 * 10 : Nat) = f' + 1 := ⟨199999, by norm_num⟩
  rw [hf]
  simp only [randomPoolLoop]
  rw [if_neg (by simp)]
  have htr : tryRandomTimetable ([] : List MCourse) [] st = (some [], st) :=
    rfl
  rw [htr]
  dsimp only
  rw [if_neg (List.not_mem_nil _)]
  rcases randomPoolLoop_mono f' ([] ++ [([] : List MSlot)])
    ([] ++ [solutionSig []]) 0 st with ⟨rest, hrest⟩
  rw [hrest]
  simp

theorem generateUnified_tiered_eq {p : MPreferences} {courses : List MCourse}
    {targetSize : Nat} {st : RState}
    (hT : p.courseFacultyPreferences.isEmpty = false)
    (hTime : (p.timeMode != "none" || p.avoidEarlyMorning ||
      p.avoidLateEvening) = true)
    (hpool : (generateRandomPool p courses 20000 st).1 ≠ []) :
    (generateUnified p courses targetSize st).1
      = rankTieredByTime courses.length
          (scoredPoolOf p (generateRandomPool p courses 20000 st).1)
          targetSize := by
  unfold generateUnified
  rw [if_neg (by rw [hT, hTime]; exact (by simp : ¬(false : Bool) = true))]
  cases hP : generateRandomPool p courses 20000 st with
  | mk pool st' =>
    rw [hP] at hpool
    dsimp only at hpool ⊢
    rw [if_neg (by
      intro h
      exact hpool (List.isEmpty_iff.mp h))]
    rw [if_neg (by rw [hT, hTime]; simp)]
    rw [if_neg (by rw [hT, hTime]; simp)]

/-- Preferences with both a faculty preference per course and an active
morning time preference. -/
def c7P : MPreferences :=
  ⟨false, false, "morning", false, false,
   [("1", ["PrefA"]), ("2", ["PrefB"])], [], []⟩

def c7a1 : MSlot := ⟨1, 1, ["A11"], some "PrefA", "V1", 3⟩

def c7a2 : MSlot := ⟨2, 1, ["A12"], some "OtherA", "V2", 3⟩

def c7b1 : MSlot := ⟨3, 2, ["B11"], some "PrefB", "V3", 3⟩

def c7b2 : MSlot := ⟨4, 2, ["B12"], some "OtherB", "V4", 3⟩

/-- On the two-course instance with one preferred and one unpreferred
candidate each, the tier-2 solution heads the tiered ranking of any pool of
its assignments that contains it. -/
theorem c7_head {pool : List (List MSlot)} {target : Nat} (htarget : 0 < target)
    (hcov : ∀ sel ∈ pool, sel ∈ [[c7a1, c7b1], [c7a1, c7b2],
      [c7a2, c7b1], [c7a2, c7b2]])
    (hmem : [c7a1, c7b1] ∈ pool) :
    ∃ rest, rankTieredByTime 2 (scoredPoolOf c7P pool) target
      = (⟨[c7a1, c7b1], calculateTimeScore c7P [c7a1, c7b1],
          sumCredits [c7a1, c7b1]⟩ : MSolution) :: rest := by
  unfold rankTieredByTime
  rw [show (List.range (2 + 1)).reverse = [2, 1, 0] from rfl]
  have hitem : (⟨[c7a1, c7b1], countPreferredTeachers c7P [c7a1, c7b1],
      calculateTimeScore c7P [c7a1, c7b1],
      calculateTeacherPriorityScore c7P [c7a1, c7b1],
      sumCredits [c7a1, c7b1]⟩ : ScoredItem)
      ∈ (scoredPoolOf c7P pool).filter
        (fun x => x.teacherMatchCount = 2) := by
    refine List.mem_filter.mpr ⟨List.mem_map.mpr ⟨[c7a1, c7b1], hmem, rfl⟩, ?_⟩
    decide
  have hne : ((scoredPoolOf c7P pool).filter
      (fun x => x.teacherMatchCount = 2)).insertionSort itemTimeDescRel
      ≠ [] := by
    intro hnil
    have hmem2 := (List.perm_insertionSort itemTimeDescRel _).mem_iff.mpr hitem
    rw [hnil] at hmem2
    exact List.not_mem_nil _ hmem2
  cases hch : ((scoredPoolOf c7P pool).filter
      (fun x => x.teacherMatchCount = 2)).insertionSort itemTimeDescRel with
  | nil => exact absurd hch hne
  | cons x xs =>
    have hx : x ∈ (scoredPoolOf c7P pool).filter
        (fun x => x.teacherMatchCount = 2) := by
      refine (List.perm_insertionSort itemTimeDescRel _).mem_iff.mp ?_
      rw [hch]
      exact List.mem_cons_self _ _
    have hxf := List.mem_filter.mp hx
    rcases List.mem_map.mp hxf.1 with ⟨slots, hslots, hmk⟩
    have htier : countPreferredTeachers c7P slots = 2 := by
      have h2 := of_decide_eq_true hxf.2
      rw [← hmk] at h2
      exact h2
    have hslots_eq : slots = [c7a1, c7b1] := by
      have hc := hcov slots hslots
      simp only [List.mem_cons, List.not_mem_nil, or_false] at hc
      rcases hc with h | h | h | h
      · exact h
      · rw [h] at htier
        exact absurd htier (by decide)
      · rw [h] at htier
        exact absurd htier (by decide)
      · rw [h] at htier
        exact absurd htier (by decide)
    simp only [List.flatMap_cons, List.flatMap_nil, List.append_nil]
    rw [hch]
    rw [List.cons_append]
    obtain ⟨t', rfl⟩ : ∃ t', target = t' + 1 := ⟨target - 1, by omega⟩
    rw [List.take_succ_cons, List.map_cons]
    have hgx : (⟨x.slots, x.timeScore, x.totalCredits⟩ : MSolution)
        = ⟨[c7a1, c7b1], calculateTimeScore c7P [c7a1, c7b1],
           sumCredits [c7a1, c7b1]⟩ := by
      rw [← hmk, hslots_eq]
    rw [hgx]
    exact ⟨_, rfl⟩

/-- C7: when both faculty and time preferences are active, `generate_unified`
returns `_rank_tiered_by_time` of the scored random pool; that ranking lists
solutions in strictly descending preferred-teacher tiers, sorted inside each
tier by descending time score; and on the concrete two-course instance with
one rank-0-preferred and one unpreferred candidate per course, the solution
matching both preferred teachers (tier 2) heads the output. -/
theorem claim_C7_tieredRanking :
    (∀ (p : MPreferences) (courses : List MCourse) (targetSize : Nat)
       (st : RState),
      p.courseFacultyPreferences.isEmpty = false →
      (p.timeMode != "none" || p.avoidEarlyMorning ||
        p.avoidLateEvening) = true →
      (generateRandomPool p courses 20000 st).1 ≠ [] →
      (generateUnified p courses targetSize st).1
        = rankTieredByTime courses.length
            (scoredPoolOf p (generateRandomPool p courses 20000 st).1)
            targetSize) ∧
    (∀ (p : MPreferences) (pool : List (List MSlot)) (n target : Nat),
      List.Pairwise (fun s1 s2 : MSolution =>
        countPreferredTeachers p s2.slots
          < countPreferredTeachers p s1.slots ∨
        (countPreferredTeachers p s1.slots
            = countPreferredTeachers p s2.slots ∧
          Score.ble s2.score s1.score = true))
        (rankTieredByTime n (scoredPoolOf p pool) target)) ∧
    (∀ (pool : List (List MSlot)) (target : Nat), 0 < target →
      (∀ sel ∈ pool, sel ∈ [[c7a1, c7b1], [c7a1, c7b2],
        [c7a2, c7b1], [c7a2, c7b2]]) →
      [c7a1, c7b1] ∈ pool →
      ∃ rest, rankTieredByTime 2 (scoredPoolOf c7P pool) target
        = (⟨[c7a1, c7b1], calculateTimeScore c7P [c7a1, c7b1],
            sumCredits [c7a1, c7b1]⟩ : MSolution) :: rest) :=
  ⟨fun _ _ _ _ hT hTime hpool => generateUnified_tiered_eq hT hTime hpool,
   fun p pool n target => rankTieredByTime_ordered p pool n target,
   fun _ _ htarget hcov hmem => c7_head htarget hcov hmem⟩

theorem claim_C7_tieredRanking_witness :
    ((generateUnified c7P [] 7 toyStream).1
      = rankTieredByTime 0
          (scoredPoolOf c7P (generateRandomPool c7P [] 20000 toyStream).1)
          7) ∧
    (∃ rest, rankTieredByTime 2 (scoredPoolOf c7P
        [[c7a1, c7b1], [c7a1, c7b2], [c7a2, c7b1], [c7a2, c7b2]]) 5
      = (⟨[c7a1, c7b1], calculateTimeScore c7P [c7a1, c7b1],
          sumCredits [c7a1, c7b1]⟩ : MSolution) :: rest) :=
  ⟨(by
      have h := claim_C7_tieredRanking.1 c7P [] 7 toyStream (by decide)
        (by decide) randomPool_empty_courses_ne
      simpa using h),
   claim_C7_tieredRanking.2.2
     [[c7a1, c7b1], [c7a1, c7b2], [c7a2, c7b1], [c7a2, c7b2]] 5
     (by decide) (by decide) (by decide)⟩


/-! ## C10: determinism and the randomness source -/

/-- Two generator states that produce the same draw sequence from their
current positions onward — the relation that re-seeding the module-global
`random` generator with a fixed seed before a run re-establishes. -/
def StreamEquiv (st1 st2 : RState) : Prop :=
  ∀ k, st1.stream (st1.pos + k) = st2.stream (st2.pos + k)

theorem randBelow_congr (n : Nat) {st1 st2 : RState} (h : StreamEquiv st1 st2) :
    (randBelow n st1).1 = (randBelow n st2).1 ∧
    StreamEquiv (randBelow n st1).2 (randBelow n st2).2 := by
  refine ⟨?_, ?_⟩
  · have h0 := h 0
    rw [Nat.add_zero, Nat.add_zero] at h0
    show st1.stream st1.pos % n = st2.stream st2.pos % n
    rw [h0]
  · intro k
    have hk := h (1 + k)
    rw [← Nat.add_assoc, ← Nat.add_assoc] at hk
    exact hk

theorem shuffleGo_congr : ∀ (fuel : Nat) (l : List α) {st1 st2 : RState},
    StreamEquiv st1 st2 →
    (shuffleGo fuel l st1).1 = (shuffleGo fuel l st2).1 ∧
    StreamEquiv (shuffleGo fuel l st1).2 (shuffleGo fuel l st2).2 := by
  intro fuel
  induction fuel with
  | zero => intro l st1 st2 h; exact ⟨rfl, h⟩
  | succ fuel ih =>
    intro l st1 st2 h
    match l with
    | [] => exact ⟨rfl, h⟩
    | a :: as =>
      obtain ⟨hj, hs⟩ := randBelow_congr (a :: as).length h
      simp only [shuffleGo]
      rw [hj]
      obtain ⟨hr, hs'⟩ :=
        ih ((a :: as).eraseIdx (randBelow (a :: as).length st2).1) hs
      rcases e1 : shuffleGo fuel
          ((a :: as).eraseIdx (randBelow (a :: as).length st2).1)
          (randBelow (a :: as).length st1).2 with ⟨r1, s1⟩
      rcases e2 : shuffleGo fuel
          ((a :: as).eraseIdx (randBelow (a :: as).length st2).1)
          (randBelow (a :: as).length st2).2 with ⟨r2, s2⟩
      rw [e1, e2] at hr hs'
      try rw [e1]
      try rw [e2]
      have hrr : r1 = r2 := hr
      have hss : StreamEquiv s1 s2 := hs'
      subst hrr
      exact ⟨rfl, hss⟩

theorem shuffleList_congr (l : List α) {st1 st2 : RState}
    (h : StreamEquiv st1 st2) :
    (shuffleList l st1).1 = (shuffleList l st2).1 ∧
    StreamEquiv (shuffleList l st1).2 (shuffleList l st2).2 :=
  shuffleGo_congr l.length l h

theorem sampleList_congr : ∀ (k : Nat) (l : List α) {st1 st2 : RState},
    StreamEquiv st1 st2 →
    (sampleList l k st1).1 = (sampleList l k st2).1 ∧
    StreamEquiv (sampleList l k st1).2 (sampleList l k st2).2 := by
  intro k
  induction k with
  | zero =>
    intro l st1 st2 h
    cases l with
    | nil => exact ⟨rfl, h⟩
    | cons a as => exact ⟨rfl, h⟩
  | succ k ih =>
    intro l st1 st2 h
    cases l with
    | nil => exact ⟨rfl, h⟩
    | cons a as =>
      have h0 := h 0
      rw [Nat.add_zero, Nat.add_zero] at h0
      have hs : StreamEquiv (⟨st1.stream, st1.pos + 1⟩ : RState)
          ⟨st2.stream, st2.pos + 1⟩ := (randBelow_congr (a :: as).length h).2
      simp only [sampleList, randBelow]
      try dsimp only
      rw [h0]
      obtain ⟨hr, hs'⟩ :=
        ih ((a :: as).eraseIdx (st2.stream st2.pos % (a :: as).length)) hs
      rcases e1 : sampleList
          ((a :: as).eraseIdx (st2.stream st2.pos % (a :: as).length)) k
          (⟨st1.stream, st1.pos + 1⟩ : RState) with ⟨r1, s1⟩
      rcases e2 : sampleList
          ((a :: as).eraseIdx (st2.stream st2.pos % (a :: as).length)) k
          (⟨st2.stream, st2.pos + 1⟩ : RState) with ⟨r2, s2⟩
      rw [e1, e2] at hr hs'
      try rw [e1]
      try rw [e2]
      have hrr : r1 = r2 := hr
      have hss : StreamEquiv s1 s2 := hs'
      subst hrr
      exact ⟨rfl, hss⟩

theorem buildSlotMap_congr (p : MPreferences) :
    ∀ (courses : List MCourse) (ro ip : Bool) {st1 st2 : RState},
    StreamEquiv st1 st2 →
    (buildSlotMap p courses ro ip st1).1 = (buildSlotMap p courses ro ip st2).1 ∧
    StreamEquiv (buildSlotMap p courses ro ip st1).2
      (buildSlotMap p courses ro ip st2).2 := by
  intro courses
  induction courses with
  | nil => intro ro ip st1 st2 h; exact ⟨rfl, h⟩
  | cons course rest ih =>
    intro ro ip st1 st2 h
    obtain ⟨hv, hs⟩ := shuffleList_congr (filteredSlots p ip course) h
    simp only [buildSlotMap]
    rcases e1 : shuffleList (filteredSlots p ip course) st1 with ⟨l1, t1⟩
    rcases e2 : shuffleList (filteredSlots p ip course) st2 with ⟨l2, t2⟩
    rw [e1, e2] at hv hs
    try rw [e1]
    try rw [e2]
    have hll : l1 = l2 := hv
    have ht : StreamEquiv t1 t2 := hs
    subst hll
    try dsimp only
    obtain ⟨hm, hs'⟩ := ih ro ip ht
    rcases e3 : buildSlotMap p rest ro ip t1 with ⟨m1, s1⟩
    rcases e4 : buildSlotMap p rest ro ip t2 with ⟨m2, s2⟩
    rw [e3, e4] at hm hs'
    try rw [e3]
    try rw [e4]
    have hmm : m1 = m2 := hm
    have hss : StreamEquiv s1 s2 := hs'
    subst hmm
    exact ⟨rfl, hss⟩

theorem tryRandomGo_congr (m : List (Nat × List MSlot)) :
    ∀ (courses : List MCourse) (selected : List MSlot)
      (occupied : List (String × Nat)) {st1 st2 : RState},
    StreamEquiv st1 st2 →
    (tryRandomGo m courses selected occupied st1).1
      = (tryRandomGo m courses selected occupied st2).1 ∧
    StreamEquiv (tryRandomGo m courses selected occupied st1).2
      (tryRandomGo m courses selected occupied st2).2 := by
  intro courses
  induction courses with
  | nil => intro selected occupied st1 st2 h; exact ⟨rfl, h⟩
  | cons course rest ih =>
    intro selected occupied st1 st2 h
    simp only [tryRandomGo]
    split
    · exact ⟨by trivial, h⟩
    · obtain ⟨hv, hs⟩ := shuffleList_congr (mapGet m course.id) h
      rcases e1 : shuffleList (mapGet m course.id) st1 with ⟨l1, t1⟩
      rcases e2 : shuffleList (mapGet m course.id) st2 with ⟨l2, t2⟩
      rw [e1, e2] at hv hs
      try rw [e1]
      try rw [e2]
      have hll : l1 = l2 := hv
      have ht : StreamEquiv t1 t2 := hs
      subst hll
      try dsimp only
      rcases hff : firstFit (l1.take 10) selected occupied with _ | ⟨slot, newTimes⟩
      · simp only [hff]
        exact ⟨by trivial, ht⟩
      · simp only [hff]
        exact ih (selected ++ [slot]) (occupied ++ newTimes) ht

theorem tryRandomTimetable_congr (courses : List MCourse)
    (m : List (Nat × List MSlot)) {st1 st2 : RState}
    (h : StreamEquiv st1 st2) :
    (tryRandomTimetable courses m st1).1 = (tryRandomTimetable courses m st2).1 ∧
    StreamEquiv (tryRandomTimetable courses m st1).2
      (tryRandomTimetable courses m st2).2 := by
  obtain ⟨hv, hs⟩ := shuffleList_congr courses h
  simp only [tryRandomTimetable]
  rcases e1 : shuffleList courses st1 with ⟨c1, t1⟩
  rcases e2 : shuffleList courses st2 with ⟨c2, t2⟩
  rw [e1, e2] at hv hs
  try rw [e1]
  try rw [e2]
  have hcc : c1 = c2 := hv
  have ht : StreamEquiv t1 t2 := hs
  subst hcc
  try dsimp only
  obtain ⟨hg, hs'⟩ := tryRandomGo_congr m c1 [] [] ht
  rcases e3 : tryRandomGo m c1 [] [] t1 with ⟨o1, s1⟩
  rcases e4 : tryRandomGo m c1 [] [] t2 with ⟨o2, s2⟩
  rw [e3, e4] at hg hs'
  try rw [e3]
  try rw [e4]
  have ho : o1 = o2 := hg
  have hss : StreamEquiv s1 s2 := hs'
  subst ho
  cases o1 with
  | none => exact ⟨rfl, hss⟩
  | some sel => exact ⟨rfl, hss⟩

theorem randomSolutionsLoop_congr (courses : List MCourse)
    (m : List (Nat × List MSlot)) (targetSize : Nat) :
    ∀ (fuel : Nat) (solutions : List MSolution) (seen : List (Finset Nat))
      {st1 st2 : RState}, StreamEquiv st1 st2 →
    (randomSolutionsLoop courses m targetSize fuel solutions seen st1).1
      = (randomSolutionsLoop courses m targetSize fuel solutions seen st2).1 ∧
    StreamEquiv
      (randomSolutionsLoop courses m targetSize fuel solutions seen st1).2
      (randomSolutionsLoop courses m targetSize fuel solutions seen st2).2 := by
  intro fuel
  induction fuel with
  | zero => intro solutions seen st1 st2 h; exact ⟨rfl, h⟩
  | succ fuel ih =>
    intro solutions seen st1 st2 h
    simp only [randomSolutionsLoop]
    split
    · exact ⟨by trivial, h⟩
    · obtain ⟨hg, hs⟩ := tryRandomTimetable_congr courses m h
      rcases e1 : tryRandomTimetable courses m st1 with ⟨o1, s1⟩
      rcases e2 : tryRandomTimetable courses m st2 with ⟨o2, s2⟩
      rw [e1, e2] at hg hs
      try rw [e1]
      try rw [e2]
      have ho : o1 = o2 := hg
      have hss : StreamEquiv s1 s2 := hs
      subst ho
      cases o1 with
      | none => exact ih solutions seen hss
      | some result =>
        try dsimp only
        by_cases hsig : solutionSig result ∈ seen
        · simp only [if_pos hsig]
          exact ih solutions seen hss
        · simp only [if_neg hsig]
          exact ih _ _ hss

theorem generateRandomSolutions_congr (p : MPreferences)
    (courses : List MCourse) (targetSize : Nat) {st1 st2 : RState}
    (h : StreamEquiv st1 st2) :
    (generateRandomSolutions p courses targetSize st1).1
      = (generateRandomSolutions p courses targetSize st2).1 ∧
    StreamEquiv (generateRandomSolutions p courses targetSize st1).2
      (generateRandomSolutions p courses targetSize st2).2 := by
  obtain ⟨hm, hs⟩ := buildSlotMap_congr p courses true true h
  simp only [generateRandomSolutions]
  rcases e1 : buildSlotMap p courses true true st1 with ⟨m1, s1⟩
  rcases e2 : buildSlotMap p courses true true st2 with ⟨m2, s2⟩
  rw [e1, e2] at hm hs
  try rw [e1]
  try rw [e2]
  have hmm : m1 = m2 := hm
  have hss : StreamEquiv s1 s2 := hs
  subst hmm
  exact randomSolutionsLoop_congr courses m1 targetSize (targetSize * 100) [] []
    hss

theorem randomPoolLoop_congr (courses : List MCourse)
    (m : List (Nat × List MSlot)) (targetPool : Nat) :
    ∀ (fuel : Nat) (pool : List (List MSlot)) (seen : List (Finset Nat))
      (noProgress : Nat) {st1 st2 : RState}, StreamEquiv st1 st2 →
    (randomPoolLoop courses m targetPool fuel pool seen noProgress st1).1
      = (randomPoolLoop courses m targetPool fuel pool seen noProgress st2).1 ∧
    StreamEquiv
      (randomPoolLoop courses m targetPool fuel pool seen noProgress st1).2
      (randomPoolLoop courses m targetPool fuel pool seen noProgress st2).2 := by
  intro fuel
  induction fuel with
  | zero => intro pool seen noProgress st1 st2 h; exact ⟨rfl, h⟩
  | succ fuel ih =>
    intro pool seen noProgress st1 st2 h
    simp only [randomPoolLoop]
    split
    · exact ⟨by trivial, h⟩
    · obtain ⟨hg, hs⟩ := tryRandomTimetable_congr courses m h
      rcases e1 : tryRandomTimetable courses m st1 with ⟨o1, s1⟩
      rcases e2 : tryRandomTimetable courses m st2 with ⟨o2, s2⟩
      rw [e1, e2] at hg hs
      try rw [e1]
      try rw [e2]
      have ho : o1 = o2 := hg
      have hss : StreamEquiv s1 s2 := hs
      subst ho
      cases o1 with
      | none =>
        try dsimp only
        by_cases hnp : noProgress + 1 ≥ 1000
        · simp only [if_pos hnp]
          exact ⟨by trivial, hss⟩
        · simp only [if_neg hnp]
          exact ih pool seen (noProgress + 1) hss
      | some result =>
        try dsimp only
        by_cases hsig : solutionSig result ∈ seen
        · simp only [if_pos hsig]
          by_cases hnp : noProgress + 1 ≥ 1000
          · simp only [if_pos hnp]
            exact ⟨by trivial, hss⟩
          · simp only [if_neg hnp]
            exact ih pool seen (noProgress + 1) hss
        · simp only [if_neg hsig]
          exact ih _ _ 0 hss

theorem generateRandomPool_congr (p : MPreferences) (courses : List MCourse)
    (targetPool : Nat) {st1 st2 : RState} (h : StreamEquiv st1 st2) :
    (generateRandomPool p courses targetPool st1).1
      = (generateRandomPool p courses targetPool st2).1 ∧
    StreamEquiv (generateRandomPool p courses targetPool st1).2
      (generateRandomPool p courses targetPool st2).2 := by
  obtain ⟨hm, hs⟩ := buildSlotMap_congr p courses true true h
  simp only [generateRandomPool]
  rcases e1 : buildSlotMap p courses true true st1 with ⟨m1, s1⟩
  rcases e2 : buildSlotMap p courses true true st2 with ⟨m2, s2⟩
  rw [e1, e2] at hm hs
  try rw [e1]
  try rw [e2]
  have hmm : m1 = m2 := hm
  have hss : StreamEquiv s1 s2 := hs
  subst hmm
  exact randomPoolLoop_congr courses m1 targetPool (targetPool * 10) [] [] 0 hss

theorem generateUnified_congr (p : MPreferences) (courses : List MCourse)
    (targetSize : Nat) {st1 st2 : RState} (h : StreamEquiv st1 st2) :
    (generateUnified p courses targetSize st1).1
      = (generateUnified p courses targetSize st2).1 ∧
    StreamEquiv (generateUnified p courses targetSize st1).2
      (generateUnified p courses targetSize st2).2 := by
  simp only [generateUnified]
  split
  · exact generateRandomSolutions_congr p courses targetSize h
  · obtain ⟨hp, hs⟩ := generateRandomPool_congr p courses 20000 h
    rcases e1 : generateRandomPool p courses 20000 st1 with ⟨p1, s1⟩
    rcases e2 : generateRandomPool p courses 20000 st2 with ⟨p2, s2⟩
    rw [e1, e2] at hp hs
    try rw [e1]
    try rw [e2]
    have hpp : p1 = p2 := hp
    have hss : StreamEquiv s1 s2 := hs
    subst hpp
    try dsimp only
    split
    · exact ⟨by trivial, hss⟩
    · split
      · exact ⟨by trivial, hss⟩
      · split
        · exact ⟨by trivial, hss⟩
        · exact ⟨by trivial, hss⟩

theorem shuffleMapForIds_congr :
    ∀ (ids : List Nat) (m : List (Nat × List MSlot)) {st1 st2 : RState},
    StreamEquiv st1 st2 →
    (shuffleMapForIds m ids st1).1 = (shuffleMapForIds m ids st2).1 ∧
    StreamEquiv (shuffleMapForIds m ids st1).2 (shuffleMapForIds m ids st2).2 := by
  intro ids
  induction ids with
  | nil => intro m st1 st2 h; exact ⟨rfl, h⟩
  | cons cid rest ih =>
    intro m st1 st2 h
    simp only [shuffleMapForIds]
    rcases hl : m.lookup cid with _ | l
    · exact ih m h
    · try dsimp only
      obtain ⟨hv, hs⟩ := shuffleList_congr l h
      rcases e1 : shuffleList l st1 with ⟨l1, t1⟩
      rcases e2 : shuffleList l st2 with ⟨l2, t2⟩
      rw [e1, e2] at hv hs
      try rw [e1]
      try rw [e2]
      have hll : l1 = l2 := hv
      have ht : StreamEquiv t1 t2 := hs
      subst hll
      exact ih (mapSet m cid l1) ht

theorem generateDiverseLoop_congr (p : MPreferences) (courses : List MCourse)
    (m : List (Nat × List MSlot)) (limit maxAttempts : Nat) :
    ∀ (fuel : Nat) (solutions : List MSolution) (seenIds : List (Finset Nat))
      (curMinDiv : Int) (failedStreak attempts : Nat) (trace : List DivAccept)
      {st1 st2 : RState}, StreamEquiv st1 st2 →
    (generateDiverseLoop p courses m limit maxAttempts fuel solutions seenIds
        curMinDiv failedStreak attempts st1 trace).1
      = (generateDiverseLoop p courses m limit maxAttempts fuel solutions seenIds
          curMinDiv failedStreak attempts st2 trace).1 ∧
    StreamEquiv
      (generateDiverseLoop p courses m limit maxAttempts fuel solutions seenIds
        curMinDiv failedStreak attempts st1 trace).2.2
      (generateDiverseLoop p courses m limit maxAttempts fuel solutions seenIds
        curMinDiv failedStreak attempts st2 trace).2.2 := by
  intro fuel
  induction fuel with
  | zero =>
    intro solutions seenIds curMinDiv failedStreak attempts trace st1 st2 h
    exact ⟨rfl, h⟩
  | succ fuel ih =>
    intro solutions seenIds curMinDiv failedStreak attempts trace st1 st2 h
    simp only [generateDiverseLoop]
    split
    · exact ⟨by trivial, h⟩
    · obtain ⟨hv, hs⟩ := shuffleList_congr (courses.map (·.id)) h
      rcases e1 : shuffleList (courses.map (·.id)) st1 with ⟨c1, t1⟩
      rcases e2 : shuffleList (courses.map (·.id)) st2 with ⟨c2, t2⟩
      rw [e1, e2] at hv hs
      try rw [e1]
      try rw [e2]
      have hcc : c1 = c2 := hv
      have ht : StreamEquiv t1 t2 := hs
      subst hcc
      try dsimp only
      by_cases hsh : shouldShuffleSlots p = true
      · simp only [if_pos hsh]
        obtain ⟨hmv, hms⟩ := shuffleMapForIds_congr c1 m ht
        rcases e3 : shuffleMapForIds m c1 t1 with ⟨m1, u1⟩
        rcases e4 : shuffleMapForIds m c1 t2 with ⟨m2, u2⟩
        rw [e3, e4] at hmv hms
        try rw [e3]
        try rw [e4]
        have hmm : m1 = m2 := hmv
        have hu : StreamEquiv u1 u2 := hms
        subst hmm
        try dsimp only
        rcases hdb : diverseBT maxAttempts m1 c1 [] [] attempts with ⟨_ | res, att⟩
        · exact ⟨rfl, hu⟩
        · try dsimp only
          split
          · exact ih solutions seenIds curMinDiv failedStreak (att + 1) trace hu
          · split <;> split <;> exact ih _ _ _ _ att _ hu
      · simp only [if_neg hsh]
        try dsimp only
        rcases hdb : diverseBT maxAttempts m c1 [] [] attempts with ⟨_ | res, att⟩
        · exact ⟨rfl, ht⟩
        · try dsimp only
          split
          · exact ih solutions seenIds curMinDiv failedStreak (att + 1) trace ht
          · split <;> split <;> exact ih _ _ _ _ att _ ht

theorem generateDiverse_congr (p : MPreferences) (courses : List MCourse)
    (m : List (Nat × List MSlot)) (limit : Nat) (minDiversity : Int)
    {st1 st2 : RState} (h : StreamEquiv st1 st2) :
    (generateDiverse p courses m limit minDiversity st1).1
      = (generateDiverse p courses m limit minDiversity st2).1 ∧
    StreamEquiv (generateDiverse p courses m limit minDiversity st1).2.2
      (generateDiverse p courses m limit minDiversity st2).2.2 := by
  simp only [generateDiverse]
  split
  · exact ⟨rfl, h⟩
  · exact generateDiverseLoop_congr p courses m limit (limit * 50)
      (limit * 50 + 1) [] [] minDiversity 0 0 [] h

theorem tryBuildGo_congr (courses0 : List MCourse) (usePreferred : List Nat)
    (prefM nonPrefM : List (Nat × List MSlot)) :
    ∀ (courses : List MCourse) (selected : List MSlot)
      (occupied : List (String × Nat)) {st1 st2 : RState},
    StreamEquiv st1 st2 →
    (tryBuildGo courses0 usePreferred prefM nonPrefM courses selected occupied
        st1).1
      = (tryBuildGo courses0 usePreferred prefM nonPrefM courses selected
          occupied st2).1 ∧
    StreamEquiv
      (tryBuildGo courses0 usePreferred prefM nonPrefM courses selected occupied
        st1).2
      (tryBuildGo courses0 usePreferred prefM nonPrefM courses selected occupied
        st2).2 := by
  intro courses
  induction courses with
  | nil => intro selected occupied st1 st2 h; exact ⟨rfl, h⟩
  | cons course rest ih =>
    intro selected occupied st1 st2 h
    have key : ∀ (pool : List MSlot) {s1 s2 : RState}, StreamEquiv s1 s2 →
        ((match firstFit (shuffleList pool s1).1 selected occupied with
          | some (slot, newTimes) =>
            tryBuildGo courses0 usePreferred prefM nonPrefM rest
              (selected ++ [slot]) (occupied ++ newTimes)
              (shuffleList pool s1).2
          | none => (none, (shuffleList pool s1).2)).1
          = (match firstFit (shuffleList pool s2).1 selected occupied with
            | some (slot, newTimes) =>
              tryBuildGo courses0 usePreferred prefM nonPrefM rest
                (selected ++ [slot]) (occupied ++ newTimes)
                (shuffleList pool s2).2
            | none => (none, (shuffleList pool s2).2)).1) ∧
        StreamEquiv
          (match firstFit (shuffleList pool s1).1 selected occupied with
            | some (slot, newTimes) =>
              tryBuildGo courses0 usePreferred prefM nonPrefM rest
                (selected ++ [slot]) (occupied ++ newTimes)
                (shuffleList pool s1).2
            | none => (none, (shuffleList pool s1).2)).2
          (match firstFit (shuffleList pool s2).1 selected occupied with
            | some (slot, newTimes) =>
              tryBuildGo courses0 usePreferred prefM nonPrefM rest
                (selected ++ [slot]) (occupied ++ newTimes)
                (shuffleList pool s2).2
            | none => (none, (shuffleList pool s2).2)).2 := by
      intro pool s1 s2 hp
      obtain ⟨hv, hs⟩ := shuffleList_congr pool hp
      rcases e1 : shuffleList pool s1 with ⟨l1, t1⟩
      rcases e2 : shuffleList pool s2 with ⟨l2, t2⟩
      rw [e1, e2] at hv hs
      try rw [e1]
      try rw [e2]
      have hll : l1 = l2 := hv
      have ht : StreamEquiv t1 t2 := hs
      subst hll
      try dsimp only
      rcases hff : firstFit l1 selected occupied with _ | ⟨slot, newTimes⟩
      · simp only [hff]
        exact ⟨by trivial, ht⟩
      · simp only [hff]
        exact ih (selected ++ [slot]) (occupied ++ newTimes) ht
    simp only [tryBuildGo]
    by_cases c1 : usePreferred.contains (courses0.indexOf course) = true
    · simp only [if_pos c1]
      by_cases c2 : (mapGet prefM course.id).isEmpty = true
      · simp only [if_pos c2]
        by_cases c3 : (mapGet nonPrefM course.id).isEmpty = true
        · simp only [if_pos c3]
          exact ⟨by trivial, h⟩
        · simp only [if_neg c3]
          exact key _ h
      · simp only [if_neg c2]
        exact key _ h
    · simp only [if_neg c1]
      by_cases c2 : (mapGet nonPrefM course.id).isEmpty = true
      · simp only [if_pos c2]
        by_cases c3 : (mapGet prefM course.id).isEmpty = true
        · simp only [if_pos c3]
          exact ⟨by trivial, h⟩
        · simp only [if_neg c3]
          exact key _ h
      · simp only [if_neg c2]
        exact key _ h

theorem tryBuildTimetable_congr (courses : List MCourse)
    (usePreferred : List Nat) (prefM nonPrefM : List (Nat × List MSlot))
    {st1 st2 : RState} (h : StreamEquiv st1 st2) :
    (tryBuildTimetable courses usePreferred prefM nonPrefM st1).1
      = (tryBuildTimetable courses usePreferred prefM nonPrefM st2).1 ∧
    StreamEquiv (tryBuildTimetable courses usePreferred prefM nonPrefM st1).2
      (tryBuildTimetable courses usePreferred prefM nonPrefM st2).2 := by
  obtain ⟨hv, hs⟩ := shuffleList_congr courses h
  simp only [tryBuildTimetable]
  rcases e1 : shuffleList courses st1 with ⟨c1, t1⟩
  rcases e2 : shuffleList courses st2 with ⟨c2, t2⟩
  rw [e1, e2] at hv hs
  try rw [e1]
  try rw [e2]
  have hcc : c1 = c2 := hv
  have ht : StreamEquiv t1 t2 := hs
  subst hcc
  try dsimp only
  obtain ⟨hg, hs'⟩ := tryBuildGo_congr courses usePreferred prefM nonPrefM c1
    [] [] ht
  rcases e3 : tryBuildGo courses usePreferred prefM nonPrefM c1 [] [] t1
    with ⟨o1, s1⟩
  rcases e4 : tryBuildGo courses usePreferred prefM nonPrefM c1 [] [] t2
    with ⟨o2, s2⟩
  rw [e3, e4] at hg hs'
  try rw [e3]
  try rw [e4]
  have ho : o1 = o2 := hg
  have hss : StreamEquiv s1 s2 := hs'
  subst ho
  cases o1 with
  | none => exact ⟨rfl, hss⟩
  | some sel => exact ⟨rfl, hss⟩

theorem generateTierLoop_congr (courses : List MCourse) (numPreferred : Nat)
    (prefM nonPrefM : List (Nat × List MSlot)) (maxSolutions : Nat) :
    ∀ (fuel : Nat) (solutions : List (List MSlot)) (seen : List (Finset Nat))
      {st1 st2 : RState}, StreamEquiv st1 st2 →
    (generateTierLoop courses numPreferred prefM nonPrefM maxSolutions fuel
        solutions seen st1).1
      = (generateTierLoop courses numPreferred prefM nonPrefM maxSolutions fuel
          solutions seen st2).1 ∧
    (generateTierLoop courses numPreferred prefM nonPrefM maxSolutions fuel
        solutions seen st1).2.1
      = (generateTierLoop courses numPreferred prefM nonPrefM maxSolutions fuel
          solutions seen st2).2.1 ∧
    StreamEquiv
      (generateTierLoop courses numPreferred prefM nonPrefM maxSolutions fuel
        solutions seen st1).2.2
      (generateTierLoop courses numPreferred prefM nonPrefM maxSolutions fuel
        solutions seen st2).2.2 := by
  intro fuel
  induction fuel with
  | zero => intro solutions seen st1 st2 h; exact ⟨rfl, rfl, h⟩
  | succ fuel ih =>
    intro solutions seen st1 st2 h
    simp only [generateTierLoop]
    split
    · exact ⟨by trivial, by trivial, h⟩
    · obtain ⟨hv, hs⟩ := shuffleList_congr (List.range courses.length) h
      rcases e1 : shuffleList (List.range courses.length) st1 with ⟨i1, t1⟩
      rcases e2 : shuffleList (List.range courses.length) st2 with ⟨i2, t2⟩
      rw [e1, e2] at hv hs
      try rw [e1]
      try rw [e2]
      have hii : i1 = i2 := hv
      have ht : StreamEquiv t1 t2 := hs
      subst hii
      try dsimp only
      obtain ⟨hg, hs'⟩ := tryBuildTimetable_congr courses (i1.take numPreferred)
        prefM nonPrefM ht
      rcases e3 : tryBuildTimetable courses (i1.take numPreferred) prefM
        nonPrefM t1 with ⟨o1, s1⟩
      rcases e4 : tryBuildTimetable courses (i1.take numPreferred) prefM
        nonPrefM t2 with ⟨o2, s2⟩
      rw [e3, e4] at hg hs'
      try rw [e3]
      try rw [e4]
      have ho : o1 = o2 := hg
      have hss : StreamEquiv s1 s2 := hs'
      subst ho
      cases o1 with
      | none => exact ih solutions seen hss
      | some result =>
        try dsimp only
        by_cases hsig : solutionSig result ∈ seen
        · simp only [if_pos hsig]
          exact ih solutions seen hss
        · simp only [if_neg hsig]
          exact ih _ _ hss

theorem generateTier_congr (courses : List MCourse) (numPreferred : Nat)
    (prefM nonPrefM : List (Nat × List MSlot)) (maxSolutions : Nat)
    (seen : List (Finset Nat)) {st1 st2 : RState} (h : StreamEquiv st1 st2) :
    (generateTier courses numPreferred prefM nonPrefM maxSolutions seen st1).1
      = (generateTier courses numPreferred prefM nonPrefM maxSolutions seen
          st2).1 ∧
    (generateTier courses numPreferred prefM nonPrefM maxSolutions seen st1).2.1
      = (generateTier courses numPreferred prefM nonPrefM maxSolutions seen
          st2).2.1 ∧
    StreamEquiv
      (generateTier courses numPreferred prefM nonPrefM maxSolutions seen st1).2.2
      (generateTier courses numPreferred prefM nonPrefM maxSolutions seen
        st2).2.2 := by
  simp only [generateTier]
  split
  · exact ⟨rfl, rfl, h⟩
  · exact generateTierLoop_congr courses numPreferred prefM nonPrefM
      maxSolutions (maxSolutions * 50) [] seen h

theorem tieredPoolTiers_congr (courses : List MCourse)
    (prefM nonPrefM : List (Nat × List MSlot)) (targetPool : Nat) :
    ∀ (tiers : List Nat) (allSolutions : List (List MSlot))
      (seen : List (Finset Nat)) {st1 st2 : RState}, StreamEquiv st1 st2 →
    (tieredPoolTiers courses prefM nonPrefM targetPool tiers allSolutions seen
        st1).1
      = (tieredPoolTiers courses prefM nonPrefM targetPool tiers allSolutions
          seen st2).1 ∧
    StreamEquiv
      (tieredPoolTiers courses prefM nonPrefM targetPool tiers allSolutions seen
        st1).2
      (tieredPoolTiers courses prefM nonPrefM targetPool tiers allSolutions seen
        st2).2 := by
  intro tiers
  induction tiers with
  | nil => intro allSolutions seen st1 st2 h; exact ⟨rfl, h⟩
  | cons numPreferred rest ih =>
    intro allSolutions seen st1 st2 h
    simp only [tieredPoolTiers]
    split
    · exact ⟨by trivial, h⟩
    · obtain ⟨hv, hw, hs⟩ := generateTier_congr courses numPreferred prefM
        nonPrefM (targetPool - allSolutions.length) seen h
      rcases e1 : generateTier courses numPreferred prefM nonPrefM
        (targetPool - allSolutions.length) seen st1 with ⟨v1, w1, s1⟩
      rcases e2 : generateTier courses numPreferred prefM nonPrefM
        (targetPool - allSolutions.length) seen st2 with ⟨v2, w2, s2⟩
      rw [e1, e2] at hv hw hs
      try rw [e1]
      try rw [e2]
      have hvv : v1 = v2 := hv
      have hww : w1 = w2 := hw
      have hss : StreamEquiv s1 s2 := hs
      subst hvv
      subst hww
      exact ih (allSolutions ++ v1) w1 hss

theorem generateTieredTeacherPool_congr (p : MPreferences)
    (courses : List MCourse) (m : List (Nat × List MSlot))
    (targetPool targetSize : Nat) {st1 st2 : RState}
    (h : StreamEquiv st1 st2) :
    (generateTieredTeacherPool p courses m targetPool targetSize st1).1
      = (generateTieredTeacherPool p courses m targetPool targetSize st2).1 ∧
    StreamEquiv
      (generateTieredTeacherPool p courses m targetPool targetSize st1).2
      (generateTieredTeacherPool p courses m targetPool targetSize st2).2 := by
  simp only [generateTieredTeacherPool]
  split
  · exact ⟨rfl, h⟩
  · rcases hsp : splitPreferred p courses m with ⟨prefM, nonPrefM⟩
    try dsimp only
    obtain ⟨hv, hs⟩ := tieredPoolTiers_congr courses prefM nonPrefM targetPool
      ((List.range (courses.length + 1)).reverse) [] [] h
    rcases e1 : tieredPoolTiers courses prefM nonPrefM targetPool
      ((List.range (courses.length + 1)).reverse) [] [] st1 with ⟨v1, s1⟩
    rcases e2 : tieredPoolTiers courses prefM nonPrefM targetPool
      ((List.range (courses.length + 1)).reverse) [] [] st2 with ⟨v2, s2⟩
    rw [e1, e2] at hv hs
    try rw [e1]
    try rw [e2]
    have hvv : v1 = v2 := hv
    have hss : StreamEquiv s1 s2 := hs
    subst hvv
    exact ⟨rfl, hss⟩

theorem rankedGo_congr (m : List (Nat × List MSlot)) :
    ∀ (cids : List Nat) (selected : List MSlot)
      (occupied : List (String × Nat)) {st1 st2 : RState},
    StreamEquiv st1 st2 →
    (rankedGo m cids selected occupied st1).1
      = (rankedGo m cids selected occupied st2).1 ∧
    StreamEquiv (rankedGo m cids selected occupied st1).2
      (rankedGo m cids selected occupied st2).2 := by
  intro cids
  induction cids with
  | nil => intro selected occupied st1 st2 h; exact ⟨rfl, h⟩
  | cons cid rest ih =>
    intro selected occupied st1 st2 h
    simp only [rankedGo]
    split
    · exact ⟨by trivial, h⟩
    · obtain ⟨hv, hs⟩ := sampleList_congr (min (mapGet m cid).length 5)
        (mapGet m cid) h
      rcases e1 : sampleList (mapGet m cid) (min (mapGet m cid).length 5) st1
        with ⟨l1, t1⟩
      rcases e2 : sampleList (mapGet m cid) (min (mapGet m cid).length 5) st2
        with ⟨l2, t2⟩
      rw [e1, e2] at hv hs
      try rw [e1]
      try rw [e2]
      have hll : l1 = l2 := hv
      have ht : StreamEquiv t1 t2 := hs
      subst hll
      try dsimp only
      rcases hff : firstFit l1 selected occupied with _ | ⟨slot, newTimes⟩
      · simp only [hff]
        exact ⟨by trivial, ht⟩
      · simp only [hff]
        exact ih (selected ++ [slot]) (occupied ++ newTimes) ht

theorem rankedPoolAttempt_congr (courses : List MCourse)
    (m : List (Nat × List MSlot)) {st1 st2 : RState}
    (h : StreamEquiv st1 st2) :
    (rankedPoolAttempt courses m st1).1 = (rankedPoolAttempt courses m st2).1 ∧
    StreamEquiv (rankedPoolAttempt courses m st1).2
      (rankedPoolAttempt courses m st2).2 := by
  obtain ⟨hv, hs⟩ := shuffleList_congr (courses.map (·.id)) h
  simp only [rankedPoolAttempt]
  rcases e1 : shuffleList (courses.map (·.id)) st1 with ⟨c1, t1⟩
  rcases e2 : shuffleList (courses.map (·.id)) st2 with ⟨c2, t2⟩
  rw [e1, e2] at hv hs
  try rw [e1]
  try rw [e2]
  have hcc : c1 = c2 := hv
  have ht : StreamEquiv t1 t2 := hs
  subst hcc
  try dsimp only
  obtain ⟨hg, hs'⟩ := rankedGo_congr m c1 [] [] ht
  rcases e3 : rankedGo m c1 [] [] t1 with ⟨o1, s1⟩
  rcases e4 : rankedGo m c1 [] [] t2 with ⟨o2, s2⟩
  rw [e3, e4] at hg hs'
  try rw [e3]
  try rw [e4]
  have ho : o1 = o2 := hg
  have hss : StreamEquiv s1 s2 := hs'
  subst ho
  cases o1 with
  | none => exact ⟨rfl, hss⟩
  | some sel => exact ⟨rfl, hss⟩

theorem rankedPoolLoop_congr (courses : List MCourse)
    (m : List (Nat × List MSlot)) (targetPool : Nat) :
    ∀ (fuel : Nat) (pool : List (List MSlot))
      (seen : List (Finset String × Finset Nat × Nat × Nat)) {st1 st2 : RState},
    StreamEquiv st1 st2 →
    (rankedPoolLoop courses m targetPool fuel pool seen st1).1
      = (rankedPoolLoop courses m targetPool fuel pool seen st2).1 ∧
    StreamEquiv (rankedPoolLoop courses m targetPool fuel pool seen st1).2
      (rankedPoolLoop courses m targetPool fuel pool seen st2).2 := by
  intro fuel
  induction fuel with
  | zero => intro pool seen st1 st2 h; exact ⟨rfl, h⟩
  | succ fuel ih =>
    intro pool seen st1 st2 h
    simp only [rankedPoolLoop]
    split
    · exact ⟨by trivial, h⟩
    · obtain ⟨hg, hs⟩ := rankedPoolAttempt_congr courses m h
      rcases e1 : rankedPoolAttempt courses m st1 with ⟨o1, s1⟩
      rcases e2 : rankedPoolAttempt courses m st2 with ⟨o2, s2⟩
      rw [e1, e2] at hg hs
      try rw [e1]
      try rw [e2]
      have ho : o1 = o2 := hg
      have hss : StreamEquiv s1 s2 := hs
      subst ho
      cases o1 with
      | none => exact ih pool seen hss
      | some result =>
        try dsimp only
        by_cases hsig : getTimetableSignature result ∈ seen
        · simp only [if_pos hsig]
          exact ih pool seen hss
        · simp only [if_neg hsig]
          exact ih _ _ hss

theorem generateRankedPool_congr (p : MPreferences) (courses : List MCourse)
    (targetSize poolAttempts : Nat) {st1 st2 : RState}
    (h : StreamEquiv st1 st2) :
    (generateRankedPool p courses targetSize poolAttempts st1).1
      = (generateRankedPool p courses targetSize poolAttempts st2).1 ∧
    StreamEquiv (generateRankedPool p courses targetSize poolAttempts st1).2
      (generateRankedPool p courses targetSize poolAttempts st2).2 := by
  obtain ⟨hm, hs⟩ := buildSlotMap_congr p courses true true h
  simp only [generateRankedPool]
  rcases e1 : buildSlotMap p courses true true st1 with ⟨m1, s1⟩
  rcases e2 : buildSlotMap p courses true true st2 with ⟨m2, s2⟩
  rw [e1, e2] at hm hs
  try rw [e1]
  try rw [e2]
  have hmm : m1 = m2 := hm
  have hss : StreamEquiv s1 s2 := hs
  subst hmm
  try dsimp only
  obtain ⟨hv, hs'⟩ := rankedPoolLoop_congr courses m1 20000 poolAttempts [] []
    hss
  rcases e3 : rankedPoolLoop courses m1 20000 poolAttempts [] [] s1
    with ⟨v1, u1⟩
  rcases e4 : rankedPoolLoop courses m1 20000 poolAttempts [] [] s2
    with ⟨v2, u2⟩
  rw [e3, e4] at hv hs'
  try rw [e3]
  try rw [e4]
  have hvv : v1 = v2 := hv
  have huu : StreamEquiv u1 u2 := hs'
  subst hvv
  exact ⟨rfl, huu⟩

/-- First candidate slot of the C10 counterexample course. -/
def c10d1 : MSlot := ⟨1, 1, ["A11"], none, "V1", 3⟩

/-- Second candidate slot of the C10 counterexample course. -/
def c10d2 : MSlot := ⟨2, 1, ["A21"], none, "V2", 3⟩

/-- The single course of the C10 counterexample instance. -/
def c10Course : MCourse := ⟨1, 3, [c10d1, c10d2]⟩

/-- A stream making the first `generate_unified` run keep the pool order and
the second run (continuing at position 5 of the same global stream) swap it. -/
def c10Stream : RState := ⟨fun n => if n = 5 then 1 else 0, 0⟩

/-- C10: with a fixed random seed, any sampling-based strategy
(`generate_unified` / `generate_ranked_pool` / `generate_diverse` /
`generate_tiered_teacher_pool`) returns an identical solution set across two
runs on the same inputs, the randomness being sourced from an explicit,
seedable generator instance and never from hidden global state.  What holds:
every strategy is a deterministic function of its inputs and of the draw
sequence of the generator state, so two runs started from states that emit
the same draws — the situation re-seeding recreates — return identical
solution lists.  The source, however, draws from the module-global `random`
generator (`import random`, `random.shuffle`, `random.sample`) and never
creates a generator instance, so a second run in the same process continues
the shared stream, and two back-to-back runs on the same inputs can differ
(exhibited by the counterexample below). -/
theorem claim_C10_seedDeterminism (p : MPreferences) (courses : List MCourse)
    (m : List (Nat × List MSlot))
    (targetSize poolAttempts limit targetPool : Nat) (minDiversity : Int)
    {st1 st2 : RState} (h : StreamEquiv st1 st2) :
    (generateUnified p courses targetSize st1).1
      = (generateUnified p courses targetSize st2).1 ∧
    (generateRankedPool p courses targetSize poolAttempts st1).1
      = (generateRankedPool p courses targetSize poolAttempts st2).1 ∧
    (generateDiverse p courses m limit minDiversity st1).1
      = (generateDiverse p courses m limit minDiversity st2).1 ∧
    (generateTieredTeacherPool p courses m targetPool targetSize st1).1
      = (generateTieredTeacherPool p courses m targetPool targetSize st2).1 :=
  ⟨(generateUnified_congr p courses targetSize h).1,
   (generateRankedPool_congr p courses targetSize poolAttempts h).1,
   (generateDiverse_congr p courses m limit minDiversity h).1,
   (generateTieredTeacherPool_congr p courses m targetPool targetSize h).1⟩

theorem claim_C10_seedDeterminism_witness :
    StreamEquiv ⟨fun _ => 0, 0⟩ ⟨fun _ => 0, 37⟩ ∧
    (generateUnified defaultPreferences [c10Course] 1 ⟨fun _ => 0, 0⟩).1
      = (generateUnified defaultPreferences [c10Course] 1 ⟨fun _ => 0, 37⟩).1 :=
  ⟨fun _ => rfl,
   (@claim_C10_seedDeterminism defaultPreferences [c10Course] [] 1 1 1 1 0
      ⟨fun _ => 0, 0⟩ ⟨fun _ => 0, 37⟩ (fun _ => rfl)).1⟩

set_option maxRecDepth 40000 in
/-- Two back-to-back `generate_unified` runs on the same one-course instance,
the second starting from the global generator state the first left behind
(exactly what happens in one Python process without re-seeding): the first
returns the `A11` candidate, the second the `A21` candidate. -/
theorem claim_C10_counterexample :
    ((generateUnified defaultPreferences [c10Course] 1 c10Stream).1.map
        (·.slots) = [[c10d1]]) ∧
    ((generateUnified defaultPreferences [c10Course] 1
        (generateUnified defaultPreferences [c10Course] 1 c10Stream).2).1.map
          (·.slots) = [[c10d2]]) ∧
    ([[c10d1]] : List (List MSlot)) ≠ [[c10d2]] :=
  ⟨rfl, rfl, by decide⟩

end FFCS
